import Mathlib

/-!
# MyOS kernel (kprint.c, kutils.c, kmath.c): model and verified properties

The VGA text console of the kernel is a piece of global state (the memory-mapped
cell buffer and the software cursor) driven by four public functions,
`kprint`, `kclear_screen`, `kset_cursor_pos` and `kprint_at`, and two static
helpers, `scroll_screen` and `update_hardware_cursor`.

The C code is embedded by explicit state passing over the record `Console`:

* C `int` values (the cursor, the arguments of `kset_cursor_pos`) are `Int`;
  on every state with an in-bounds cursor all arithmetic stays inside
  `[0, 2000]`, far from the 32-bit limits.
* bytes (`uint8_t`, the bytes of a C string) are `Fin 256`; a C string argument
  is the list of bytes stored at the pointer, read up to the first NUL byte or
  the end of the list (where the terminating NUL sits).
* the buffer is a map from the cell index (relative to `VGA_ADDRESS`) to the
  16-bit cell value, so that the unchecked C indexing has a meaning for every
  index.
* three fields record what the C code does without storing it: the `outb`
  calls, the number of `scroll_screen` invocations and the buffer indices
  accessed.

The string and arithmetic helpers of kutils.c (`k_strlen`, `k_reverse`, `k_atoi`,
`k_itoa`) and `k_divide` of kmath.c are embedded as pure functions; their loops
run on a counter that the code itself bounds (the `int` length, the value being
divided), and `int` results are wrapped to 32 bits.
-/

namespace MyOS

/-! ## Constants of kprint.h -/

abbrev VGA_WIDTH : Int := 80
abbrev VGA_HEIGHT : Int := 25

abbrev VGA_COLOR_BLACK : Nat := 0x0
abbrev VGA_COLOR_WHITE : Nat := 0xF

/-- The macro `(VGA_COLOR_WHITE | (VGA_COLOR_BLACK << 4))`. -/
abbrev VGA_ATTRIB_WHITE_ON_BLACK : Nat := VGA_COLOR_WHITE ||| (VGA_COLOR_BLACK <<< 4)

/-! ## Machine-level conversions -/

/-- Conversion of a C `int`, given by its 32-bit two's complement bit pattern,
to `uint16_t`: the low 16 bits. -/
def to_uint16 (bits : Nat) : Nat := bits % 65536

/-- The bit pattern (32-bit two's complement) of a byte read through plain
`char` and promoted to `int`. Plain `char` is signed on the x86 targets this
kernel is built for, so bytes from 0x80 on are sign-extended. -/
def char_to_int (b : Fin 256) : Nat :=
  if b.val < 128 then b.val else 0xFFFFFF00 + b.val

/-- The expression `(VGA_ATTRIB_WHITE_ON_BLACK << 8) | ' '` stored into a cell. -/
def blank_cell : Nat := to_uint16 ((VGA_ATTRIB_WHITE_ON_BLACK <<< 8) ||| 0x20)

/-- The expression `(color_attribute << 8) | c` stored into a cell, where
`color_attribute` is a `uint8_t` and `c` a plain `char`. -/
def char_cell (color_attribute c : Fin 256) : Nat :=
  to_uint16 ((color_attribute.val <<< 8) ||| char_to_int c)

/-! ## The console state -/

/-- The global state of kprint.c together with the record of its effects. -/
structure Console where
  /-- The cells `vga_buffer[i]`. -/
  vga_buffer : Int → Nat
  cursor_x : Int
  cursor_y : Int
  /-- Every `outb (port, data)` call so far, oldest first. -/
  ports : List (Nat × Nat)
  /-- How many times `scroll_screen` has been entered. -/
  scrolls : Nat
  /-- Every index at which `vga_buffer` has been read or written, oldest first. -/
  touched : List Int

/-- The state at boot: `cursor_x = 0`, `cursor_y = 0`, some buffer contents. -/
def Console.init (g : Int → Nat) : Console :=
  { vga_buffer := g, cursor_x := 0, cursor_y := 0, ports := [], scrolls := 0, touched := [] }

/-- The cursor is inside the 80x25 grid. -/
def Console.InBounds (s : Console) : Prop :=
  0 ≤ s.cursor_x ∧ s.cursor_x < VGA_WIDTH ∧ 0 ≤ s.cursor_y ∧ s.cursor_y < VGA_HEIGHT

instance (s : Console) : Decidable s.InBounds := by
  unfold Console.InBounds; infer_instance

/-- Port output `outb (port, data)` (boot.asm), recorded in the log. -/
def outb (port data : Nat) (s : Console) : Console :=
  { s with ports := s.ports ++ [(port, data)] }

/-- The assignment `vga_buffer[i] = v`. -/
def vga_write (i : Int) (v : Nat) (s : Console) : Console :=
  { s with
    vga_buffer := fun j => if j = i then v else s.vga_buffer j
    touched := s.touched ++ [i] }

/-- The read `vga_buffer[i]`: the value and the state with the access recorded. -/
def vga_read (i : Int) (s : Console) : Nat × Console :=
  (s.vga_buffer i, { s with touched := s.touched ++ [i] })

/-- The C loop `for (int i = lo; i < hi; i++) body`, for constant bounds: the
body runs for `i = lo, lo + 1, ..., hi - 1` in this order. -/
def for_range (lo hi : Nat) (body : Int → Console → Console) (s : Console) : Console :=
  (List.range (hi - lo)).foldl (fun st k => body ((lo + k : Nat) : Int) st) s

/-! ## The functions of kprint.c -/

/-- The static helper `update_hardware_cursor`. -/
def update_hardware_cursor (s : Console) : Console :=
  let cursor_pos : Nat := ((s.cursor_y * VGA_WIDTH + s.cursor_x) % 65536).toNat
  let s1 := outb 0x3D4 0x0E s
  let s2 := outb 0x3D5 ((cursor_pos >>> 8) % 256) s1
  let s3 := outb 0x3D4 0x0F s2
  outb 0x3D5 ((cursor_pos &&& 0xFF) % 256) s3

/-- The static helper `scroll_screen`. -/
def scroll_screen (s : Console) : Console :=
  let s0 := { s with scrolls := s.scrolls + 1 }
  let s1 := for_range 1 25 (fun y st =>
      for_range 0 80 (fun x st1 =>
        let r := vga_read (y * VGA_WIDTH + x) st1
        vga_write ((y - 1) * VGA_WIDTH + x) r.1 r.2) st) s0
  for_range 0 80 (fun x st => vga_write ((VGA_HEIGHT - 1) * VGA_WIDTH + x) blank_cell st) s1

/-- First part of the body of the `while` loop of `kprint`: the effect of the
character itself (lines 63 to 82). -/
def kprint_effect (b color_attribute : Fin 256) (s : Console) : Console :=
  let c := char_to_int b
  if c = 10 then
    { s with cursor_x := 0, cursor_y := s.cursor_y + 1 }
  else if c = 13 then
    { s with cursor_x := 0 }
  else if c = 8 then
    if s.cursor_x > 0 then
      let s1 := { s with cursor_x := s.cursor_x - 1 }
      vga_write (s1.cursor_y * VGA_WIDTH + s1.cursor_x) blank_cell s1
    else if s.cursor_y > 0 then
      let s1 := { s with cursor_y := s.cursor_y - 1 }
      let s2 := { s1 with cursor_x := VGA_WIDTH - 1 }
      vga_write (s2.cursor_y * VGA_WIDTH + s2.cursor_x) blank_cell s2
    else s
  else
    let s1 := vga_write (s.cursor_y * VGA_WIDTH + s.cursor_x) (char_cell color_attribute b) s
    { s1 with cursor_x := s1.cursor_x + 1 }

/-- Second part of the loop body: the right-edge check (lines 85 to 88). -/
def kprint_wrap (s : Console) : Console :=
  if s.cursor_x ≥ VGA_WIDTH then { s with cursor_x := 0, cursor_y := s.cursor_y + 1 } else s

/-- Third part of the loop body: the bottom-edge check (lines 91 to 94). -/
def kprint_scroll (s : Console) : Console :=
  if s.cursor_y ≥ VGA_HEIGHT then
    let s1 := scroll_screen s
    { s1 with cursor_y := VGA_HEIGHT - 1 }
  else s

/-- One iteration of the `while` loop of `kprint` for the non-NUL byte `b`. -/
def kprint_char (b color_attribute : Fin 256) (s : Console) : Console :=
  update_hardware_cursor (kprint_scroll (kprint_wrap (kprint_effect b color_attribute s)))

/-- The function `kprint (str, color_attribute)`: the loop runs until `str[i]` is NUL. -/
def kprint : List (Fin 256) → Fin 256 → Console → Console
  | [], _, s => s
  | b :: rest, color_attribute, s =>
    if b = 0 then s else kprint rest color_attribute (kprint_char b color_attribute s)

/-- The function `kclear_screen ()`. -/
def kclear_screen (s : Console) : Console :=
  let s1 := for_range 0 25 (fun y st =>
      for_range 0 80 (fun x st1 => vga_write (y * VGA_WIDTH + x) blank_cell st1) st) s
  let s2 := { s1 with cursor_x := 0 }
  let s3 := { s2 with cursor_y := 0 }
  update_hardware_cursor s3

/-- The function `kset_cursor_pos (x, y)`. -/
def kset_cursor_pos (x y : Int) (s : Console) : Console :=
  let x1 := if x < 0 then 0 else x
  let x2 := if x1 ≥ VGA_WIDTH then VGA_WIDTH - 1 else x1
  let y1 := if y < 0 then 0 else y
  let y2 := if y1 ≥ VGA_HEIGHT then VGA_HEIGHT - 1 else y1
  let s1 := { s with cursor_x := x2 }
  let s2 := { s1 with cursor_y := y2 }
  update_hardware_cursor s2

/-- The function `kprint_at (str, x, y, color_attribute)`. -/
def kprint_at (str : List (Fin 256)) (x y : Int) (color_attribute : Fin 256)
    (s : Console) : Console :=
  let original_x := s.cursor_x
  let original_y := s.cursor_y
  let s1 := kset_cursor_pos x y s
  let s2 := kprint str color_attribute s1
  kset_cursor_pos original_x original_y s2

/-- One call of a public function of kprint.h. -/
inductive Call where
  | kprint (str : List (Fin 256)) (color_attribute : Fin 256)
  | kclear_screen
  | kset_cursor_pos (x y : Int)
  | kprint_at (str : List (Fin 256)) (x y : Int) (color_attribute : Fin 256)

/-- The effect of one call on the console. -/
def Call.run : Call → Console → Console
  | .kprint str a, s => MyOS.kprint str a s
  | .kclear_screen, s => MyOS.kclear_screen s
  | .kset_cursor_pos x y, s => MyOS.kset_cursor_pos x y s
  | .kprint_at str x y a, s => MyOS.kprint_at str x y a s

/-- The effect of a sequence of calls, first call first. -/
def run_calls (calls : List Call) (s : Console) : Console :=
  calls.foldl (fun st c => c.run st) s

/-- The cell value with character byte `ch` (low byte) and attribute byte
`attr` (high byte). -/
def mk_cell (ch attr : Nat) : Nat := attr * 256 + ch

/-! ## Predicates and sample states used in the statements -/

/-- Everything but the buffer and the access record is as in `s0`. -/
def SameCursor (s0 st : Console) : Prop :=
  st.cursor_x = s0.cursor_x ∧ st.cursor_y = s0.cursor_y ∧ st.ports = s0.ports ∧
    st.scrolls = s0.scrolls

/-- The cells with index in `[lo, m)` are blank, all the others are as in `g`. -/
def FillInv (g : Int → Nat) (lo m : Int) (st : Console) : Prop :=
  ∀ j : Int, st.vga_buffer j = if lo ≤ j ∧ j < m then blank_cell else g j

/-- The cells with index in `[0, m)` hold the cell 80 places further in `g`, all
the others are as in `g`. -/
def CopyInv (g : Int → Nat) (m : Int) (st : Console) : Prop :=
  ∀ j : Int, st.vga_buffer j = if 0 ≤ j ∧ j < m then g (j + 80) else g j

/-- A byte that `kprint` treats as a regular character: not the terminator
and none of the three control characters. -/
def Regular (b : Fin 256) : Prop := b ≠ 0 ∧ b ≠ 10 ∧ b ≠ 13 ∧ b ≠ 8

instance (b : Fin 256) : Decidable (Regular b) := by
  unfold Regular; infer_instance

/-- A console with a recognisable cell in every place, the cursor at column 17 of row 24. -/
def sample_last_row : Console :=
  { vga_buffer := fun j => (j % 65536).toNat, cursor_x := 17, cursor_y := 24,
    ports := [], scrolls := 0, touched := [] }

/-- A console with the cursor in the middle of the screen, at column 5 of row 3. -/
def sample_mid : Console :=
  { vga_buffer := fun j => (j % 65536).toNat, cursor_x := 5, cursor_y := 3,
    ports := [], scrolls := 0, touched := [] }

/-- A console with the cursor at the start of row 3. -/
def sample_line_start : Console :=
  { vga_buffer := fun j => (j % 65536).toNat, cursor_x := 0, cursor_y := 3,
    ports := [], scrolls := 0, touched := [] }

/-- The statement of the line property of claim C9 for one call: the low bytes
stored in the cursor row from the cursor column on are the bytes of `str` in
order, and the column has advanced by the length of `str`. -/
def LineReadsBack (str : List (Fin 256)) (a : Fin 256) (s : Console) : Prop :=
  (∀ (i : Nat) (hi : i < str.length),
    (kprint str a s).vga_buffer (s.cursor_y * 80 + s.cursor_x + i) % 256 = (str[i]).val) ∧
  (kprint str a s).cursor_x = s.cursor_x + str.length

/-- A console with the cursor in the last column of row 0. -/
def sample_last_col : Console :=
  { vga_buffer := fun _ => 0, cursor_x := 79, cursor_y := 0,
    ports := [], scrolls := 0, touched := [] }

/-- A console with the cursor in the last column of the last row. -/
def sample_corner : Console :=
  { vga_buffer := fun _ => 0, cursor_x := 79, cursor_y := 24,
    ports := [], scrolls := 0, touched := [] }

/-- A printable ASCII character, 0x20 (space) to 0x7E (tilde). -/
def Printable (b : Fin 256) : Prop := 0x20 ≤ b.val ∧ b.val ≤ 0x7E

instance (b : Fin 256) : Decidable (Printable b) := by
  unfold Printable; infer_instance

/-- The statement of claim C11 for one call: after `kprint_at (str, x, y, a)` the
cells of row `y` from column `x` on hold the characters of `str` in order. -/
def RowHolds (str : List (Fin 256)) (x y : Int) (a : Fin 256) (s : Console) : Prop :=
  ∀ (i : Nat) (hi : i < str.length),
    (kprint_at str x y a s).vga_buffer (y * 80 + x + i) % 256 = (str[i]).val

/-- A console with the cursor at the start of the last row. -/
def sample_bottom_left : Console :=
  { vga_buffer := fun j => (j % 65536).toNat, cursor_x := 0, cursor_y := 24,
    ports := [], scrolls := 0, touched := [] }

/-- The hardware cursor is in step with the software cursor: the last four port
writes select register 0x0E, send the high byte, select register 0x0F and send
the low byte of the linear offset `cursor_y * 80 + cursor_x`. -/
def CursorSynced (s : Console) : Prop :=
  ∃ (pre : List (Nat × Nat)) (hi lo : Nat),
    s.ports = pre ++ [(0x3D4, 0x0E), (0x3D5, hi), (0x3D4, 0x0F), (0x3D5, lo)] ∧
    hi < 256 ∧ lo < 256 ∧ ((hi * 256 + lo : Nat) : Int) = s.cursor_y * 80 + s.cursor_x

/-- The buffer accesses made between `s0` and `st` all lie inside the grid:
the access record of `st` extends that of `s0` by indices in `[0, 2000)`. -/
def TouchedWithin (s0 st : Console) : Prop :=
  ∃ l : List Int, st.touched = s0.touched ++ l ∧ ∀ i ∈ l, 0 ≤ i ∧ i < 2000

/-! ## C int arithmetic, strings and character buffers (kutils.c, kmath.c)

A C `int` is an `Int` in `[INT_MIN, INT_MAX]`; the result of `+`, `*` and unary
`-` is wrapped to 32-bit two's complement (what the x86 instructions compute).
A `char*` buffer the code writes to is the map from the index to the byte
stored there; a `const char*` argument that is only read is, as for `kprint`,
the list of bytes at the pointer. -/

abbrev INT_MIN : Int := -2147483648
abbrev INT_MAX : Int := 2147483647

/-- The 32-bit two's complement value with the same low 32 bits as `v`. -/
def wrap_int (v : Int) : Int := (v + 2147483648) % 4294967296 - 2147483648

/-- The value of a byte read through plain (signed) `char` and promoted to `int`. -/
def char_val (b : Fin 256) : Int := if b.val < 128 then b.val else b.val - 256

/-- Conversion of an `int` to `char` for a store into a buffer: the low 8 bits. -/
def int_to_char (v : Int) : Fin 256 := Fin.ofNat (v % 256).toNat

/-- The assignment `s[i] = c` on a character buffer. -/
def buf_write (s : Int → Fin 256) (i : Int) (c : Fin 256) : Int → Fin 256 :=
  fun j => if j = i then c else s j

/-- The first `n` bytes of a buffer, as the byte list a `const char*` reader sees. -/
def bytes_at (s : Int → Fin 256) (n : Nat) : List (Fin 256) :=
  (List.range n).map (fun (i : Nat) => s (i : Int))

/-- The loop of `k_strlen`: `while (s[len] != '\0') len++`. The counter is an
`int`, so at most `INT_MAX` increments are possible. -/
def k_strlen_loop (s : Int → Fin 256) : Nat → Int → Int
  | 0, len => len
  | fuel + 1, len => if s len ≠ 0 then k_strlen_loop s fuel (len + 1) else len

/-- The function `k_strlen (s)`. -/
def k_strlen (s : Int → Fin 256) : Int := k_strlen_loop s 2147483647 0

/-- The loop of `k_reverse`: `for (...; i < j; i++, j--)` swapping `s[i]` and `s[j]`. -/
def k_reverse_loop : Nat → Int → Int → (Int → Fin 256) → (Int → Fin 256)
  | 0, _, _, s => s
  | fuel + 1, i, j, s =>
    if i < j then
      let c := s i
      let s1 := buf_write s i (s j)
      let s2 := buf_write s1 j c
      k_reverse_loop fuel (i + 1) (j - 1) s2
    else s

/-- The function `k_reverse (s)`; the loop runs fewer than `k_strlen (s)` times. -/
def k_reverse (s : Int → Fin 256) : Int → Fin 256 :=
  k_reverse_loop (k_strlen s).toNat 0 (k_strlen s - 1) s

/-- First loop of `k_atoi`: skip spaces, tabs, newlines and carriage returns.
The result is the string from `str[i]` on. -/
def atoi_skip : List (Fin 256) → List (Fin 256)
  | [] => []
  | b :: rest =>
    if char_val b = 32 ∨ char_val b = 9 ∨ char_val b = 10 ∨ char_val b = 13 then
      atoi_skip rest
    else b :: rest

/-- Last loop of `k_atoi`: `while (str[i] >= '0' && str[i] <= '9')
res = res * 10 + (str[i] - '0')`. -/
def atoi_digits (res : Int) : List (Fin 256) → Int
  | [] => res
  | b :: rest =>
    if char_val b ≥ 48 ∧ char_val b ≤ 57 then
      atoi_digits (wrap_int (wrap_int (res * 10) + (char_val b - 48))) rest
    else res

/-- The character `str[i]` at the head of what is left of a string; past the
end sits the terminating NUL. -/
def head_char (str : List (Fin 256)) : Int :=
  match str with
  | [] => 0
  | b :: _ => char_val b

/-- The function `k_atoi (str)`. -/
def k_atoi (str : List (Fin 256)) : Int :=
  let s1 := atoi_skip str
  let sign : Int := if head_char s1 = 45 then -1 else 1
  let s2 := if head_char s1 = 45 then s1.tail else if head_char s1 = 43 then s1.tail else s1
  let res := atoi_digits 0 s2
  wrap_int (sign * res)

/-- The character stored for the digit `rem`:
`(rem > 9) ? (rem - 10) + 'a' : rem + '0'`. -/
def itoa_digit (rem : Int) : Fin 256 :=
  int_to_char (if rem > 9 then (rem - 10) + 97 else rem + 48)

/-- The digit loop of `k_itoa`: `while (value > 0)`, storing the digits least
significant first; returns the buffer and the index `i`. -/
def itoa_loop : Nat → Int → Int → (Int → Fin 256) → Int → (Int → Fin 256) × Int
  | 0, _, _, s, i => (s, i)
  | fuel + 1, value, base, s, i =>
    if value > 0 then
      let rem := Int.tmod value base
      let s1 := buf_write s i (itoa_digit rem)
      itoa_loop fuel (Int.tdiv value base) base s1 (i + 1)
    else (s, i)

/-- The function `k_itoa (value, s, base)`; the result is the buffer `s` after
the call. The digit loop divides a positive `value` by `base >= 2`, so it runs
at most `value` times. -/
def k_itoa (value : Int) (s : Int → Fin 256) (base : Int) : Int → Fin 256 :=
  if base < 2 ∨ base > 36 then buf_write s 0 0
  else if value = 0 then buf_write (buf_write s 0 48) 1 0
  else
    let is_negative : Bool := decide (value < 0 ∧ base = 10)
    let value1 := if value < 0 ∧ base = 10 then wrap_int (-value)
      else if value < 0 then wrap_int (-value) else value
    let r := itoa_loop value1.toNat value1 base s 0
    let r2 := if is_negative then (buf_write r.1 r.2 45, r.2 + 1) else r
    let s3 := buf_write r2.1 r2.2 0
    k_reverse s3

abbrev VGA_COLOR_RED : Nat := 0x4

/-- The macro `(VGA_COLOR_RED | (VGA_COLOR_BLACK << 4))`. -/
abbrev VGA_ATTRIB_RED_ON_BLACK : Nat := VGA_COLOR_RED ||| (VGA_COLOR_BLACK <<< 4)

/-- The string literal "Error: Division by zero!\n" of `k_divide`. -/
def division_message : List (Fin 256) :=
  [0x45, 0x72, 0x72, 0x6F, 0x72, 0x3A, 0x20, 0x44, 0x69, 0x76, 0x69, 0x73, 0x69, 0x6F, 0x6E,
   0x20, 0x62, 0x79, 0x20, 0x7A, 0x65, 0x72, 0x6F, 0x21, 0x0A]

/-- The C expression `a / b` on `int`: the quotient truncated toward zero. It
has no value when `b` is 0 and when the quotient is not representable
(`INT_MIN / -1`): the behaviour is undefined and the x86 `idiv` raises a
divide error. -/
def c_int_div (a b : Int) : Option Int :=
  if b = 0 then none
  else if a = INT_MIN ∧ b = -1 then none
  else some (Int.tdiv a b)

/-- The function `k_divide (numerator, denominator)`: the value returned (`none`
when the division faults) and the console after the call. -/
def k_divide (numerator denominator : Int) (s : Console) : Option Int × Console :=
  if denominator = 0 then
    (some 0, kprint division_message (Fin.ofNat VGA_ATTRIB_RED_ON_BLACK) s)
  else (c_int_div numerator denominator, s)

/-- A buffer filled with the byte 0x55. -/
def sample_buffer : Int → Fin 256 := fun _ => 0x55

/-- The whitespace characters `k_atoi` skips: space, tab, newline, carriage return. -/
def IsSpace (b : Fin 256) : Prop := b.val = 32 ∨ b.val = 9 ∨ b.val = 10 ∨ b.val = 13

/-- A decimal digit character, '0' to '9'. -/
def IsDigit (b : Fin 256) : Prop := 48 ≤ b.val ∧ b.val ≤ 57

instance (b : Fin 256) : Decidable (IsSpace b) := by
  unfold IsSpace; infer_instance

instance (b : Fin 256) : Decidable (IsDigit b) := by
  unfold IsDigit; infer_instance

/-- The number written by a list of decimal digit characters, most significant
first, continuing from `acc`. -/
def dec_from (acc : Int) (ds : List (Fin 256)) : Int :=
  ds.foldl (fun v d => v * 10 + ((d.val : Int) - 48)) acc

/-- The number written by a list of decimal digit characters. -/
def dec_value (ds : List (Fin 256)) : Int := dec_from 0 ds

/-- The buffer after the bytes of `l` have been stored one by one from index `i` on. -/
def buf_store (s : Int → Fin 256) (i : Int) : List (Fin 256) → (Int → Fin 256)
  | [] => s
  | c :: l => buf_store (buf_write s i c) (i + 1) l

/-- The value of a digit character: '0'-'9' are 0-9, 'a'-'z' are 10-35. -/
def digit_value (c : Fin 256) : Nat := if c.val ≤ 57 then c.val - 48 else c.val - 97 + 10

/-- A character of the digit alphabet of `k_itoa`: '0'-'9' or lowercase 'a'-'z'. -/
def IsDigitChar (c : Fin 256) : Prop := (48 ≤ c.val ∧ c.val ≤ 57) ∨ (97 ≤ c.val ∧ c.val ≤ 122)

instance (c : Fin 256) : Decidable (IsDigitChar c) := by
  unfold IsDigitChar; infer_instance

/-- The number a string of digit characters denotes in base `base`, most
significant digit first. -/
def eval_digits (base : Int) (ds : List (Fin 256)) : Int :=
  ds.foldl (fun v c => v * base + (digit_value c : Int)) 0

/-! ## kmath.c: sums, differences and products

An `int` array argument is `none` for a null pointer and otherwise the map from
the index to the element stored there. -/

/-- The function `k_add_n (numbers, count)`. -/
def k_add_n (numbers : Option (Int → Int)) (count : Int) : Int :=
  match numbers with
  | none => 0
  | some a =>
    if count ≤ 0 then 0
    else (List.range count.toNat).foldl (fun sum (i : Nat) => wrap_int (sum + a (i : Int))) 0

/-- The function `k_subtract (a, b)`. -/
def k_subtract (a b : Int) : Int := wrap_int (a - b)

/-- The function `k_multiply_n (numbers, count)`. -/
def k_multiply_n (numbers : Option (Int → Int)) (count : Int) : Int :=
  match numbers with
  | none => 1
  | some a =>
    if count ≤ 0 then 1
    else (List.range count.toNat).foldl
      (fun product (i : Nat) => wrap_int (product * a (i : Int))) 1

/-- The compound literal `(const int[]){x, y}` passed by the callers in kernel.c. -/
def int_pair (x y : Int) : Option (Int → Int) :=
  some (fun i => if i = 0 then x else if i = 1 then y else 0)

/-! ## kinput.c: the keyboard

The keyboard controller is seen through `inb`: one poll is the byte read from
the status port 0x64 and the byte waiting at the data port 0x60 (read only when
bit 0 of the status is set). The input of `kgetc` is the list of polls to come;
when the list runs out the function is still polling. -/

/-- The 90 initialisers of the array `kbd_us[128]`, in order. -/
def kbd_us_table : List (Fin 256) :=
  [0x00, 0x1B, 0x31, 0x32, 0x33, 0x34, 0x35, 0x36, 0x37, 0x38, 0x39, 0x30, 0x2D, 0x3D, 0x08, 0x09,
   0x71, 0x77, 0x65, 0x72, 0x74, 0x79, 0x75, 0x69, 0x6F, 0x70, 0x5B, 0x5D, 0x0A, 0x00, 0x61, 0x73,
   0x64, 0x66, 0x67, 0x68, 0x6A, 0x6B, 0x6C, 0x3B, 0x27, 0x60, 0x00, 0x5C, 0x7A, 0x78, 0x63, 0x76,
   0x62, 0x6E, 0x6D, 0x2C, 0x2E, 0x2F, 0x00, 0x2A, 0x00, 0x20, 0x00, 0x00, 0x00, 0x00, 0x00, 0x00,
   0x00, 0x00, 0x00, 0x00, 0x00, 0x00, 0x00, 0x00, 0x00, 0x00, 0x2D, 0x00, 0x00, 0x00, 0x2B, 0x00,
   0x00, 0x00, 0x00, 0x00, 0x00, 0x00, 0x00, 0x00, 0x00, 0x00]

/-- The element `kbd_us[scan_code]`; the entries without an initialiser are 0. -/
def kbd_us (scan_code : Fin 256) : Fin 256 := kbd_us_table.getD scan_code.val 0

/-- The function `kgetc ()`: the character returned and the polls left, or
`none` while no key press has arrived. -/
def kgetc : List (Fin 256 × Fin 256) → Option (Fin 256 × List (Fin 256 × Fin 256))
  | [] => none
  | (status, data) :: rest =>
    if status.val &&& 0x01 ≠ 0 then
      let scan_code := data
      if scan_code.val &&& 0x80 = 0 then
        if scan_code.val < 128 then some (kbd_us scan_code, rest) else kgetc rest
      else kgetc rest
    else kgetc rest

/-- A poll that `kgetc` passes over: no data ready (status bit 0 clear) or a
key release (scan code bit 7 set). -/
def SkippedPoll (p : Fin 256 × Fin 256) : Prop :=
  p.1.val.testBit 0 = false ∨ p.2.val.testBit 7 = true

/-- A poll that delivers a key press: data ready and scan code bit 7 clear. -/
def PressPoll (p : Fin 256 × Fin 256) : Prop :=
  p.1.val.testBit 0 = true ∧ p.2.val.testBit 7 = false

instance (p : Fin 256 × Fin 256) : Decidable (SkippedPoll p) := by
  unfold SkippedPoll; infer_instance

instance (p : Fin 256 × Fin 256) : Decidable (PressPoll p) := by
  unfold PressPoll; infer_instance

/-! ## kernel.c: the menu and the calculator

A key is the character `kgetc` returned. The screen is part of the state, since
both applications redraw it after a key. -/

/-- The bytes of a string literal without its terminating NUL (all literals of
kernel.c are ASCII). -/
def ascii (s : String) : List (Fin 256) := s.toList.map (fun c => Fin.ofNat c.toNat)

/-- The loop of `k_strlen` on a string that is only read. -/
def k_strlen_str_loop : List (Fin 256) → Int → Int
  | [], len => len
  | b :: rest, len => if b ≠ 0 then k_strlen_str_loop rest (len + 1) else len

/-- The function `k_strlen (s)` on a string that is only read. -/
def k_strlen_str (s : List (Fin 256)) : Int := k_strlen_str_loop s 0

/-- The macro `(VGA_COLOR_BLACK | (VGA_COLOR_WHITE << 4))`. -/
abbrev VGA_ATTRIB_BLACK_ON_WHITE : Nat := VGA_COLOR_BLACK ||| (VGA_COLOR_WHITE <<< 4)

abbrev VGA_COLOR_YELLOW : Nat := 0xE

/-- The macro `(VGA_COLOR_YELLOW | (VGA_COLOR_BLACK << 4))`. -/
abbrev VGA_ATTRIB_YELLOW_ON_BLACK : Nat := VGA_COLOR_YELLOW ||| (VGA_COLOR_BLACK <<< 4)

/-- The array `menu_options`. -/
def menu_options : List (List (Fin 256)) :=
  [ascii "1. Do Math", ascii "2. About MyOS", ascii "3. Reboot", ascii "4. Shutdown",
   ascii "5. Calculator"]

/-- The macro `NUM_MENU_OPTIONS`, cast to `int`. -/
abbrev NUM_MENU_OPTIONS : Int := 5

abbrev MENU_START_Y : Int := 5

/-- The function `draw_menu ()`, for the current value of `selected_option`. -/
def draw_menu (selected_option : Int) (s : Console) : Console :=
  let s1 := for_range 0 7 (fun i st =>
    kprint_at (List.replicate 80 0x20) 0 (MENU_START_Y + i)
      (Fin.ofNat VGA_ATTRIB_WHITE_ON_BLACK) st) s
  let s2 := kprint_at (ascii "--- Main Menu ---")
    (Int.tdiv (VGA_WIDTH - k_strlen_str (ascii "--- Main Menu ---")) 2) (MENU_START_Y - 2)
    (Fin.ofNat VGA_ATTRIB_YELLOW_ON_BLACK) s1
  for_range 0 5 (fun i st =>
    let current_y := MENU_START_Y + i
    let color_attribute : Fin 256 :=
      if i = selected_option then Fin.ofNat VGA_ATTRIB_BLACK_ON_WHITE
      else Fin.ofNat VGA_ATTRIB_WHITE_ON_BLACK
    let option_str := menu_options.getD i.toNat []
    let start_x := Int.tdiv (VGA_WIDTH - k_strlen_str option_str) 2
    kprint_at option_str start_x current_y color_attribute st) s2

/-- The state of the menu: the variable `selected_option` and the screen. -/
structure MenuState where
  selected_option : Int
  console : Console

/-- The function `handle_menu_input ()` for the key `kgetc` returned: the value
returned and the state after the call. -/
def handle_menu_input (key : Fin 256) (m : MenuState) : Int × MenuState :=
  let k := char_val key
  if k = 119 ∨ k = 87 then
    let sel1 := m.selected_option - 1
    let sel2 := if sel1 < 0 then NUM_MENU_OPTIONS - 1 else sel1
    (-1, { selected_option := sel2, console := draw_menu sel2 m.console })
  else if k = 115 ∨ k = 83 then
    let sel1 := m.selected_option + 1
    let sel2 := if sel1 ≥ NUM_MENU_OPTIONS then 0 else sel1
    (-1, { selected_option := sel2, console := draw_menu sel2 m.console })
  else if k = 10 then (m.selected_option, m)
  else (-1, m)

/-- The menu state after a sequence of calls of `handle_menu_input`, one per key. -/
def menu_keys (keys : List (Fin 256)) (m : MenuState) : MenuState :=
  keys.foldl (fun st key => (handle_menu_input key st).2) m

/-- The menu at start-up: `selected_option = 0`. -/
def MenuState.init (s : Console) : MenuState := { selected_option := 0, console := s }

/-- The variables of `kgets` while it runs: the buffer, the index `i`, the
screen (for the echo), and the record of the buffer indices stored to. -/
structure KgetsState where
  buffer : Int → Fin 256
  i : Int
  console : Console
  /-- Every index `j` of a store `buffer[j] = ...` so far, oldest first. -/
  stored : List Int

/-- How far `kgets` gets on the characters `kgetc` delivers: it has returned
(with the characters not consumed), or it is waiting in `kgetc` for the next key. -/
inductive KgetsOutcome where
  | returned (st : KgetsState) (rest : List (Fin 256))
  | waiting (st : KgetsState)

/-- The variables at the end of the outcome. -/
def KgetsOutcome.state : KgetsOutcome → KgetsState
  | .returned st _ => st
  | .waiting st => st

/-- The string literal "\b \b" of `kgets`. -/
def erase_sequence : List (Fin 256) := [0x08, 0x20, 0x08]

/-- The `while (i < max_len - 1)` loop of `kgets` on the characters delivered by
`kgetc`, in order. -/
def kgets_loop (max_len : Int) : List (Fin 256) → KgetsState → KgetsOutcome
  | [], st => if st.i < max_len - 1 then .waiting st else .returned st []
  | c :: rest, st =>
    if st.i < max_len - 1 then
      if char_val c = 10 ∨ char_val c = 13 then .returned st rest
      else if char_val c = 8 then
        if st.i > 0 then
          kgets_loop max_len rest
            { st with
              i := st.i - 1
              console := kprint erase_sequence (Fin.ofNat VGA_ATTRIB_WHITE_ON_BLACK) st.console }
        else kgets_loop max_len rest st
      else if char_val c ≠ 0 then
        kgets_loop max_len rest
          { buffer := buf_write st.buffer st.i c
            i := st.i + 1
            console := kprint [c] (Fin.ofNat VGA_ATTRIB_WHITE_ON_BLACK) st.console
            stored := st.stored ++ [st.i] }
      else kgets_loop max_len rest st
    else .returned st (c :: rest)

/-- The function `kgets (buffer, max_len)` on the characters delivered by `kgetc`.
The bound `max_len - 1` is exact for every `int` value of `max_len` but INT_MIN, where
the C expression overflows. -/
def kgets (buffer : Int → Fin 256) (max_len : Int) (input : List (Fin 256))
    (console : Console) : KgetsOutcome :=
  match kgets_loop max_len input
      { buffer := buffer, i := 0, console := console, stored := [] } with
  | .waiting st => .waiting st
  | .returned st rest =>
    .returned { st with buffer := buf_write st.buffer st.i 0, stored := st.stored ++ [st.i] } rest

/-- The line editing rule in the words of the specification, one character at a
time: nothing changes once `max_len - 1` characters are stored; a backspace
removes the last stored character if there is one; a 0 is ignored; every other
character is appended. -/
def edit_step (max_len : Int) (acc : List (Fin 256)) (c : Fin 256) : List (Fin 256) :=
  if (acc.length : Int) ≥ max_len - 1 then acc
  else if c = 8 then acc.dropLast
  else if c = 0 then acc
  else acc ++ [c]

/-- The line in the words of the specification: the fold of `edit_step` over the
characters that precede the first '\n' or '\r'. -/
def edited_line (max_len : Int) (input : List (Fin 256)) : List (Fin 256) :=
  (input.takeWhile (fun c => decide (c ≠ 10 ∧ c ≠ 13))).foldl (edit_step max_len) []

/-- A character that `kgets` stores: not NUL, newline, carriage return or backspace. -/
def Storable (c : Fin 256) : Prop := c ≠ 0 ∧ c ≠ 10 ∧ c ≠ 13 ∧ c ≠ 8

/-- The loop of `k_strcpy`: copies `src[i]` to `dest[i]` until `src[i]` is NUL; gives
the destination and the final `i`. -/
def k_strcpy_loop : List (Fin 256) → (Int → Fin 256) → Int → (Int → Fin 256) × Int
  | [], dest, i => (dest, i)
  | b :: rest, dest, i =>
    if b ≠ 0 then k_strcpy_loop rest (buf_write dest i b) (i + 1) else (dest, i)

/-- The function `k_strcpy (dest, src)` of kernel.c. -/
def k_strcpy (dest : Int → Fin 256) (src : List (Fin 256)) : Int → Fin 256 :=
  let r := k_strcpy_loop src dest 0
  buf_write r.1 r.2 0

/-- The array `calculator_layout[5][4]`. -/
def calculator_layout : List (List (List (Fin 256))) :=
  [[ascii "7", ascii "8", ascii "9", ascii "/"],
   [ascii "4", ascii "5", ascii "6", ascii "*"],
   [ascii "1", ascii "2", ascii "3", ascii "-"],
   [ascii "0", ascii ".", ascii "=", ascii "+"],
   [ascii "C", ascii "Q", ascii "", ascii ""]]

/-- The expression `calculator_layout[y][x]`. -/
def layout_label (y x : Int) : List (Fin 256) :=
  (calculator_layout.getD y.toNat []).getD x.toNat []

/-- The macro `CALC_GRID_ROWS`. -/
abbrev CALC_GRID_ROWS : Int := 5

/-- The macro `CALC_GRID_COLS`. -/
abbrev CALC_GRID_COLS : Int := 4

/-- The macro `CALC_START_X`. -/
abbrev CALC_START_X : Int := 20

/-- The macro `CALC_START_Y`. -/
abbrev CALC_START_Y : Int := 5

/-- The macro `CALC_DISPLAY_X`. -/
abbrev CALC_DISPLAY_X : Int := 15

/-- The macro `CALC_DISPLAY_Y`. -/
abbrev CALC_DISPLAY_Y : Int := 3

/-- The function `draw_calculator (highlight_x, highlight_y)`, for the current content
of `calculator_display_buffer`. The local array `padded` is not initialised in the
source; every byte of it that is read is written first, so it starts as zeros here. -/
def draw_calculator (highlight_x highlight_y : Int) (calculator_display_buffer : Int → Fin 256)
    (s : Console) : Console :=
  let s1 := kclear_screen s
  let s2 := kprint_at (ascii "-----------------------------------") CALC_DISPLAY_X
    (CALC_DISPLAY_Y - 1) (Fin.ofNat VGA_ATTRIB_WHITE_ON_BLACK) s1
  let s3 := kprint_at (ascii "|                                 |") CALC_DISPLAY_X
    CALC_DISPLAY_Y (Fin.ofNat VGA_ATTRIB_WHITE_ON_BLACK) s2
  let s4 := kprint_at (ascii "-----------------------------------") CALC_DISPLAY_X
    (CALC_DISPLAY_Y + 1) (Fin.ofNat VGA_ATTRIB_WHITE_ON_BLACK) s3
  let s5 := kprint_at (bytes_at calculator_display_buffer 81) (CALC_DISPLAY_X + 2)
    CALC_DISPLAY_Y (Fin.ofNat VGA_ATTRIB_YELLOW_ON_BLACK) s4
  for_range 0 5 (fun y sy =>
    for_range 0 4 (fun x sx =>
      let label := layout_label y x
      if head_char label = 0 then sx
      else
        let color : Fin 256 :=
          if x = highlight_x ∧ y = highlight_y then Fin.ofNat VGA_ATTRIB_BLACK_ON_WHITE
          else Fin.ofNat VGA_ATTRIB_WHITE_ON_BLACK
        let padded0 : Int → Fin 256 := fun _ => 0
        let padded1 := k_strcpy padded0 (ascii "   ")
        let padded2 := buf_write padded1 (k_strlen_str label) 0
        let padded3 := k_strcpy padded2 label
        kprint_at (bytes_at padded3 5) (CALC_START_X + x * 4) (CALC_START_Y + y) color sx) sy) s5

/-- The global variables of the calculator, and the screen. -/
structure CalcState where
  calculator_cursor_X : Int
  calculator_cursor_Y : Int
  calculator_display_buffer : Int → Fin 256
  calculator_input_buffer : Int → Fin 256
  calculator_input_buffer_idx : Int
  calculator_operand1 : Int
  calculator_operator : Fin 256
  calculator_expecting_operand2 : Int
  calculator_just_calculated : Int
  console : Console

/-- The function `calculate_result ()`; `none` when the division of `k_divide` is
undefined in C. -/
def calculate_result (st : CalcState) : Option CalcState :=
  if char_val st.calculator_operator = 0 ∨ st.calculator_input_buffer_idx = 0 then some st
  else
    let operand2 := k_atoi (bytes_at st.calculator_input_buffer 32)
    let op := char_val st.calculator_operator
    let r : Option Int × Console :=
      if op = 43 then
        (some (k_add_n (int_pair st.calculator_operand1 operand2) 2), st.console)
      else if op = 45 then (some (k_subtract st.calculator_operand1 operand2), st.console)
      else if op = 42 then
        (some (k_multiply_n (int_pair st.calculator_operand1 operand2) 2), st.console)
      else if op = 47 then k_divide st.calculator_operand1 operand2 st.console
      else (some 0, st.console)
    match r.1 with
    | none => none
    | some result =>
      some { st with
        calculator_operand1 := result
        calculator_display_buffer := k_itoa result st.calculator_display_buffer 10
        calculator_input_buffer_idx := 0
        calculator_input_buffer := buf_write st.calculator_input_buffer 0 0
        calculator_operator := 0
        calculator_expecting_operand2 := 0
        calculator_just_calculated := 1
        console := r.2 }

/-- Where `run_calculator` stands after some keys: still in its loop, returned (the
Q button), or stopped by a division that is undefined in C. -/
inductive CalcOutcome where
  | running (st : CalcState)
  | quit (st : CalcState)
  | trap

/-- The body of the Enter branch of `run_calculator`, for the label
`button_label = calculator_layout[calculator_cursor_Y][calculator_cursor_X]`. -/
def calc_button (button_label : List (Fin 256)) (st : CalcState) : CalcOutcome :=
  let b0 := head_char button_label
  if b0 = 0 then .running st
  else if b0 ≥ 48 ∧ b0 ≤ 57 then
    let st1 : CalcState :=
      if st.calculator_just_calculated ≠ 0 ∨
          (st.calculator_expecting_operand2 ≠ 0 ∧ st.calculator_input_buffer_idx = 0) then
        { st with
          calculator_input_buffer_idx := 0
          calculator_input_buffer := buf_write st.calculator_input_buffer 0 0
          calculator_display_buffer := k_strcpy st.calculator_display_buffer (ascii "0")
          calculator_just_calculated := 0 }
      else st
    if st1.calculator_input_buffer_idx < 32 - 1 then
      let input1 := buf_write st1.calculator_input_buffer st1.calculator_input_buffer_idx
        (button_label.headD 0)
      let input2 := buf_write input1 (st1.calculator_input_buffer_idx + 1) 0
      .running { st1 with
        calculator_input_buffer := input2
        calculator_input_buffer_idx := st1.calculator_input_buffer_idx + 1
        calculator_display_buffer := k_strcpy st1.calculator_display_buffer (bytes_at input2 32) }
    else .running st1
  else if b0 = 46 then .running st
  else if b0 = 67 then
    .running { st with
      calculator_input_buffer_idx := 0
      calculator_input_buffer := buf_write st.calculator_input_buffer 0 0
      calculator_display_buffer := k_strcpy st.calculator_display_buffer (ascii "0")
      calculator_operand1 := 0
      calculator_operator := 0
      calculator_expecting_operand2 := 0
      calculator_just_calculated := 0 }
  else if b0 = 81 then .quit st
  else if b0 = 61 then
    match calculate_result st with
    | none => .trap
    | some st1 => .running st1
  else
    let r : Option CalcState :=
      if st.calculator_input_buffer_idx > 0 then
        let r1 := if char_val st.calculator_operator ≠ 0 then calculate_result st else some st
        match r1 with
        | none => none
        | some st1 =>
          some { st1 with
            calculator_operand1 := k_atoi (bytes_at st1.calculator_input_buffer 32) }
      else if st.calculator_just_calculated ≠ 0 then
        some { st with calculator_just_calculated := 0 }
      else some st
    match r with
    | none => .trap
    | some st2 =>
      .running { st2 with
        calculator_operator := button_label.headD 0
        calculator_expecting_operand2 := 1
        calculator_input_buffer_idx := 0
        calculator_input_buffer := buf_write st2.calculator_input_buffer 0 0
        calculator_display_buffer := k_strcpy st2.calculator_display_buffer button_label }

/-- One turn of the `while (1)` loop of `run_calculator`, for the key `kgetc` returned. -/
def calc_key (key : Fin 256) (st : CalcState) : CalcOutcome :=
  let k := char_val key
  let r : CalcOutcome :=
    if k = 119 ∨ k = 87 then
      .running (if st.calculator_cursor_Y > 0 then
        { st with calculator_cursor_Y := st.calculator_cursor_Y - 1 } else st)
    else if k = 115 ∨ k = 83 then
      .running (if st.calculator_cursor_Y < CALC_GRID_ROWS - 1 then
        { st with calculator_cursor_Y := st.calculator_cursor_Y + 1 } else st)
    else if k = 97 ∨ k = 65 then
      .running (if st.calculator_cursor_X > 0 then
        { st with calculator_cursor_X := st.calculator_cursor_X - 1 } else st)
    else if k = 100 ∨ k = 68 then
      .running (if st.calculator_cursor_X < CALC_GRID_COLS - 1 then
        { st with calculator_cursor_X := st.calculator_cursor_X + 1 } else st)
    else if k = 10 then
      calc_button (layout_label st.calculator_cursor_Y st.calculator_cursor_X) st
    else .running st
  match r with
  | .running st1 =>
    .running { st1 with
      console := draw_calculator st1.calculator_cursor_X st1.calculator_cursor_Y
        st1.calculator_display_buffer st1.console }
  | .quit st1 => .quit st1
  | .trap => .trap

/-- The loop of `run_calculator` on the keys `kgetc` returns, in order. -/
def calc_keys : List (Fin 256) → CalcState → CalcOutcome
  | [], st => .running st
  | key :: rest, st =>
    match calc_key key st with
    | .running st1 => calc_keys rest st1
    | .quit st1 => .quit st1
    | .trap => .trap

/-- The start of `run_calculator ()`, up to the loop: the fresh calculator, from
whatever the globals and the screen held before. -/
def run_calculator_start (st : CalcState) : CalcState :=
  let display := k_strcpy st.calculator_display_buffer (ascii "0")
  { calculator_cursor_X := 0
    calculator_cursor_Y := 0
    calculator_display_buffer := display
    calculator_input_buffer := buf_write st.calculator_input_buffer 0 0
    calculator_input_buffer_idx := 0
    calculator_operand1 := 0
    calculator_operator := 0
    calculator_expecting_operand2 := 0
    calculator_just_calculated := 0
    console := draw_calculator 0 0 display (kclear_screen st.console) }

/-- The function `run_calculator ()` on the keys `kgetc` returns. -/
def run_calculator (keys : List (Fin 256)) (st : CalcState) : CalcOutcome :=
  calc_keys keys (run_calculator_start st)

/-- The column and row of the button with the label `c` in `calculator_layout`
(the empty slot at column 2 of row 4 for any other `c`). -/
def button_pos (c : Fin 256) : Nat × Nat :=
  if c = 0x37 then (0, 0) else if c = 0x38 then (1, 0) else if c = 0x39 then (2, 0)
  else if c = 0x2F then (3, 0)
  else if c = 0x34 then (0, 1) else if c = 0x35 then (1, 1) else if c = 0x36 then (2, 1)
  else if c = 0x2A then (3, 1)
  else if c = 0x31 then (0, 2) else if c = 0x32 then (1, 2) else if c = 0x33 then (2, 2)
  else if c = 0x2D then (3, 2)
  else if c = 0x30 then (0, 3) else if c = 0x2E then (1, 3) else if c = 0x3D then (2, 3)
  else if c = 0x2B then (3, 3)
  else if c = 0x43 then (0, 4) else if c = 0x51 then (1, 4) else (2, 4)

/-- The keys that press the button at column `x` of row `y`, from wherever the
highlight is: three times 'a' and four times 'w' bring it to the top left, then `x`
times 'd' and `y` times 's' to the button, then Enter. -/
def press_at (x y : Nat) : List (Fin 256) :=
  List.replicate 3 0x61 ++ List.replicate 4 0x77 ++ List.replicate x 0x64 ++
    List.replicate y 0x73 ++ [0x0A]

/-- The keys that press the button labelled `c`. -/
def press (c : Fin 256) : List (Fin 256) := press_at (button_pos c).1 (button_pos c).2

/-- The keys that press the buttons labelled `cs`, one after the other. -/
def press_all : List (Fin 256) → List (Fin 256)
  | [] => []
  | c :: cs => press c ++ press_all cs

/-- The calculator is taking a number: the digits `ds` typed so far are in
`calculator_input_buffer`, NUL-terminated, with `calculator_input_buffer_idx` their
count; `operand1` and `operator` are the values of the two variables; the flag
`calculator_just_calculated` can only be set while no digit is typed yet. -/
def Entering (st : CalcState) (ds : List (Fin 256)) (operand1 : Int) (operator : Fin 256) :
    Prop :=
  st.calculator_input_buffer_idx = (ds.length : Int) ∧
  bytes_at st.calculator_input_buffer ds.length = ds ∧
  st.calculator_input_buffer (ds.length : Int) = 0 ∧
  st.calculator_operand1 = operand1 ∧
  st.calculator_operator = operator ∧
  (st.calculator_just_calculated ≠ 0 → ds = [])

/-- The highlight is on the grid of buttons. -/
def OnGrid (st : CalcState) : Prop :=
  (0 ≤ st.calculator_cursor_X ∧ st.calculator_cursor_X ≤ 3) ∧
  (0 ≤ st.calculator_cursor_Y ∧ st.calculator_cursor_Y ≤ 4)

/-- One of the four operator characters '+', '-', '*', '/'. -/
def IsOperator (c : Fin 256) : Prop := c = 0x2B ∨ c = 0x2D ∨ c = 0x2A ∨ c = 0x2F

/-- A sample calculator memory before `run_calculator` is entered. -/
def sample_calc : CalcState :=
  { calculator_cursor_X := 2
    calculator_cursor_Y := 1
    calculator_display_buffer := sample_buffer
    calculator_input_buffer := sample_buffer
    calculator_input_buffer_idx := 7
    calculator_operand1 := 99
    calculator_operator := 0x2D
    calculator_expecting_operand2 := 1
    calculator_just_calculated := 1
    console := sample_mid }

/-- The value `r` is what `calculate_result` computes for the operator `o` on the
operands `a` and `b`: `k_add_n`, `k_subtract`, `k_multiply_n` or `k_divide` of them. -/
def OpResult (o : Fin 256) (a b r : Int) : Prop :=
  (o = 0x2B → r = k_add_n (int_pair a b) 2) ∧
  (o = 0x2D → r = k_subtract a b) ∧
  (o = 0x2A → r = k_multiply_n (int_pair a b) 2) ∧
  (o = 0x2F → ∀ s : Console, (k_divide a b s).1 = some r)

/-! ## Loops -/

/-- Invariant rule for `for_range`: a property indexed by the loop counter that
holds on entry and is carried by every iteration holds on exit. -/
theorem for_range_inv (lo hi : Nat) (hle : lo ≤ hi) (body : Int → Console → Console)
    (P : Nat → Console → Prop) (s : Console) (h0 : P lo s)
    (hstep : ∀ (i : Nat) (st : Console), lo ≤ i → i < hi → P i st → P (i + 1) (body (i : Int) st)) :
    P hi (for_range lo hi body s) := by
  have key : ∀ n : Nat, lo + n ≤ hi →
      P (lo + n) ((List.range n).foldl (fun st k => body ((lo + k : Nat) : Int) st) s) := by
    intro n
    induction n with
    | zero => intro _; simpa using h0
    | succ n ih =>
      intro hn
      rw [List.range_succ, List.foldl_append]
      simp only [List.foldl_cons, List.foldl_nil]
      have h1 := ih (by omega)
      have h2 := hstep (lo + n) _ (by omega) (by omega) h1
      rw [← Nat.add_assoc]
      exact h2
  have h3 := key (hi - lo) (by omega)
  have h4 : lo + (hi - lo) = hi := by omega
  rw [h4] at h3
  exact h3

theorem sameCursor_refl (s : Console) : SameCursor s s := ⟨rfl, rfl, rfl, rfl⟩

theorem sameCursor_write (s0 st : Console) (i : Int) (v : Nat) (h : SameCursor s0 st) :
    SameCursor s0 (vga_write i v st) := h

/-- One row of blanks: the inner loop of `kclear_screen` and the last loop of
`scroll_screen`, writing the 80 cells from index `base` on. -/
theorem fill_row (g : Int → Nat) (lo base : Int) (s0 st : Console)
    (hc : SameCursor s0 st) (hlo : lo ≤ base) (h : FillInv g lo base st) :
    SameCursor s0 (for_range 0 80 (fun x st1 => vga_write (base + x) blank_cell st1) st) ∧
    FillInv g lo (base + 80) (for_range 0 80 (fun x st1 => vga_write (base + x) blank_cell st1) st) := by
  have h1 := for_range_inv 0 80 (by omega)
    (fun x st1 => vga_write (base + x) blank_cell st1)
    (fun n t => SameCursor s0 t ∧ FillInv g lo (base + (n : Int)) t) st
    ⟨hc, by simpa using h⟩
    (by
      intro i t _ _ ht
      refine ⟨sameCursor_write _ _ _ _ ht.1, ?_⟩
      intro j
      have hj := ht.2 j
      simp only [vga_write]
      by_cases hji : j = base + (i : Int)
      · rw [if_pos hji, if_pos]
        constructor <;> push_cast <;> omega
      · rw [if_neg hji, hj]
        by_cases hin : lo ≤ j ∧ j < base + (i : Int)
        · rw [if_pos hin, if_pos]
          constructor <;> push_cast <;> omega
        · rw [if_neg hin, if_neg]
          push_cast
          omega)
  exact ⟨h1.1, by simpa using h1.2⟩

/-- One row of the copy loop of `scroll_screen`: row `y` is copied onto row `y - 1`. -/
theorem copy_row (g : Int → Nat) (y : Int) (s0 st : Console) (hy : 1 ≤ y)
    (hc : SameCursor s0 st) (h : CopyInv g ((y - 1) * 80) st) :
    SameCursor s0 (for_range 0 80 (fun x st1 =>
        let r := vga_read (y * VGA_WIDTH + x) st1
        vga_write ((y - 1) * VGA_WIDTH + x) r.1 r.2) st) ∧
    CopyInv g (y * 80) (for_range 0 80 (fun x st1 =>
        let r := vga_read (y * VGA_WIDTH + x) st1
        vga_write ((y - 1) * VGA_WIDTH + x) r.1 r.2) st) := by
  have h1 := for_range_inv 0 80 (by omega)
    (fun x st1 =>
        let r := vga_read (y * VGA_WIDTH + x) st1
        vga_write ((y - 1) * VGA_WIDTH + x) r.1 r.2)
    (fun n t => SameCursor s0 t ∧ CopyInv g ((y - 1) * 80 + (n : Int)) t) st
    ⟨hc, by simpa using h⟩
    (by
      intro i t _ hi ht
      refine ⟨ht.1, ?_⟩
      intro j
      have hj := ht.2 j
      have hsrc := ht.2 (y * 80 + (i : Int))
      rw [if_neg (by omega)] at hsrc
      simp only [vga_write, vga_read, VGA_WIDTH]
      by_cases hji : j = (y - 1) * 80 + (i : Int)
      · rw [if_pos hji, hsrc, if_pos (by constructor <;> push_cast <;> omega)]
        congr 1
        omega
      · rw [if_neg hji, hj]
        by_cases hin : 0 ≤ j ∧ j < (y - 1) * 80 + (i : Int)
        · rw [if_pos hin, if_pos]
          constructor <;> push_cast <;> omega
        · rw [if_neg hin, if_neg]
          push_cast
          omega)
  refine ⟨h1.1, ?_⟩
  have h2 := h1.2
  have e : (y - 1) * 80 + ((80 : Nat) : Int) = y * 80 := by push_cast; ring
  rw [e] at h2
  exact h2

/-! ## What the helpers leave alone -/

@[simp] theorem update_hardware_cursor_buffer (s : Console) :
    (update_hardware_cursor s).vga_buffer = s.vga_buffer := rfl

@[simp] theorem update_hardware_cursor_x (s : Console) :
    (update_hardware_cursor s).cursor_x = s.cursor_x := rfl

@[simp] theorem update_hardware_cursor_y (s : Console) :
    (update_hardware_cursor s).cursor_y = s.cursor_y := rfl

@[simp] theorem update_hardware_cursor_scrolls (s : Console) :
    (update_hardware_cursor s).scrolls = s.scrolls := rfl

@[simp] theorem update_hardware_cursor_touched (s : Console) :
    (update_hardware_cursor s).touched = s.touched := rfl

/-! ## scroll_screen and kclear_screen, loop by loop -/

/-- The copy loops of `scroll_screen` started from `s0`. -/
theorem scroll_copy (s0 : Console) :
    SameCursor s0 (for_range 1 25 (fun y st =>
      for_range 0 80 (fun x st1 =>
        let r := vga_read (y * VGA_WIDTH + x) st1
        vga_write ((y - 1) * VGA_WIDTH + x) r.1 r.2) st) s0) ∧
    CopyInv s0.vga_buffer 1920 (for_range 1 25 (fun y st =>
      for_range 0 80 (fun x st1 =>
        let r := vga_read (y * VGA_WIDTH + x) st1
        vga_write ((y - 1) * VGA_WIDTH + x) r.1 r.2) st) s0) := by
  have h1 := for_range_inv 1 25 (by omega)
    (fun y st =>
      for_range 0 80 (fun x st1 =>
        let r := vga_read (y * VGA_WIDTH + x) st1
        vga_write ((y - 1) * VGA_WIDTH + x) r.1 r.2) st)
    (fun n t => SameCursor s0 t ∧ CopyInv s0.vga_buffer (((n : Int) - 1) * 80) t) s0
    ⟨sameCursor_refl s0, by intro j; rw [if_neg]; push_cast; omega⟩
    (by
      intro i t hi _ ht
      have h2 := copy_row s0.vga_buffer (i : Int) s0 t (by omega) ht.1 ht.2
      refine ⟨h2.1, ?_⟩
      have e : (((i + 1 : Nat) : Int) - 1) * 80 = (i : Int) * 80 := by push_cast; ring
      rw [e]
      exact h2.2)
  exact ⟨h1.1, by simpa using h1.2⟩

/-- The buffer after `scroll_screen`: rows 0 to 23 hold the former rows 1 to 24,
row 24 is blank and nothing outside the grid is touched. -/
theorem scroll_screen_buffer (s : Console) (j : Int) :
    (scroll_screen s).vga_buffer j =
      if 1920 ≤ j ∧ j < 2000 then blank_cell
      else if 0 ≤ j ∧ j < 1920 then s.vga_buffer (j + 80) else s.vga_buffer j := by
  have hc := scroll_copy { s with scrolls := s.scrolls + 1 }
  have hf := fill_row _ 1920 ((VGA_HEIGHT - 1) * VGA_WIDTH) _ _ hc.1 (by decide)
    (fun j => by rw [if_neg]; simp only [VGA_HEIGHT, VGA_WIDTH]; omega)
  have h1 := hf.2 j
  have h2 := hc.2 j
  have e : ((VGA_HEIGHT - 1) * VGA_WIDTH + 80 : Int) = 2000 := by decide
  rw [e, h2] at h1
  exact h1

/-- The cursor, the port log and the counter after `scroll_screen`. -/
theorem scroll_screen_frame (s : Console) :
    (scroll_screen s).cursor_x = s.cursor_x ∧ (scroll_screen s).cursor_y = s.cursor_y ∧
    (scroll_screen s).ports = s.ports ∧ (scroll_screen s).scrolls = s.scrolls + 1 := by
  have hc := scroll_copy { s with scrolls := s.scrolls + 1 }
  have hf := fill_row _ 1920 ((VGA_HEIGHT - 1) * VGA_WIDTH) _ _ hc.1 (by decide)
    (fun j => by rw [if_neg]; simp only [VGA_HEIGHT, VGA_WIDTH]; omega)
  exact hf.1

/-- The two loops of `kclear_screen` started from `s0`. -/
theorem clear_fill (s0 : Console) :
    SameCursor s0 (for_range 0 25 (fun y st =>
      for_range 0 80 (fun x st1 => vga_write (y * VGA_WIDTH + x) blank_cell st1) st) s0) ∧
    FillInv s0.vga_buffer 0 2000 (for_range 0 25 (fun y st =>
      for_range 0 80 (fun x st1 => vga_write (y * VGA_WIDTH + x) blank_cell st1) st) s0) := by
  have h1 := for_range_inv 0 25 (by omega)
    (fun y st =>
      for_range 0 80 (fun x st1 => vga_write (y * VGA_WIDTH + x) blank_cell st1) st)
    (fun n t => SameCursor s0 t ∧ FillInv s0.vga_buffer 0 ((n : Int) * VGA_WIDTH) t) s0
    ⟨sameCursor_refl s0, by intro j; rw [if_neg]; simp only [VGA_WIDTH]; push_cast; omega⟩
    (by
      intro i t _ _ ht
      have h2 := fill_row s0.vga_buffer 0 ((i : Int) * VGA_WIDTH) s0 t ht.1
        (by simp only [VGA_WIDTH]; omega) ht.2
      refine ⟨h2.1, ?_⟩
      have e : ((i + 1 : Nat) : Int) * VGA_WIDTH = (i : Int) * VGA_WIDTH + 80 := by
        simp only [VGA_WIDTH]; push_cast; ring
      rw [e]
      exact h2.2)
  exact ⟨h1.1, by simpa using h1.2⟩

/-- The buffer after `kclear_screen`. -/
theorem kclear_screen_buffer (s : Console) (j : Int) :
    (kclear_screen s).vga_buffer j =
      if 0 ≤ j ∧ j < 2000 then blank_cell else s.vga_buffer j :=
  (clear_fill s).2 j

/-- The cursor after `kclear_screen`. -/
theorem kclear_screen_cursor (s : Console) :
    (kclear_screen s).cursor_x = 0 ∧ (kclear_screen s).cursor_y = 0 := ⟨rfl, rfl⟩

/-! ## The cursor through one loop iteration of kprint -/

/-- After the effect of one character from an in-bounds cursor the column is at
most 80 and the row at most 25, and not both at their maximum. -/
theorem kprint_effect_range (b a : Fin 256) (s : Console) (h : s.InBounds) :
    0 ≤ (kprint_effect b a s).cursor_x ∧ (kprint_effect b a s).cursor_x ≤ 80 ∧
    0 ≤ (kprint_effect b a s).cursor_y ∧ (kprint_effect b a s).cursor_y ≤ 25 ∧
    ((kprint_effect b a s).cursor_x = 80 → (kprint_effect b a s).cursor_y ≤ 24) := by
  obtain ⟨h1, h2, h3, h4⟩ := h
  simp only [VGA_WIDTH, VGA_HEIGHT] at h2 h4
  unfold kprint_effect
  simp only [VGA_WIDTH]
  split_ifs <;> (try simp only [vga_write]) <;> omega

/-- After the right-edge check the column is in range and the row at most 25. -/
theorem kprint_wrap_range (s : Console)
    (h : 0 ≤ s.cursor_x ∧ s.cursor_x ≤ 80 ∧ 0 ≤ s.cursor_y ∧ s.cursor_y ≤ 25 ∧
      (s.cursor_x = 80 → s.cursor_y ≤ 24)) :
    0 ≤ (kprint_wrap s).cursor_x ∧ (kprint_wrap s).cursor_x < 80 ∧
    0 ≤ (kprint_wrap s).cursor_y ∧ (kprint_wrap s).cursor_y ≤ 25 := by
  unfold kprint_wrap
  simp only [VGA_WIDTH]
  split_ifs <;> (try dsimp only) <;> omega

/-- The bottom-edge check leaves the column alone. -/
theorem kprint_scroll_x (s : Console) : (kprint_scroll s).cursor_x = s.cursor_x := by
  by_cases hh : s.cursor_y ≥ VGA_HEIGHT
  · simp only [kprint_scroll, if_pos hh]
    exact (scroll_screen_frame s).1
  · simp only [kprint_scroll, if_neg hh]

/-- The row after the bottom-edge check. -/
theorem kprint_scroll_y (s : Console) :
    (kprint_scroll s).cursor_y = if s.cursor_y ≥ 25 then 24 else s.cursor_y := by
  by_cases hh : s.cursor_y ≥ VGA_HEIGHT
  · simp only [kprint_scroll, if_pos hh]
    decide
  · simp only [kprint_scroll, if_neg hh]

/-- The counter after the bottom-edge check. -/
theorem kprint_scroll_scrolls (s : Console) :
    (kprint_scroll s).scrolls = if s.cursor_y ≥ 25 then s.scrolls + 1 else s.scrolls := by
  by_cases hh : s.cursor_y ≥ VGA_HEIGHT
  · simp only [kprint_scroll, if_pos hh]
    exact (scroll_screen_frame s).2.2.2
  · simp only [kprint_scroll, if_neg hh]

/-- One loop iteration of `kprint` keeps the cursor inside the grid. -/
theorem kprint_char_inBounds (b a : Fin 256) (s : Console) (h : s.InBounds) :
    (kprint_char b a s).InBounds := by
  have h1 := kprint_wrap_range _ (kprint_effect_range b a s h)
  unfold Console.InBounds kprint_char
  simp only [update_hardware_cursor_x, update_hardware_cursor_y, kprint_scroll_x,
    kprint_scroll_y, VGA_WIDTH, VGA_HEIGHT]
  split_ifs <;> omega

/-- The function `kprint` keeps the cursor inside the grid. -/
theorem kprint_inBounds (str : List (Fin 256)) (a : Fin 256) (s : Console) (h : s.InBounds) :
    (kprint str a s).InBounds := by
  induction str generalizing s with
  | nil => exact h
  | cons b rest ih =>
    unfold kprint
    split_ifs
    · exact h
    · exact ih _ (kprint_char_inBounds b a s h)

/-- The cursor set by `kset_cursor_pos`. -/
theorem kset_cursor_pos_cursor (x y : Int) (s : Console) :
    (kset_cursor_pos x y s).cursor_x = min (max x 0) 79 ∧
    (kset_cursor_pos x y s).cursor_y = min (max y 0) 24 := by
  unfold kset_cursor_pos
  simp only [update_hardware_cursor_x, update_hardware_cursor_y, VGA_WIDTH, VGA_HEIGHT]
  constructor <;> split_ifs <;> omega

/-- The function `kset_cursor_pos` puts the cursor inside the grid, whatever its arguments. -/
theorem kset_cursor_pos_inBounds (x y : Int) (s : Console) :
    (kset_cursor_pos x y s).InBounds := by
  have h := kset_cursor_pos_cursor x y s
  unfold Console.InBounds
  simp only [VGA_WIDTH, VGA_HEIGHT]
  omega

/-- The function `kclear_screen` puts the cursor inside the grid. -/
theorem kclear_screen_inBounds (s : Console) : (kclear_screen s).InBounds := by
  have h := kclear_screen_cursor s
  unfold Console.InBounds
  rw [h.1, h.2]
  decide

/-- The boot state has its cursor inside the grid. -/
theorem init_inBounds (g : Int → Nat) : (Console.init g).InBounds := by
  simp [Console.InBounds, Console.init]

/-- Every public call keeps the cursor inside the grid. -/
theorem call_inBounds (c : Call) (s : Console) (h : s.InBounds) : (c.run s).InBounds := by
  cases c with
  | kprint str a => exact kprint_inBounds str a s h
  | kclear_screen => exact kclear_screen_inBounds s
  | kset_cursor_pos x y => exact kset_cursor_pos_inBounds x y s
  | kprint_at str x y a => exact kset_cursor_pos_inBounds _ _ _

/-- Claim C1: from the boot state (cursor (0,0), any buffer contents), after every
sequence of calls of kprint, kclear_screen, kset_cursor_pos and kprint_at with
arbitrary arguments the software cursor satisfies 0 <= cursor_x < 80 and
0 <= cursor_y < 25. -/
theorem cursor_bounds_invariant (g : Int → Nat) (calls : List Call) :
    0 ≤ (run_calls calls (Console.init g)).cursor_x ∧
    (run_calls calls (Console.init g)).cursor_x < 80 ∧
    0 ≤ (run_calls calls (Console.init g)).cursor_y ∧
    (run_calls calls (Console.init g)).cursor_y < 25 := by
  have key : ∀ (cs : List Call) (s : Console), s.InBounds → (run_calls cs s).InBounds := by
    intro cs
    induction cs with
    | nil => intro s h; exact h
    | cons c rest ih =>
      intro s h
      exact ih _ (call_inBounds c s h)
  exact key calls (Console.init g) (init_inBounds g)

/-! ## Cell values -/

/-- Bitwise or commutes with taking the low `n` bits. -/
theorem or_mod_two_pow (x y n : Nat) : (x ||| y) % 2 ^ n = x % 2 ^ n ||| y % 2 ^ n := by
  apply Nat.eq_of_testBit_eq
  intro i
  simp only [Nat.testBit_mod_two_pow, Nat.testBit_or]
  cases decide (i < n) <;> simp

theorem blank_cell_eq : blank_cell = mk_cell 0x20 0x0F := by decide

/-- The low byte of the stored cell is the character byte, for all 256 bytes. -/
theorem char_cell_low (a b : Fin 256) : char_cell a b % 256 = b.val := by
  unfold char_cell to_uint16
  rw [Nat.mod_mod_of_dvd _ (by decide : 256 ∣ 65536)]
  have h := or_mod_two_pow (a.val <<< 8) (char_to_int b) 8
  have h1 : a.val <<< 8 % 2 ^ 8 = 0 := by
    rw [Nat.shiftLeft_eq]
    exact Nat.mul_mod_left _ _
  have h2 : char_to_int b % 2 ^ 8 = b.val := by
    have hb := b.isLt
    unfold char_to_int
    split_ifs <;> omega
  rw [h1, h2, Nat.zero_or] at h
  exact h

/-- For a byte below 0x80 the stored cell has the attribute as its high byte. -/
theorem char_cell_ascii (a b : Fin 256) (hb : b.val < 128) :
    char_cell a b = mk_cell b.val a.val := by
  unfold char_cell to_uint16 char_to_int mk_cell
  rw [if_pos hb, Nat.shiftLeft_eq, Nat.mul_comm a.val (2 ^ 8),
    ← Nat.mul_add_lt_is_or (by omega : b.val < 2 ^ 8)]
  have ha := a.isLt
  omega

/-- Bitwise or of two multiples of `2 ^ n`. -/
theorem two_pow_mul_or (x y n : Nat) : 2 ^ n * x ||| 2 ^ n * y = 2 ^ n * (x ||| y) := by
  apply Nat.eq_of_testBit_eq
  intro i
  simp only [Nat.testBit_or, Nat.testBit_mul_pow_two]
  cases decide (i ≥ n) <;> simp

/-- A byte is absorbed by 24 one bits. -/
theorem byte_or_ones (a : Nat) (ha : a < 256) : a ||| 0xFFFFFF = 0xFFFFFF := by
  apply Nat.eq_of_testBit_eq
  intro i
  rw [Nat.testBit_or]
  by_cases hi : i < 8
  · have h1 : Nat.testBit 0xFFFFFF i = true := by
      interval_cases i <;> decide
    rw [h1, Bool.or_true]
  · have h2 : a < 2 ^ i := lt_of_lt_of_le ha
      (by
        have h3 : 2 ^ 8 ≤ 2 ^ i := Nat.pow_le_pow_right (by decide) (by omega)
        simpa using h3)
    rw [Nat.testBit_lt_two_pow h2, Bool.false_or]

/-- For a byte from 0x80 on the stored cell has 0xFF as its high byte, whatever
the attribute: the sign extension of the character covers the attribute bits. -/
theorem char_cell_high (a b : Fin 256) (hb : 128 ≤ b.val) :
    char_cell a b = mk_cell b.val 0xFF := by
  have hb2 := b.isLt
  unfold char_cell to_uint16 char_to_int mk_cell
  rw [if_neg (by omega), Nat.shiftLeft_eq, Nat.mul_comm a.val (2 ^ 8)]
  have e1 : 0xFFFFFF00 + b.val = 2 ^ 8 * 0xFFFFFF + b.val := by norm_num
  rw [e1, Nat.mul_add_lt_is_or (by omega : b.val < 2 ^ 8), ← Nat.or_assoc, two_pow_mul_or,
    byte_or_ones a.val a.isLt, ← Nat.mul_add_lt_is_or (by omega : b.val < 2 ^ 8)]
  omega

/-- The tests `c == '\n'`, `c == '\r'`, `c == '\b'` on the promoted character
single out the bytes 10, 13 and 8. -/
theorem char_to_int_eq (b : Fin 256) (k : Nat) (hk : k < 128) :
    char_to_int b = k ↔ b.val = k := by
  have hb := b.isLt
  unfold char_to_int
  split_ifs <;> omega

theorem kprint_single (b a : Fin 256) (s : Console) (hb : b ≠ 0) :
    kprint [b] a s = kprint_char b a s := by
  simp only [kprint, if_neg hb]

theorem kprint_cons (b : Fin 256) (rest : List (Fin 256)) (a : Fin 256) (s : Console)
    (hb : b ≠ 0) : kprint (b :: rest) a s = kprint rest a (kprint_char b a s) := by
  simp only [kprint, if_neg hb]

/-- The effect of a regular character: one cell written at the cursor, then
`cursor_x++`. -/
theorem kprint_effect_regular (b a : Fin 256) (s : Console) (hb : Regular b) :
    kprint_effect b a s =
      { vga_buffer := fun j =>
          if j = s.cursor_y * 80 + s.cursor_x then char_cell a b else s.vga_buffer j
        cursor_x := s.cursor_x + 1
        cursor_y := s.cursor_y
        ports := s.ports
        scrolls := s.scrolls
        touched := s.touched ++ [s.cursor_y * 80 + s.cursor_x] } := by
  obtain ⟨_, h10, h13, h8⟩ := hb
  have e10 : ¬ char_to_int b = 10 := fun h =>
    h10 (Fin.ext ((char_to_int_eq b 10 (by decide)).1 h))
  have e13 : ¬ char_to_int b = 13 := fun h =>
    h13 (Fin.ext ((char_to_int_eq b 13 (by decide)).1 h))
  have e8 : ¬ char_to_int b = 8 := fun h =>
    h8 (Fin.ext ((char_to_int_eq b 8 (by decide)).1 h))
  simp only [kprint_effect, if_neg e10, if_neg e13, if_neg e8, vga_write]

/-- The effect of a newline. -/
theorem kprint_effect_newline (a : Fin 256) (s : Console) :
    kprint_effect 10 a s = { s with cursor_x := 0, cursor_y := s.cursor_y + 1 } := by
  have e : char_to_int 10 = 10 := by decide
  simp only [kprint_effect, e, if_true]

/-- The effect of a backspace. -/
theorem kprint_effect_backspace (a : Fin 256) (s : Console) :
    kprint_effect 8 a s =
      if s.cursor_x > 0 then
        vga_write (s.cursor_y * VGA_WIDTH + (s.cursor_x - 1)) blank_cell
          { s with cursor_x := s.cursor_x - 1 }
      else if s.cursor_y > 0 then
        vga_write ((s.cursor_y - 1) * VGA_WIDTH + (VGA_WIDTH - 1)) blank_cell
          { s with cursor_x := VGA_WIDTH - 1, cursor_y := s.cursor_y - 1 }
      else s := by
  have e : char_to_int 8 = 8 := by decide
  simp only [kprint_effect, e]
  rfl

/-! ## The two edge checks -/

theorem kprint_wrap_id (s : Console) (h : s.cursor_x < 80) : kprint_wrap s = s := by
  unfold kprint_wrap
  rw [if_neg]
  simp only [VGA_WIDTH]
  omega

theorem kprint_wrap_edge (s : Console) (h : 80 ≤ s.cursor_x) :
    kprint_wrap s = { s with cursor_x := 0, cursor_y := s.cursor_y + 1 } := by
  unfold kprint_wrap
  rw [if_pos]
  exact h

theorem kprint_scroll_id (s : Console) (h : s.cursor_y < 25) : kprint_scroll s = s := by
  unfold kprint_scroll
  rw [if_neg]
  simp only [VGA_HEIGHT]
  omega

/-- The buffer after the bottom-edge check. -/
theorem kprint_scroll_buffer (s : Console) :
    (kprint_scroll s).vga_buffer =
      if s.cursor_y ≥ 25 then (scroll_screen s).vga_buffer else s.vga_buffer := by
  by_cases hh : s.cursor_y ≥ VGA_HEIGHT
  · simp only [kprint_scroll, if_pos hh]
  · simp only [kprint_scroll, if_neg hh]

/-- The buffer after `scroll_screen` depends on the buffer before it only. -/
theorem scroll_screen_buffer_congr (s t : Console) (h : s.vga_buffer = t.vga_buffer) :
    (scroll_screen s).vga_buffer = (scroll_screen t).vga_buffer := by
  funext j
  rw [scroll_screen_buffer, scroll_screen_buffer, h]

/-! ## Claims on single characters -/

/-- Claim C2, at the input where it fails: printing the one-byte string 0x80 with
attribute 0x0F from the boot state stores the cell 0xFF80 at index 0*80+0. The
low byte is the character, the high byte is 0xFF and not the attribute 0x0F,
because the character is sign-extended before the bitwise or. -/
theorem kprint_high_byte_sign_extended :
    (kprint [0x80] 0x0F (Console.init (fun _ => 0))).vga_buffer (0 * 80 + 0)
      = mk_cell 0x80 0xFF ∧
    (kprint [0x80] 0x0F (Console.init (fun _ => 0))).vga_buffer (0 * 80 + 0)
      ≠ mk_cell 0x80 0x0F ∧
    (kprint [0x80] 0x0F (Console.init (fun _ => 0))).cursor_x = 1 := by
  decide

/-- Claim C3: for every buffer contents and every cursor on row 24 (whatever the
column, so for every column 0..79), `kprint ("\n", a)` invokes scroll_screen
exactly once and leaves cursor_y = 24 and cursor_x = 0; the buffer is the one
scroll_screen produces. -/
theorem newline_on_last_row_scrolls_once (s : Console) (a : Fin 256)
    (hy : s.cursor_y = 24) :
    (kprint [10] a s).scrolls = s.scrolls + 1 ∧
    (kprint [10] a s).cursor_y = 24 ∧
    (kprint [10] a s).cursor_x = 0 ∧
    (kprint [10] a s).vga_buffer = (scroll_screen s).vga_buffer := by
  rw [kprint_single 10 a s (by decide)]
  unfold kprint_char
  rw [kprint_effect_newline, kprint_wrap_id _ (by show (0 : Int) < 80; decide)]
  simp only [update_hardware_cursor_scrolls, update_hardware_cursor_x,
    update_hardware_cursor_y, update_hardware_cursor_buffer, kprint_scroll_scrolls,
    kprint_scroll_x, kprint_scroll_y, kprint_scroll_buffer, hy]
  refine ⟨by simp, by simp, trivial, ?_⟩
  rw [if_pos (by decide)]
  exact scroll_screen_buffer_congr _ _ rfl

theorem newline_on_last_row_scrolls_once_witness :
    (kprint [10] 0x0F sample_last_row).scrolls = sample_last_row.scrolls + 1 ∧
    (kprint [10] 0x0F sample_last_row).cursor_y = 24 ∧
    (kprint [10] 0x0F sample_last_row).cursor_x = 0 ∧
    (kprint [10] 0x0F sample_last_row).vga_buffer = (scroll_screen sample_last_row).vga_buffer :=
  newline_on_last_row_scrolls_once sample_last_row 0x0F (by decide)

/-- Claim C4: after scroll_screen every row r with 0 <= r < 24 equals the former
row r+1 cell for cell (the whole 16-bit cell, character and attribute), and every
cell of row 24 is the space character with attribute 0x0F (cell value 0x0F20). -/
theorem scroll_screen_rows (s : Console) :
    (∀ r c : Int, 0 ≤ r → r < 24 → 0 ≤ c → c < 80 →
      (scroll_screen s).vga_buffer (r * 80 + c) = s.vga_buffer ((r + 1) * 80 + c)) ∧
    (∀ c : Int, 0 ≤ c → c < 80 →
      (scroll_screen s).vga_buffer (24 * 80 + c) = 0x0F20 ∧
      (scroll_screen s).vga_buffer (24 * 80 + c) = mk_cell 0x20 0x0F) := by
  constructor
  · intro r c hr0 hr hc0 hc
    rw [scroll_screen_buffer, if_neg (by omega), if_pos (by omega)]
    congr 1
    ring
  · intro c hc0 hc
    rw [scroll_screen_buffer, if_pos (by omega)]
    exact ⟨by decide, by decide⟩

theorem scroll_screen_rows_witness :
    (scroll_screen sample_last_row).vga_buffer (3 * 80 + 5)
      = sample_last_row.vga_buffer ((3 + 1) * 80 + 5) ∧
    (scroll_screen sample_last_row).vga_buffer (24 * 80 + 79) = 0x0F20 :=
  ⟨(scroll_screen_rows sample_last_row).1 3 5 (by decide) (by decide) (by decide) (by decide),
   ((scroll_screen_rows sample_last_row).2 79 (by decide) (by decide)).1⟩

/-- One loop iteration for a backspace from an in-bounds cursor: neither edge
check fires. -/
theorem kprint_char_backspace (a : Fin 256) (s : Console) (h : s.InBounds) :
    kprint_char 8 a s = update_hardware_cursor (kprint_effect 8 a s) := by
  have hr := kprint_effect_range 8 a s h
  obtain ⟨h1, h2, h3, h4⟩ := h
  simp only [VGA_WIDTH, VGA_HEIGHT] at h2 h4
  have hx : (kprint_effect 8 a s).cursor_x < 80 := by
    rw [kprint_effect_backspace]
    simp only [VGA_WIDTH]
    split_ifs <;> (try simp only [vga_write]) <;> omega
  have hy : (kprint_effect 8 a s).cursor_y < 25 := by
    rw [kprint_effect_backspace]
    split_ifs <;> (try simp only [vga_write]) <;> omega
  unfold kprint_char
  rw [kprint_wrap_id _ hx, kprint_scroll_id _ hy]

/-- Claim C5 (backspace policy): for every in-bounds cursor (c, r),
`kprint ("\b", a)` does the following. If c > 0 the cursor becomes (c-1, r) and the
cell there becomes (space, 0x0F). If c = 0 and r > 0 the cursor becomes (79, r-1)
and the cell there becomes (space, 0x0F). If c = 0 and r = 0 neither the buffer
nor the cursor changes. The attribute argument is never used: every attribute
gives the same console. -/
theorem backspace_policy (s : Console) (a : Fin 256) (h : s.InBounds) :
    (0 < s.cursor_x →
      (kprint [8] a s).cursor_x = s.cursor_x - 1 ∧
      (kprint [8] a s).cursor_y = s.cursor_y ∧
      (kprint [8] a s).vga_buffer (s.cursor_y * 80 + (s.cursor_x - 1)) = mk_cell 0x20 0x0F) ∧
    (s.cursor_x = 0 → 0 < s.cursor_y →
      (kprint [8] a s).cursor_x = 79 ∧
      (kprint [8] a s).cursor_y = s.cursor_y - 1 ∧
      (kprint [8] a s).vga_buffer ((s.cursor_y - 1) * 80 + 79) = mk_cell 0x20 0x0F) ∧
    (s.cursor_x = 0 → s.cursor_y = 0 →
      (kprint [8] a s).cursor_x = s.cursor_x ∧
      (kprint [8] a s).cursor_y = s.cursor_y ∧
      (kprint [8] a s).vga_buffer = s.vga_buffer) ∧
    (∀ a2 : Fin 256, kprint [8] a2 s = kprint [8] a s) := by
  have e : ∀ a1 : Fin 256, kprint [8] a1 s = update_hardware_cursor (kprint_effect 8 a1 s) := by
    intro a1
    rw [kprint_single 8 a1 s (by decide), kprint_char_backspace a1 s h]
  refine ⟨?_, ?_, ?_, ?_⟩
  · intro hc
    rw [e, kprint_effect_backspace, if_pos hc]
    simp only [update_hardware_cursor_x, update_hardware_cursor_y,
      update_hardware_cursor_buffer, vga_write, VGA_WIDTH, if_true, blank_cell_eq]
    exact ⟨trivial, trivial, trivial⟩
  · intro hc hr
    rw [e, kprint_effect_backspace, if_neg (by omega), if_pos hr]
    simp only [update_hardware_cursor_x, update_hardware_cursor_y,
      update_hardware_cursor_buffer, vga_write, VGA_WIDTH, if_true, blank_cell_eq]
    exact ⟨by decide, trivial, if_pos (by omega)⟩
  · intro hc hr
    rw [e, kprint_effect_backspace, if_neg (by omega), if_neg (by omega)]
    exact ⟨rfl, rfl, rfl⟩
  · intro a2
    rw [e, e, kprint_effect_backspace, kprint_effect_backspace]

theorem backspace_policy_witness :
    ((kprint [8] 0x1E sample_mid).cursor_x = sample_mid.cursor_x - 1 ∧
      (kprint [8] 0x1E sample_mid).cursor_y = sample_mid.cursor_y ∧
      (kprint [8] 0x1E sample_mid).vga_buffer
        (sample_mid.cursor_y * 80 + (sample_mid.cursor_x - 1)) = mk_cell 0x20 0x0F) ∧
    ((kprint [8] 0x1E sample_line_start).cursor_x = 79 ∧
      (kprint [8] 0x1E sample_line_start).cursor_y = sample_line_start.cursor_y - 1 ∧
      (kprint [8] 0x1E sample_line_start).vga_buffer
        ((sample_line_start.cursor_y - 1) * 80 + 79) = mk_cell 0x20 0x0F) ∧
    ((kprint [8] 0x1E (Console.init (fun _ => 7))).cursor_x = (Console.init (fun _ => 7)).cursor_x ∧
      (kprint [8] 0x1E (Console.init (fun _ => 7))).cursor_y = (Console.init (fun _ => 7)).cursor_y ∧
      (kprint [8] 0x1E (Console.init (fun _ => 7))).vga_buffer
        = (Console.init (fun _ => 7)).vga_buffer) :=
  ⟨(backspace_policy sample_mid 0x1E (by decide)).1 (by decide),
   (backspace_policy sample_line_start 0x1E (by decide)).2.1 (by decide) (by decide),
   (backspace_policy (Console.init (fun _ => 7)) 0x1E (by decide)).2.2.1 (by decide) (by decide)⟩

/-! ## Claims on cursor positioning and clearing -/

/-- Claim C6: for all ints x and y, `kset_cursor_pos (x, y)` sets
cursor_x = min (max (x, 0), 79) and cursor_y = min (max (y, 0), 24); x = -5 gives
column 0, x = 1000 gives column 79, and in-range arguments are stored unchanged. -/
theorem kset_cursor_pos_clamps (x y : Int) (s : Console) :
    (kset_cursor_pos x y s).cursor_x = min (max x 0) 79 ∧
    (kset_cursor_pos x y s).cursor_y = min (max y 0) 24 ∧
    (kset_cursor_pos (-5) y s).cursor_x = 0 ∧
    (kset_cursor_pos 1000 y s).cursor_x = 79 ∧
    (0 ≤ x → x < 80 → (kset_cursor_pos x y s).cursor_x = x) ∧
    (0 ≤ y → y < 25 → (kset_cursor_pos x y s).cursor_y = y) := by
  have h := kset_cursor_pos_cursor x y s
  have h5 := (kset_cursor_pos_cursor (-5) y s).1
  have h1000 := (kset_cursor_pos_cursor 1000 y s).1
  refine ⟨h.1, h.2, ?_, ?_, ?_, ?_⟩
  · rw [h5]; decide
  · rw [h1000]; decide
  · intro h0 h1; rw [h.1]; omega
  · intro h0 h1; rw [h.2]; omega

theorem kset_cursor_pos_clamps_witness :
    (kset_cursor_pos 12 7 sample_mid).cursor_x = 12 ∧
    (kset_cursor_pos 12 7 sample_mid).cursor_y = 7 :=
  ⟨(kset_cursor_pos_clamps 12 7 sample_mid).2.2.2.2.1 (by decide) (by decide),
   (kset_cursor_pos_clamps 12 7 sample_mid).2.2.2.2.2 (by decide) (by decide)⟩

/-- Claim C7: for every state with an in-bounds cursor, every string and every
int x, y and attribute, after `kprint_at (str, x, y, attr)` the software cursor
equals its value before the call, whatever the printed text did in between
(wrapping and scrolling included). -/
theorem kprint_at_restores_cursor (str : List (Fin 256)) (x y : Int) (a : Fin 256)
    (s : Console) (h : s.InBounds) :
    (kprint_at str x y a s).cursor_x = s.cursor_x ∧
    (kprint_at str x y a s).cursor_y = s.cursor_y := by
  obtain ⟨h1, h2, h3, h4⟩ := h
  simp only [VGA_WIDTH, VGA_HEIGHT] at h2 h4
  have hc := kset_cursor_pos_cursor s.cursor_x s.cursor_y
    (kprint str a (kset_cursor_pos x y s))
  unfold kprint_at
  exact ⟨by rw [hc.1]; omega, by rw [hc.2]; omega⟩

theorem kprint_at_restores_cursor_witness :
    (kprint_at [0x41, 0x42, 10, 0x43] 79 24 0x0E sample_mid).cursor_x = sample_mid.cursor_x ∧
    (kprint_at [0x41, 0x42, 10, 0x43] 79 24 0x0E sample_mid).cursor_y = sample_mid.cursor_y :=
  kprint_at_restores_cursor [0x41, 0x42, 10, 0x43] 79 24 0x0E sample_mid (by decide)

/-- Claim C8: for every prior buffer and cursor, after `kclear_screen` all 2000
grid cells equal (space, attribute 0x0F) and the cursor is (0, 0). -/
theorem kclear_screen_blanks (s : Console) :
    (∀ j : Int, 0 ≤ j → j < 2000 → (kclear_screen s).vga_buffer j = mk_cell 0x20 0x0F) ∧
    (kclear_screen s).cursor_x = 0 ∧ (kclear_screen s).cursor_y = 0 := by
  refine ⟨?_, rfl, rfl⟩
  intro j h0 h1
  rw [kclear_screen_buffer, if_pos ⟨h0, h1⟩, blank_cell_eq]

theorem kclear_screen_blanks_witness :
    (kclear_screen sample_mid).vga_buffer 0 = mk_cell 0x20 0x0F ∧
    (kclear_screen sample_mid).vga_buffer 1999 = mk_cell 0x20 0x0F :=
  ⟨(kclear_screen_blanks sample_mid).1 0 (by decide) (by decide),
   (kclear_screen_blanks sample_mid).1 1999 (by decide) (by decide)⟩

/-! ## Regular characters -/

/-- One loop iteration for a regular character that does not reach the right
edge: one cell is written, the column advances and nothing else happens. -/
theorem kprint_char_regular_nowrap (b a : Fin 256) (s : Console) (hb : Regular b)
    (hx : s.cursor_x + 1 < 80) (hy : s.cursor_y < 25) :
    (kprint_char b a s).cursor_x = s.cursor_x + 1 ∧
    (kprint_char b a s).cursor_y = s.cursor_y ∧
    (kprint_char b a s).scrolls = s.scrolls ∧
    ∀ j : Int, (kprint_char b a s).vga_buffer j =
      if j = s.cursor_y * 80 + s.cursor_x then char_cell a b else s.vga_buffer j := by
  unfold kprint_char
  rw [kprint_effect_regular b a s hb, kprint_wrap_id _ hx, kprint_scroll_id _ (by exact hy)]
  exact ⟨rfl, rfl, rfl, fun _ => rfl⟩

/-- One loop iteration for a regular character written in column 79 of row 24:
the right-edge check moves the cursor to row 25 and the bottom-edge check
scrolls at once. -/
theorem kprint_char_regular_corner (b a : Fin 256) (s : Console) (hb : Regular b)
    (hx : s.cursor_x = 79) (hy : s.cursor_y = 24) :
    (kprint_char b a s).cursor_x = 0 ∧
    (kprint_char b a s).cursor_y = 24 ∧
    (kprint_char b a s).scrolls = s.scrolls + 1 ∧
    (kprint_char b a s).vga_buffer (23 * 80 + 79) = char_cell a b := by
  unfold kprint_char
  rw [kprint_effect_regular b a s hb,
    kprint_wrap_edge _ (by show (80 : Int) ≤ s.cursor_x + 1; omega)]
  simp only [update_hardware_cursor_scrolls, update_hardware_cursor_x,
    update_hardware_cursor_y, update_hardware_cursor_buffer, kprint_scroll_scrolls,
    kprint_scroll_x, kprint_scroll_y, kprint_scroll_buffer]
  have h25 : s.cursor_y + 1 ≥ 25 := by omega
  rw [if_pos h25, if_pos h25, if_pos h25, scroll_screen_buffer, if_neg (by decide),
    if_pos (by decide)]
  refine ⟨trivial, rfl, rfl, ?_⟩
  show (if (23 * 80 + 79 + 80 : Int) = s.cursor_y * 80 + s.cursor_x then char_cell a b
    else s.vga_buffer (23 * 80 + 79 + 80)) = char_cell a b
  rw [if_pos (by omega)]

/-- A string of regular characters that ends before the right edge is written
cell by cell into the cursor row; no other cell changes, the row stays and
nothing scrolls. -/
theorem kprint_line (str : List (Fin 256)) (a : Fin 256) :
    ∀ s : Console, (∀ b ∈ str, Regular b) → 0 ≤ s.cursor_x → s.cursor_y < 25 →
      s.cursor_x + str.length < 80 →
      (kprint str a s).cursor_x = s.cursor_x + str.length ∧
      (kprint str a s).cursor_y = s.cursor_y ∧
      (kprint str a s).scrolls = s.scrolls ∧
      (∀ (i : Nat) (hi : i < str.length),
        (kprint str a s).vga_buffer (s.cursor_y * 80 + s.cursor_x + i) = char_cell a str[i]) ∧
      (∀ j : Int, j < s.cursor_y * 80 + s.cursor_x ∨
          s.cursor_y * 80 + s.cursor_x + str.length ≤ j →
        (kprint str a s).vga_buffer j = s.vga_buffer j) := by
  induction str with
  | nil =>
    intro s _ _ _ _
    refine ⟨by simp [kprint], rfl, rfl, ?_, fun _ _ => rfl⟩
    intro i hi
    simp at hi
  | cons b rest ih =>
    intro s hreg hx0 hy hfit
    have hb : Regular b := hreg b (List.mem_cons_self _ _)
    have hlen : (b :: rest).length = rest.length + 1 := rfl
    rw [hlen] at hfit
    push_cast at hfit
    obtain ⟨c1, c2, c3, c4⟩ := kprint_char_regular_nowrap b a s hb (by omega) hy
    obtain ⟨i1, i2, i3, i4, i5⟩ := ih (kprint_char b a s)
      (fun x hx => hreg x (List.mem_cons_of_mem _ hx)) (by omega) (by omega) (by omega)
    rw [kprint_cons b rest a s hb.1]
    rw [c1, c2] at i4 i5
    refine ⟨?_, ?_, ?_, ?_, ?_⟩
    · rw [i1, c1, hlen]; push_cast; omega
    · rw [i2, c2]
    · rw [i3, c3]
    · intro i hi
      cases i with
      | zero =>
        rw [i5 _ (Or.inl (by push_cast; omega)), c4, if_pos (by push_cast; omega)]
        rfl
      | succ k =>
        have hk : k < rest.length := by rw [hlen] at hi; omega
        have h4 := i4 k hk
        have e : s.cursor_y * 80 + s.cursor_x + ((k + 1 : Nat) : Int)
            = s.cursor_y * 80 + (s.cursor_x + 1) + (k : Int) := by push_cast; ring
        rw [e, h4]
        rfl
    · intro j hj
      rw [hlen] at hj
      push_cast at hj
      rw [i5 j (by omega), c4, if_neg (by omega)]

/-! ## Claims on lines and on the last cell of the screen -/

/-- Claim C9 as stated fails: the two-character string "AB" has no control
character and is shorter than 80, the cursor (79, 0) is in bounds, and yet after
`kprint ("AB", 0x0F)` the column is 1 and not 79 + 2, because the text wrapped. -/
theorem kprint_line_wraps :
    sample_last_col.InBounds ∧ (∀ b ∈ [(0x41 : Fin 256), 0x42], Regular b) ∧
    [(0x41 : Fin 256), 0x42].length < 80 ∧
    (kprint [0x41, 0x42] 0x0F sample_last_col).cursor_x = 1 ∧
    ¬ LineReadsBack [0x41, 0x42] 0x0F sample_last_col := by
  refine ⟨by decide, by simp [Regular], by decide, by decide, ?_⟩
  intro h
  have h2 := h.2
  revert h2
  decide

/-- Claim C9, amended: for every string of regular characters (no NUL, newline,
carriage return or backspace) and every in-bounds cursor (c, r) such that
c + len (s) < 80, after `kprint (s, a)` the low bytes stored in row r from column c
on are the characters of s in order, the column is c + len (s) and the row is
still r. -/
theorem kprint_line_reads_back (str : List (Fin 256)) (a : Fin 256) (s : Console)
    (h : s.InBounds) (hreg : ∀ b ∈ str, Regular b)
    (hfit : s.cursor_x + str.length < 80) :
    LineReadsBack str a s ∧ (kprint str a s).cursor_y = s.cursor_y := by
  obtain ⟨h1, _, _, h4⟩ := h
  obtain ⟨k1, k2, _, k4, _⟩ := kprint_line str a s hreg h1 h4 hfit
  refine ⟨⟨?_, k1⟩, k2⟩
  intro i hi
  rw [k4 i hi, char_cell_low]

theorem kprint_line_reads_back_witness :
    LineReadsBack [0x48, 0x69, 0xE9] 0x0E sample_mid ∧
    (kprint [0x48, 0x69, 0xE9] 0x0E sample_mid).cursor_y = sample_mid.cursor_y :=
  kprint_line_reads_back [0x48, 0x69, 0xE9] 0x0E sample_mid (by decide) (by simp [Regular])
    (by decide)

/-- Claim C10 as stated fails: from the cursor (79, 24), `kprint ("A", 0x0F)`
invokes scroll_screen while that one character is processed. -/
theorem last_cell_scrolls_counterexample :
    sample_corner.cursor_x = 79 ∧ sample_corner.cursor_y = 24 ∧ Regular 0x41 ∧
    (kprint [0x41] 0x0F sample_corner).scrolls = sample_corner.scrolls + 1 ∧
    ¬ (kprint [0x41] 0x0F sample_corner).scrolls = sample_corner.scrolls := by
  have h := kprint_char_regular_corner 0x41 0x0F sample_corner (by decide) rfl rfl
  rw [kprint_single 0x41 0x0F sample_corner (by decide), h.2.2.1]
  exact ⟨rfl, rfl, by decide, rfl, by decide⟩

/-- Claim C10, amended: when kprint writes a regular character with the cursor at
(79, 24), the right-edge check moves the cursor to row 25 and scroll_screen is
invoked exactly once while that same character is processed; the cursor is left
at (0, 24) and the character in column 79 of row 23. A regular character
emitted next causes no further scroll. -/
theorem last_cell_scrolls_at_once (b a : Fin 256) (s : Console) (hb : Regular b)
    (hx : s.cursor_x = 79) (hy : s.cursor_y = 24) :
    (kprint [b] a s).scrolls = s.scrolls + 1 ∧
    (kprint [b] a s).cursor_x = 0 ∧
    (kprint [b] a s).cursor_y = 24 ∧
    (kprint [b] a s).vga_buffer (23 * 80 + 79) % 256 = b.val ∧
    (∀ b2 : Fin 256, Regular b2 → (kprint [b, b2] a s).scrolls = s.scrolls + 1) := by
  obtain ⟨c1, c2, c3, c4⟩ := kprint_char_regular_corner b a s hb hx hy
  rw [kprint_single b a s hb.1]
  refine ⟨c3, c1, c2, by rw [c4, char_cell_low], ?_⟩
  intro b2 hb2
  rw [kprint_cons b [b2] a s hb.1, kprint_single b2 a _ hb2.1]
  obtain ⟨_, _, n3, _⟩ := kprint_char_regular_nowrap b2 a (kprint_char b a s) hb2
    (by omega) (by omega)
  rw [n3, c3]

theorem last_cell_scrolls_at_once_witness :
    (kprint [0x41] 0x0F sample_corner).scrolls = sample_corner.scrolls + 1 ∧
    (kprint [0x41] 0x0F sample_corner).cursor_x = 0 ∧
    (kprint [0x41] 0x0F sample_corner).cursor_y = 24 ∧
    (kprint [0x41] 0x0F sample_corner).vga_buffer (23 * 80 + 79) % 256 = (0x41 : Fin 256).val ∧
    (∀ b2 : Fin 256, Regular b2 →
      (kprint [0x41, b2] 0x0F sample_corner).scrolls = sample_corner.scrolls + 1) :=
  last_cell_scrolls_at_once 0x41 0x0F sample_corner (by decide) (by decide) (by decide)

/-! ## Text that reaches the right edge -/

theorem printable_regular (b : Fin 256) (h : Printable b) : Regular b := by
  obtain ⟨h1, h2⟩ := h
  refine ⟨?_, ?_, ?_, ?_⟩ <;> intro e <;> rw [e] at h1 <;> revert h1 <;> decide

theorem printable_ascii (b : Fin 256) (h : Printable b) : b.val < 128 := by
  obtain ⟨_, h2⟩ := h
  omega

/-- One loop iteration for a regular character written in column 79 of a row
above the last one: the cursor moves to the start of the next row and nothing
scrolls. -/
theorem kprint_char_regular_wrap (b a : Fin 256) (s : Console) (hb : Regular b)
    (hx : s.cursor_x = 79) (hy : s.cursor_y < 24) :
    (kprint_char b a s).cursor_x = 0 ∧
    (kprint_char b a s).cursor_y = s.cursor_y + 1 ∧
    (kprint_char b a s).scrolls = s.scrolls ∧
    ∀ j : Int, (kprint_char b a s).vga_buffer j =
      if j = s.cursor_y * 80 + s.cursor_x then char_cell a b else s.vga_buffer j := by
  unfold kprint_char
  rw [kprint_effect_regular b a s hb,
    kprint_wrap_edge _ (by show (80 : Int) ≤ s.cursor_x + 1; omega),
    kprint_scroll_id _ (by show s.cursor_y + 1 < 25; omega)]
  exact ⟨rfl, rfl, rfl, fun _ => rfl⟩

/-- A string of regular characters that ends at or before the right edge of a
row above the last one is written cell by cell into the cursor row; no other
cell changes and nothing scrolls. -/
theorem kprint_row (str : List (Fin 256)) (a : Fin 256) :
    ∀ s : Console, (∀ b ∈ str, Regular b) → 0 ≤ s.cursor_x → s.cursor_y < 24 →
      s.cursor_x + str.length ≤ 80 →
      (kprint str a s).scrolls = s.scrolls ∧
      (∀ (i : Nat) (hi : i < str.length),
        (kprint str a s).vga_buffer (s.cursor_y * 80 + s.cursor_x + i) = char_cell a str[i]) ∧
      (∀ j : Int, j < s.cursor_y * 80 + s.cursor_x ∨
          s.cursor_y * 80 + s.cursor_x + str.length ≤ j →
        (kprint str a s).vga_buffer j = s.vga_buffer j) := by
  induction str with
  | nil =>
    intro s _ _ _ _
    refine ⟨rfl, ?_, fun _ _ => rfl⟩
    intro i hi
    simp at hi
  | cons b rest ih =>
    intro s hreg hx0 hy hfit
    have hb : Regular b := hreg b (List.mem_cons_self _ _)
    have hlen : (b :: rest).length = rest.length + 1 := rfl
    rw [hlen] at hfit
    push_cast at hfit
    rw [kprint_cons b rest a s hb.1]
    by_cases hw : s.cursor_x + 1 < 80
    · obtain ⟨c1, c2, c3, c4⟩ := kprint_char_regular_nowrap b a s hb hw (by omega)
      obtain ⟨i3, i4, i5⟩ := ih (kprint_char b a s)
        (fun x hx => hreg x (List.mem_cons_of_mem _ hx)) (by omega) (by omega) (by omega)
      rw [c1, c2] at i4 i5
      refine ⟨by rw [i3, c3], ?_, ?_⟩
      · intro i hi
        cases i with
        | zero =>
          rw [i5 _ (Or.inl (by push_cast; omega)), c4, if_pos (by push_cast; omega)]
          rfl
        | succ k =>
          have hk : k < rest.length := by rw [hlen] at hi; omega
          have h4 := i4 k hk
          have e : s.cursor_y * 80 + s.cursor_x + ((k + 1 : Nat) : Int)
              = s.cursor_y * 80 + (s.cursor_x + 1) + (k : Int) := by push_cast; ring
          rw [e, h4]
          rfl
      · intro j hj
        rw [hlen] at hj
        push_cast at hj
        rw [i5 j (by omega), c4, if_neg (by omega)]
    · have hx79 : s.cursor_x = 79 := by omega
      have hrest : rest = [] := by
        apply List.eq_nil_of_length_eq_zero
        omega
      subst hrest
      obtain ⟨_, _, c3, c4⟩ := kprint_char_regular_wrap b a s hb hx79 hy
      refine ⟨c3, ?_, ?_⟩
      · intro i hi
        have hi0 : i = 0 := by simpa using hi
        subst hi0
        show (kprint_char b a s).vga_buffer _ = _
        rw [c4, if_pos (by push_cast; omega)]
        rfl
      · intro j hj
        rw [hlen] at hj
        push_cast at hj
        show (kprint_char b a s).vga_buffer _ = _
        rw [c4, if_neg (by simp at hj; omega)]

/-- The buffer after a regular character written in column 79 of row 24: the
cell is written and the whole screen scrolls. -/
theorem kprint_char_regular_corner_buffer (b a : Fin 256) (s : Console) (hb : Regular b)
    (hx : s.cursor_x = 79) (hy : s.cursor_y = 24) (j : Int) :
    (kprint_char b a s).vga_buffer j =
      if 1920 ≤ j ∧ j < 2000 then blank_cell
      else if 0 ≤ j ∧ j < 1920 then
        (if j + 80 = 1999 then char_cell a b else s.vga_buffer (j + 80))
      else s.vga_buffer j := by
  unfold kprint_char
  rw [kprint_effect_regular b a s hb,
    kprint_wrap_edge _ (by show (80 : Int) ≤ s.cursor_x + 1; omega)]
  simp only [update_hardware_cursor_buffer, kprint_scroll_buffer]
  have h25 : s.cursor_y + 1 ≥ 25 := by omega
  rw [if_pos h25, scroll_screen_buffer]
  by_cases h1 : 1920 ≤ j ∧ j < 2000
  · rw [if_pos h1, if_pos h1]
  · rw [if_neg h1, if_neg h1]
    by_cases h2 : 0 ≤ j ∧ j < 1920
    · rw [if_pos h2, if_pos h2]
      show (if j + 80 = s.cursor_y * 80 + s.cursor_x then char_cell a b
        else s.vga_buffer (j + 80)) = _
      rw [hx, hy]
      rfl
    · rw [if_neg h2, if_neg h2]
      show (if j = s.cursor_y * 80 + s.cursor_x then char_cell a b
        else s.vga_buffer j) = _
      rw [if_neg (by omega)]

/-- The buffer after `kprint_at` is the buffer after the `kprint` it runs from
the clamped position. -/
theorem kprint_at_buffer (str : List (Fin 256)) (x y : Int) (a : Fin 256) (s : Console) :
    (kprint_at str x y a s).vga_buffer = (kprint str a (kset_cursor_pos x y s)).vga_buffer :=
  rfl

theorem kset_cursor_pos_buffer (x y : Int) (s : Console) :
    (kset_cursor_pos x y s).vga_buffer = s.vga_buffer := rfl

theorem kset_cursor_pos_scrolls (x y : Int) (s : Console) :
    (kset_cursor_pos x y s).scrolls = s.scrolls := rfl

/-- A legal target is stored as it is. -/
theorem kset_cursor_pos_legal (x y : Int) (s : Console)
    (hx0 : 0 ≤ x) (hx : x < 80) (hy0 : 0 ≤ y) (hy : y < 25) :
    (kset_cursor_pos x y s).cursor_x = x ∧ (kset_cursor_pos x y s).cursor_y = y := by
  have h := kset_cursor_pos_cursor x y s
  exact ⟨by rw [h.1]; omega, by rw [h.2]; omega⟩

/-! ## Claim C11: positioned print -/

/-- Claim C11 as stated fails: (79, 24) is a legal target and the one-character
string "A" fits in the row (79 + 1 <= 80), yet after `kprint_at ("A", 79, 24, 0x0F)`
the cell at column 79 of row 24 is blank, because writing the last cell of the
screen scrolls it. -/
theorem kprint_at_last_cell_scrolled :
    Printable 0x41 ∧ (79 : Int) + [(0x41 : Fin 256)].length ≤ 80 ∧
    (kprint_at [0x41] 79 24 0x0F sample_mid).vga_buffer (24 * 80 + 79 + (0 : Nat)) = 0x0F20 ∧
    ¬ RowHolds [0x41] 79 24 0x0F sample_mid := by
  have hb : (kprint_at [0x41] 79 24 0x0F sample_mid).vga_buffer (24 * 80 + 79 + (0 : Nat))
      = 0x0F20 := by
    rw [kprint_at_buffer, kprint_single 0x41 0x0F _ (by decide),
      kprint_char_regular_corner_buffer 0x41 0x0F _ (by decide) (by decide) (by decide),
      if_pos (by decide)]
    decide
  refine ⟨by decide, by decide, hb, ?_⟩
  intro h
  have h0 := h 0 (by decide)
  rw [hb] at h0
  revert h0
  decide

/-- Claim C11, amended: for every legal target (0 <= x < 80, 0 <= y < 25) and
every string of printable ASCII characters that fits in the target row
(x + len <= 80) without filling the last cell of the screen (x + len < 80 or
y < 24), after `kprint_at (text, x, y, attr)` the cells of row y at columns
x .. x+len-1 hold the characters of text in order, with the attribute attr. -/
theorem kprint_at_row (str : List (Fin 256)) (x y : Int) (a : Fin 256) (s : Console)
    (hx0 : 0 ≤ x) (hx : x < 80) (hy0 : 0 ≤ y) (hy : y < 25)
    (hp : ∀ b ∈ str, Printable b) (hfit : x + str.length ≤ 80)
    (hlast : x + str.length < 80 ∨ y < 24) :
    RowHolds str x y a s ∧
    ∀ (i : Nat) (hi : i < str.length),
      (kprint_at str x y a s).vga_buffer (y * 80 + x + i) = mk_cell (str[i]).val a.val := by
  obtain ⟨e1, e2⟩ := kset_cursor_pos_legal x y s hx0 hx hy0 hy
  have hreg : ∀ b ∈ str, Regular b := fun b hb => printable_regular b (hp b hb)
  have key : ∀ (i : Nat) (hi : i < str.length),
      (kprint_at str x y a s).vga_buffer (y * 80 + x + i) = char_cell a str[i] := by
    intro i hi
    rw [kprint_at_buffer]
    rcases hlast with h | h
    · have h4 := (kprint_line str a (kset_cursor_pos x y s) hreg (by omega) (by omega)
        (by omega)).2.2.2.1 i hi
      rw [e1, e2] at h4
      exact h4
    · have h4 := (kprint_row str a (kset_cursor_pos x y s) hreg (by omega) (by omega)
        (by omega)).2.1 i hi
      rw [e1, e2] at h4
      exact h4
  constructor
  · intro i hi
    rw [key i hi, char_cell_low]
  · intro i hi
    rw [key i hi, char_cell_ascii a _ (printable_ascii _ (hp _ (List.getElem_mem _)))]

theorem kprint_at_row_witness :
    RowHolds [0x4F, 0x4B] 78 23 0x0E sample_mid ∧
    ∀ (i : Nat) (hi : i < [(0x4F : Fin 256), 0x4B].length),
      (kprint_at [0x4F, 0x4B] 78 23 0x0E sample_mid).vga_buffer (23 * 80 + 78 + i)
        = mk_cell ([(0x4F : Fin 256), 0x4B][i]).val (0x0E : Fin 256).val :=
  kprint_at_row [0x4F, 0x4B] 78 23 0x0E sample_mid (by decide) (by decide) (by decide)
    (by decide)
    (by
      intro b hb
      simp only [List.mem_cons, List.mem_singleton, List.not_mem_nil, or_false] at hb
      rcases hb with rfl | rfl <;> decide)
    (by decide) (by decide)

/-! ## Claim C12: backspace end to end -/

/-- One loop iteration for a backspace with the cursor right of column 0: the
cursor steps back and the cell there is blanked. -/
theorem kprint_char_backspace_left (a : Fin 256) (s : Console) (h : s.InBounds)
    (hx : 0 < s.cursor_x) :
    (kprint_char 8 a s).cursor_x = s.cursor_x - 1 ∧
    (kprint_char 8 a s).cursor_y = s.cursor_y ∧
    (kprint_char 8 a s).scrolls = s.scrolls ∧
    ∀ j : Int, (kprint_char 8 a s).vga_buffer j =
      if j = s.cursor_y * 80 + (s.cursor_x - 1) then blank_cell else s.vga_buffer j := by
  rw [kprint_char_backspace a s h, kprint_effect_backspace, if_pos hx]
  exact ⟨rfl, rfl, rfl, fun _ => rfl⟩

/-- Claim C12 (backspace end to end): for all printable ASCII characters p, q, w
and every attribute a, after `kclear_screen ()` followed by kprint of the
four-character string p q '\b' w, row 0 reads p at column 0 and w at column 1
(both with attribute a), columns 2..79 of row 0 are spaces with the default
attribute, and the cursor is at column 2 of row 0. -/
theorem backspace_end_to_end (p q w a : Fin 256) (s : Console)
    (hp : Printable p) (hq : Printable q) (hw : Printable w) :
    (kprint [p, q, 8, w] a (kclear_screen s)).vga_buffer (0 * 80 + 0) = mk_cell p.val a.val ∧
    (kprint [p, q, 8, w] a (kclear_screen s)).vga_buffer (0 * 80 + 1) = mk_cell w.val a.val ∧
    (∀ c : Int, 2 ≤ c → c < 80 →
      (kprint [p, q, 8, w] a (kclear_screen s)).vga_buffer (0 * 80 + c) = mk_cell 0x20 0x0F) ∧
    (kprint [p, q, 8, w] a (kclear_screen s)).cursor_x = 2 ∧
    (kprint [p, q, 8, w] a (kclear_screen s)).cursor_y = 0 := by
  have rp := printable_regular p hp
  have rq := printable_regular q hq
  have rw_ := printable_regular w hw
  obtain ⟨k1, k2⟩ := kclear_screen_cursor s
  have k3 := kclear_screen_buffer s
  obtain ⟨a1, a2, _, a4⟩ := kprint_char_regular_nowrap p a (kclear_screen s) rp
    (by omega) (by omega)
  rw [k1] at a1 a4
  rw [k2] at a2 a4
  obtain ⟨b1, b2, _, b4⟩ := kprint_char_regular_nowrap q a (kprint_char p a (kclear_screen s)) rq
    (by omega) (by omega)
  rw [a1] at b1 b4
  rw [a2] at b2 b4
  obtain ⟨c1, c2, _, c4⟩ := kprint_char_backspace_left a
    (kprint_char q a (kprint_char p a (kclear_screen s)))
    (by unfold Console.InBounds; simp only [VGA_WIDTH, VGA_HEIGHT]; omega) (by omega)
  rw [b1] at c1 c4
  rw [b2] at c2 c4
  obtain ⟨d1, d2, _, d4⟩ := kprint_char_regular_nowrap w a
    (kprint_char 8 a (kprint_char q a (kprint_char p a (kclear_screen s)))) rw_
    (by omega) (by omega)
  rw [c1] at d1 d4
  rw [c2] at d2 d4
  rw [kprint_cons p _ a _ rp.1, kprint_cons q _ a _ rq.1, kprint_cons 8 _ a _ (by decide),
    kprint_single w a _ rw_.1]
  refine ⟨?_, ?_, ?_, by rw [d1]; norm_num, by rw [d2]⟩
  · rw [d4, if_neg (by norm_num), c4, if_neg (by norm_num), b4, if_neg (by norm_num), a4,
      if_pos (by norm_num), char_cell_ascii a p (printable_ascii p hp)]
  · rw [d4, if_pos (by norm_num), char_cell_ascii a w (printable_ascii w hw)]
  · intro c hc0 hc
    rw [d4, if_neg (by omega), c4, if_neg (by omega), b4, if_neg (by omega), a4,
      if_neg (by omega), k3, if_pos (by omega), blank_cell_eq]

theorem backspace_end_to_end_witness :
    (kprint [0x41, 0x42, 8, 0x43] 0x0E (kclear_screen sample_mid)).vga_buffer (0 * 80 + 0)
      = mk_cell (0x41 : Fin 256).val (0x0E : Fin 256).val ∧
    (kprint [0x41, 0x42, 8, 0x43] 0x0E (kclear_screen sample_mid)).vga_buffer (0 * 80 + 1)
      = mk_cell (0x43 : Fin 256).val (0x0E : Fin 256).val ∧
    (∀ c : Int, 2 ≤ c → c < 80 →
      (kprint [0x41, 0x42, 8, 0x43] 0x0E (kclear_screen sample_mid)).vga_buffer (0 * 80 + c)
        = mk_cell 0x20 0x0F) ∧
    (kprint [0x41, 0x42, 8, 0x43] 0x0E (kclear_screen sample_mid)).cursor_x = 2 ∧
    (kprint [0x41, 0x42, 8, 0x43] 0x0E (kclear_screen sample_mid)).cursor_y = 0 :=
  backspace_end_to_end 0x41 0x42 0x43 0x0E sample_mid (by decide) (by decide) (by decide)

/-! ## Claim C13: scroll end to end -/

/-- Printing a concatenation whose first part has no NUL byte is printing the
first part and then the second. -/
theorem kprint_append (s1 s2 : List (Fin 256)) (a : Fin 256) :
    ∀ s : Console, (∀ b ∈ s1, b ≠ 0) →
      kprint (s1 ++ s2) a s = kprint s2 a (kprint s1 a s) := by
  induction s1 with
  | nil => intro s _; rfl
  | cons b rest ih =>
    intro s h
    have hb : b ≠ 0 := h b (List.mem_cons_self _ _)
    rw [List.cons_append, kprint_cons b _ a s hb, kprint_cons b rest a s hb]
    exact ih _ (fun x hx => h x (List.mem_cons_of_mem _ hx))

/-- One loop iteration for a newline on row 24: the screen scrolls once and the
cursor goes to the start of row 24. -/
theorem kprint_char_newline_last_row (a : Fin 256) (s : Console) (hy : s.cursor_y = 24) :
    (kprint_char 10 a s).cursor_x = 0 ∧
    (kprint_char 10 a s).cursor_y = 24 ∧
    (kprint_char 10 a s).scrolls = s.scrolls + 1 ∧
    ∀ j : Int, (kprint_char 10 a s).vga_buffer j =
      if 1920 ≤ j ∧ j < 2000 then blank_cell
      else if 0 ≤ j ∧ j < 1920 then s.vga_buffer (j + 80) else s.vga_buffer j := by
  unfold kprint_char
  rw [kprint_effect_newline, kprint_wrap_id _ (by show (0 : Int) < 80; decide)]
  simp only [update_hardware_cursor_scrolls, update_hardware_cursor_x,
    update_hardware_cursor_y, update_hardware_cursor_buffer, kprint_scroll_scrolls,
    kprint_scroll_x, kprint_scroll_y, kprint_scroll_buffer]
  have h25 : s.cursor_y + 1 ≥ 25 := by omega
  rw [if_pos h25, if_pos h25, if_pos h25]
  refine ⟨trivial, rfl, rfl, ?_⟩
  intro j
  rw [scroll_screen_buffer]

/-- Claim C13 (scroll end to end): for all printable ASCII strings s1 and s2
shorter than 80, `kprint (s1 ++ "\n" ++ s2, a)` started with the cursor at (0, 24)
scrolls exactly once and ends with s1 in row 23 from column 0, s2 in row 24 from
column 0, the rest of row 24 blank with the default attribute, and the cursor
at (len (s2), 24). -/
theorem scroll_end_to_end (s1 s2 : List (Fin 256)) (a : Fin 256) (s : Console)
    (hx : s.cursor_x = 0) (hy : s.cursor_y = 24)
    (hp1 : ∀ b ∈ s1, Printable b) (hp2 : ∀ b ∈ s2, Printable b)
    (hl1 : s1.length < 80) (hl2 : s2.length < 80) :
    (kprint (s1 ++ [10] ++ s2) a s).scrolls = s.scrolls + 1 ∧
    (∀ (i : Nat) (hi : i < s1.length),
      (kprint (s1 ++ [10] ++ s2) a s).vga_buffer (23 * 80 + i) = mk_cell (s1[i]).val a.val) ∧
    (∀ (i : Nat) (hi : i < s2.length),
      (kprint (s1 ++ [10] ++ s2) a s).vga_buffer (24 * 80 + i) = mk_cell (s2[i]).val a.val) ∧
    (∀ c : Int, s2.length ≤ c → c < 80 →
      (kprint (s1 ++ [10] ++ s2) a s).vga_buffer (24 * 80 + c) = mk_cell 0x20 0x0F) ∧
    (kprint (s1 ++ [10] ++ s2) a s).cursor_x = s2.length ∧
    (kprint (s1 ++ [10] ++ s2) a s).cursor_y = 24 := by
  have r1 : ∀ b ∈ s1, Regular b := fun b hb => printable_regular b (hp1 b hb)
  have r2 : ∀ b ∈ s2, Regular b := fun b hb => printable_regular b (hp2 b hb)
  have hnul : ∀ b ∈ s1 ++ [10], b ≠ 0 := by
    intro b hb
    rcases List.mem_append.1 hb with h | h
    · exact (r1 b h).1
    · rw [List.mem_singleton] at h
      rw [h]
      decide
  obtain ⟨a1, a2, a3, a4, _⟩ := kprint_line s1 a s r1 (by omega) (by omega) (by omega)
  rw [hx, hy] at a4
  rw [hx] at a1
  rw [hy] at a2
  obtain ⟨b1, b2, b3, b4⟩ := kprint_char_newline_last_row a (kprint s1 a s) a2
  obtain ⟨c1, c2, c3, c4, c5⟩ := kprint_line s2 a (kprint_char 10 a (kprint s1 a s)) r2
    (by omega) (by omega) (by omega)
  rw [b1, b2] at c4 c5
  rw [b1] at c1
  rw [b2] at c2
  have e : kprint (s1 ++ [10] ++ s2) a s
      = kprint s2 a (kprint_char 10 a (kprint s1 a s)) := by
    rw [kprint_append (s1 ++ [10]) s2 a s hnul, kprint_append s1 [10] a s (fun b hb => (r1 b hb).1),
      kprint_single 10 a _ (by decide)]
  rw [e]
  refine ⟨by rw [c3, b3, a3], ?_, ?_, ?_, by rw [c1]; omega, c2⟩
  · intro i hi
    rw [c5 _ (Or.inl (by omega)), b4, if_neg (by omega), if_pos (by omega)]
    have h4 := a4 i hi
    have e2 : (23 * 80 + (i : Int) + 80) = 24 * 80 + 0 + (i : Int) := by ring
    rw [e2, h4, char_cell_ascii a _ (printable_ascii _ (hp1 _ (List.getElem_mem _)))]
  · intro i hi
    have h4 := c4 i hi
    have e2 : (24 * 80 + (i : Int)) = 24 * 80 + 0 + (i : Int) := by ring
    rw [e2, h4, char_cell_ascii a _ (printable_ascii _ (hp2 _ (List.getElem_mem _)))]
  · intro c hc0 hc
    rw [c5 _ (Or.inr (by omega)), b4, if_pos (by omega), blank_cell_eq]

theorem scroll_end_to_end_witness :
    (kprint ([0x6C, 0x69, 0x6E, 0x65, 0x31] ++ [10] ++ [0x6C, 0x69, 0x6E, 0x65, 0x32]) 0x0A
      sample_bottom_left).scrolls = sample_bottom_left.scrolls + 1 ∧
    (kprint ([0x6C, 0x69, 0x6E, 0x65, 0x31] ++ [10] ++ [0x6C, 0x69, 0x6E, 0x65, 0x32]) 0x0A
      sample_bottom_left).cursor_x = 5 ∧
    (kprint ([0x6C, 0x69, 0x6E, 0x65, 0x31] ++ [10] ++ [0x6C, 0x69, 0x6E, 0x65, 0x32]) 0x0A
      sample_bottom_left).cursor_y = 24 :=
  have h := scroll_end_to_end [0x6C, 0x69, 0x6E, 0x65, 0x31] [0x6C, 0x69, 0x6E, 0x65, 0x32] 0x0A
    sample_bottom_left (by decide) (by decide)
    (by
      intro b hb
      simp only [List.mem_cons, List.mem_singleton, List.not_mem_nil, or_false] at hb
      rcases hb with rfl | rfl | rfl | rfl | rfl <;> decide)
    (by
      intro b hb
      simp only [List.mem_cons, List.mem_singleton, List.not_mem_nil, or_false] at hb
      rcases hb with rfl | rfl | rfl | rfl | rfl <;> decide)
    (by decide) (by decide)
  ⟨h.1, h.2.2.2.2.1, h.2.2.2.2.2⟩

/-! ## Claim C14: hardware cursor sync -/

/-- After `update_hardware_cursor` the port log ends with the four writes for
the current offset, provided the offset fits in 16 bits. -/
theorem update_hardware_cursor_synced (s : Console)
    (h0 : 0 ≤ s.cursor_y * 80 + s.cursor_x) (h1 : s.cursor_y * 80 + s.cursor_x < 65536) :
    CursorSynced (update_hardware_cursor s) := by
  refine ⟨s.ports,
    ((((s.cursor_y * 80 + s.cursor_x) % 65536).toNat) >>> 8) % 256,
    ((((s.cursor_y * 80 + s.cursor_x) % 65536).toNat) &&& 0xFF) % 256, ?_, ?_, ?_, ?_⟩
  · simp [update_hardware_cursor, outb]
  · exact Nat.mod_lt _ (by decide)
  · exact Nat.mod_lt _ (by decide)
  · rw [update_hardware_cursor_x, update_hardware_cursor_y]
    have e1 : (s.cursor_y * 80 + s.cursor_x) % 65536 = s.cursor_y * 80 + s.cursor_x :=
      Int.emod_eq_of_lt h0 h1
    rw [e1]
    have e2 : ∀ n : Nat, n >>> 8 = n / 256 := fun n => by
      rw [Nat.shiftRight_eq_div_pow]
    have e3 : ∀ n : Nat, n &&& 0xFF = n % 256 := fun n =>
      Nat.and_pow_two_sub_one_eq_mod n 8
    rw [e2, e3]
    omega

/-- One loop iteration of `kprint` from an in-bounds cursor ends in step. -/
theorem kprint_char_synced (b a : Fin 256) (s : Console) (h : s.InBounds) :
    CursorSynced (kprint_char b a s) := by
  obtain ⟨h1, h2, h3, h4⟩ := kprint_char_inBounds b a s h
  simp only [VGA_WIDTH, VGA_HEIGHT] at h2 h4
  unfold kprint_char at h1 h2 h3 h4 ⊢
  rw [update_hardware_cursor_x] at h1 h2
  rw [update_hardware_cursor_y] at h3 h4
  exact update_hardware_cursor_synced _ (by omega) (by omega)

/-- Printing keeps an in-step console in step. -/
theorem kprint_synced (str : List (Fin 256)) (a : Fin 256) :
    ∀ s : Console, s.InBounds → CursorSynced s → CursorSynced (kprint str a s) := by
  induction str with
  | nil => intro s _ h; exact h
  | cons b rest ih =>
    intro s hb hs
    unfold kprint
    split_ifs
    · exact hs
    · exact ih _ (kprint_char_inBounds b a s hb) (kprint_char_synced b a s hb)

theorem kset_cursor_pos_synced (x y : Int) (s : Console) :
    CursorSynced (kset_cursor_pos x y s) := by
  obtain ⟨h1, h2, h3, h4⟩ := kset_cursor_pos_inBounds x y s
  simp only [VGA_WIDTH, VGA_HEIGHT] at h2 h4
  unfold kset_cursor_pos at h1 h2 h3 h4 ⊢
  rw [update_hardware_cursor_x] at h1 h2
  rw [update_hardware_cursor_y] at h3 h4
  exact update_hardware_cursor_synced _ (by omega) (by omega)

/-- Claim C14 (hardware cursor sync): with outb modelled as appending
(port, value) to a log, after every kset_cursor_pos, kclear_screen and kprint_at,
and after every kprint of a non-empty string from an in-bounds cursor, the last
four log entries are (0x3D4, 0x0E), (0x3D5, hi), (0x3D4, 0x0F), (0x3D5, lo) in
that order, with hi*256 + lo = cursor_y*80 + cursor_x for the final software
cursor. -/
theorem hardware_cursor_sync (s : Console) :
    (∀ x y : Int, CursorSynced (kset_cursor_pos x y s)) ∧
    CursorSynced (kclear_screen s) ∧
    (∀ (str : List (Fin 256)) (x y : Int) (a : Fin 256), CursorSynced (kprint_at str x y a s)) ∧
    (s.InBounds → ∀ (b : Fin 256) (rest : List (Fin 256)) (a : Fin 256), b ≠ 0 →
      CursorSynced (kprint (b :: rest) a s)) := by
  refine ⟨fun x y => kset_cursor_pos_synced x y s, ?_,
    fun str x y a => kset_cursor_pos_synced _ _ _, ?_⟩
  · unfold kclear_screen
    exact update_hardware_cursor_synced _ (by show (0 : Int) ≤ 0 * 80 + 0; decide)
      (by show (0 : Int) * 80 + 0 < 65536; decide)
  · intro h b rest a hb
    rw [kprint_cons b rest a s hb]
    exact kprint_synced rest a _ (kprint_char_inBounds b a s h) (kprint_char_synced b a s h)

theorem hardware_cursor_sync_witness :
    CursorSynced (kprint (0x41 :: [0x42, 10]) 0x0F sample_corner) :=
  (hardware_cursor_sync sample_corner).2.2.2 (by decide) 0x41 [0x42, 10] 0x0F (by decide)

/-! ## Claim C15: every buffer access is inside the grid -/

theorem touchedWithin_refl (s : Console) : TouchedWithin s s :=
  ⟨[], by simp, by simp⟩

theorem touchedWithin_trans (s0 s1 s2 : Console) (h1 : TouchedWithin s0 s1)
    (h2 : TouchedWithin s1 s2) : TouchedWithin s0 s2 := by
  obtain ⟨l1, e1, b1⟩ := h1
  obtain ⟨l2, e2, b2⟩ := h2
  refine ⟨l1 ++ l2, by rw [e2, e1, List.append_assoc], ?_⟩
  intro i hi
  rcases List.mem_append.1 hi with h | h
  · exact b1 i h
  · exact b2 i h

/-- A state with the same access record is as good. -/
theorem touchedWithin_of_eq (s0 s1 s2 : Console) (h1 : TouchedWithin s0 s1)
    (e : s2.touched = s1.touched) : TouchedWithin s0 s2 := by
  obtain ⟨l1, e1, b1⟩ := h1
  exact ⟨l1, by rw [e, e1], b1⟩

theorem touchedWithin_write (s0 st : Console) (i : Int) (v : Nat) (h : TouchedWithin s0 st)
    (h0 : 0 ≤ i) (h1 : i < 2000) : TouchedWithin s0 (vga_write i v st) := by
  refine touchedWithin_trans s0 st _ h ⟨[i], rfl, ?_⟩
  intro k hk
  rw [List.mem_singleton] at hk
  rw [hk]
  exact ⟨h0, h1⟩

theorem touchedWithin_read (s0 st : Console) (i : Int) (h : TouchedWithin s0 st)
    (h0 : 0 ≤ i) (h1 : i < 2000) : TouchedWithin s0 (vga_read i st).2 := by
  refine touchedWithin_trans s0 st _ h ⟨[i], rfl, ?_⟩
  intro k hk
  rw [List.mem_singleton] at hk
  rw [hk]
  exact ⟨h0, h1⟩

/-- A row of 80 writes from index `base` on stays inside the grid when the row does. -/
theorem fill_row_touched (base : Int) (s0 st : Console) (h : TouchedWithin s0 st)
    (hb0 : 0 ≤ base) (hb1 : base + 80 ≤ 2000) :
    TouchedWithin s0
      (for_range 0 80 (fun x st1 => vga_write (base + x) blank_cell st1) st) :=
  for_range_inv 0 80 (by omega)
    (fun x st1 => vga_write (base + x) blank_cell st1)
    (fun _ t => TouchedWithin s0 t) st h
    (fun i t _ hi ht => touchedWithin_write s0 t _ _ ht (by omega) (by omega))

/-- The copy of row `y` onto row `y - 1` stays inside the grid for `1 <= y < 25`. -/
theorem copy_row_touched (y : Int) (s0 st : Console) (h : TouchedWithin s0 st)
    (hy0 : 1 ≤ y) (hy1 : y < 25) :
    TouchedWithin s0 (for_range 0 80 (fun x st1 =>
        let r := vga_read (y * VGA_WIDTH + x) st1
        vga_write ((y - 1) * VGA_WIDTH + x) r.1 r.2) st) :=
  for_range_inv 0 80 (by omega)
    (fun x st1 =>
        let r := vga_read (y * VGA_WIDTH + x) st1
        vga_write ((y - 1) * VGA_WIDTH + x) r.1 r.2)
    (fun _ t => TouchedWithin s0 t) st h
    (fun i t _ hi ht =>
      touchedWithin_write s0 _ _ _
        (touchedWithin_read s0 t _ ht (by simp only [VGA_WIDTH]; omega)
          (by simp only [VGA_WIDTH]; omega))
        (by simp only [VGA_WIDTH]; omega) (by simp only [VGA_WIDTH]; omega))

/-- Every access of `scroll_screen` is inside the grid. -/
theorem scroll_screen_touched (s : Console) : TouchedWithin s (scroll_screen s) := by
  have hc : TouchedWithin s (for_range 1 25 (fun y st =>
      for_range 0 80 (fun x st1 =>
        let r := vga_read (y * VGA_WIDTH + x) st1
        vga_write ((y - 1) * VGA_WIDTH + x) r.1 r.2) st) { s with scrolls := s.scrolls + 1 }) :=
    for_range_inv 1 25 (by omega)
      (fun y st =>
        for_range 0 80 (fun x st1 =>
          let r := vga_read (y * VGA_WIDTH + x) st1
          vga_write ((y - 1) * VGA_WIDTH + x) r.1 r.2) st)
      (fun _ t => TouchedWithin s t) _ (touchedWithin_of_eq s s _ (touchedWithin_refl s) rfl)
      (fun i t hi0 hi ht => copy_row_touched (i : Int) s t ht (by omega) (by omega))
  exact fill_row_touched ((VGA_HEIGHT - 1) * VGA_WIDTH) s _ hc (by decide) (by decide)

/-- Every access of `kclear_screen` is inside the grid. -/
theorem kclear_screen_touched (s : Console) : TouchedWithin s (kclear_screen s) := by
  have hc : TouchedWithin s (for_range 0 25 (fun y st =>
      for_range 0 80 (fun x st1 => vga_write (y * VGA_WIDTH + x) blank_cell st1) st) s) :=
    for_range_inv 0 25 (by omega)
      (fun y st =>
        for_range 0 80 (fun x st1 => vga_write (y * VGA_WIDTH + x) blank_cell st1) st)
      (fun _ t => TouchedWithin s t) s (touchedWithin_refl s)
      (fun i t _ hi ht => fill_row_touched ((i : Int) * VGA_WIDTH) s t ht
        (by simp only [VGA_WIDTH]; omega) (by simp only [VGA_WIDTH]; omega))
  exact touchedWithin_of_eq s _ _ hc rfl

/-- The effect of one character from an in-bounds cursor writes inside the grid. -/
theorem kprint_effect_touched (b a : Fin 256) (s : Console) (h : s.InBounds) :
    TouchedWithin s (kprint_effect b a s) := by
  obtain ⟨h1, h2, h3, h4⟩ := h
  simp only [VGA_WIDTH, VGA_HEIGHT] at h2 h4
  unfold kprint_effect
  simp only [VGA_WIDTH]
  split_ifs
  · exact touchedWithin_of_eq s s _ (touchedWithin_refl s) rfl
  · exact touchedWithin_of_eq s s _ (touchedWithin_refl s) rfl
  · exact touchedWithin_write s _ _ _ (touchedWithin_of_eq s s _ (touchedWithin_refl s) rfl)
      (by show 0 ≤ s.cursor_y * 80 + (s.cursor_x - 1); omega)
      (by show s.cursor_y * 80 + (s.cursor_x - 1) < 2000; omega)
  · exact touchedWithin_write s _ _ _ (touchedWithin_of_eq s s _ (touchedWithin_refl s) rfl)
      (by show 0 ≤ (s.cursor_y - 1) * 80 + (80 - 1); omega)
      (by show (s.cursor_y - 1) * 80 + (80 - 1) < 2000; omega)
  · exact touchedWithin_refl s
  · exact touchedWithin_of_eq s _ _
      (touchedWithin_write s s (s.cursor_y * 80 + s.cursor_x) (char_cell a b)
        (touchedWithin_refl s) (by omega) (by omega)) rfl

theorem kprint_wrap_touched (s : Console) : (kprint_wrap s).touched = s.touched := by
  unfold kprint_wrap
  split_ifs <;> rfl

theorem kprint_scroll_touched (s : Console) : TouchedWithin s (kprint_scroll s) := by
  by_cases hh : s.cursor_y ≥ VGA_HEIGHT
  · simp only [kprint_scroll, if_pos hh]
    exact touchedWithin_of_eq s _ _ (scroll_screen_touched s) rfl
  · simp only [kprint_scroll, if_neg hh]
    exact touchedWithin_refl s

/-- One loop iteration of `kprint` from an in-bounds cursor stays inside the grid. -/
theorem kprint_char_touched (b a : Fin 256) (s : Console) (h : s.InBounds) :
    TouchedWithin s (kprint_char b a s) := by
  unfold kprint_char
  refine touchedWithin_of_eq s _ _ ?_ (update_hardware_cursor_touched _)
  refine touchedWithin_trans s (kprint_wrap (kprint_effect b a s)) _ ?_
    (kprint_scroll_touched _)
  exact touchedWithin_of_eq s _ _ (kprint_effect_touched b a s h) (kprint_wrap_touched _)

/-- The function `kprint` from an in-bounds cursor stays inside the grid. -/
theorem kprint_touched (str : List (Fin 256)) (a : Fin 256) :
    ∀ s : Console, s.InBounds → TouchedWithin s (kprint str a s) := by
  induction str with
  | nil => intro s _; exact touchedWithin_refl s
  | cons b rest ih =>
    intro s h
    unfold kprint
    split_ifs
    · exact touchedWithin_refl s
    · exact touchedWithin_trans s _ _ (kprint_char_touched b a s h)
        (ih _ (kprint_char_inBounds b a s h))

theorem kset_cursor_pos_touched (x y : Int) (s : Console) :
    (kset_cursor_pos x y s).touched = s.touched := rfl

/-- Claim C15 (grid access safety): if the cursor is in bounds on entry, every
buffer index read or written by kprint (for any string and attribute, its calls
of scroll_screen included), by kclear_screen and by kprint_at lies in [0, 2000). -/
theorem grid_access_safety (s : Console) (h : s.InBounds) :
    (∀ (str : List (Fin 256)) (a : Fin 256),
      ∃ l : List Int, (kprint str a s).touched = s.touched ++ l ∧ ∀ i ∈ l, 0 ≤ i ∧ i < 2000) ∧
    (∃ l : List Int, (kclear_screen s).touched = s.touched ++ l ∧ ∀ i ∈ l, 0 ≤ i ∧ i < 2000) ∧
    (∀ (str : List (Fin 256)) (x y : Int) (a : Fin 256),
      ∃ l : List Int, (kprint_at str x y a s).touched = s.touched ++ l ∧
        ∀ i ∈ l, 0 ≤ i ∧ i < 2000) := by
  refine ⟨fun str a => kprint_touched str a s h, kclear_screen_touched s, ?_⟩
  intro str x y a
  have h1 : TouchedWithin s (kset_cursor_pos x y s) :=
    touchedWithin_of_eq s s _ (touchedWithin_refl s) (kset_cursor_pos_touched x y s)
  have h2 := kprint_touched str a (kset_cursor_pos x y s) (kset_cursor_pos_inBounds x y s)
  exact touchedWithin_of_eq s _ _ (touchedWithin_trans s _ _ h1 h2)
    (kset_cursor_pos_touched _ _ _)

theorem grid_access_safety_witness :
    ∃ l : List Int,
      (kprint [0x41, 10, 8, 0x42] 0x0F sample_corner).touched = sample_corner.touched ++ l ∧
      ∀ i ∈ l, 0 ≤ i ∧ i < 2000 :=
  (grid_access_safety sample_corner (by decide)).1 [0x41, 10, 8, 0x42] 0x0F

/-! ## Claims C19 and C20: k_divide -/

/-- Claim C19 (division by zero degrades instead of failing): for every numerator
n, `k_divide (n, 0)` returns 0 and its only effect on the console is
`kprint ("Error: Division by zero!\n", 0x04)` (red on black); for every
denominator d != 0 the console is left unchanged. -/
theorem k_divide_by_zero (n : Int) (s : Console) :
    (k_divide n 0 s).1 = some 0 ∧
    (k_divide n 0 s).2 = kprint division_message 0x04 s ∧
    (∀ d : Int, d ≠ 0 → (k_divide n d s).2 = s) := by
  refine ⟨rfl, rfl, ?_⟩
  intro d hd
  simp only [k_divide, if_neg hd]

theorem k_divide_by_zero_witness : (k_divide 7 (-2) sample_mid).2 = sample_mid :=
  (k_divide_by_zero 7 sample_mid).2.2 (-2) (by decide)

/-- Where the C division is defined, `k_divide` returns the quotient truncated
toward zero. -/
theorem k_divide_value (n d : Int) (s : Console) (hd : d ≠ 0)
    (hov : ¬ (n = INT_MIN ∧ d = -1)) :
    (k_divide n d s).1 = some (Int.tdiv n d) := by
  simp only [k_divide, if_neg hd, c_int_div, if_neg hov]

set_option maxRecDepth 4000 in
/-- Typing "-2147483648" gives `INT_MIN` through `k_atoi`. -/
theorem k_atoi_int_min :
    k_atoi [0x2D, 0x32, 0x31, 0x34, 0x37, 0x34, 0x38, 0x33, 0x36, 0x34, 0x38] = INT_MIN := by
  decide

/-- Claim C20, at the input where it fails: `k_divide (INT_MIN, -1)`, a pair that
`do_math_action` obtains through `k_atoi` from the typed lines "-2147483648" and
"-1", passes the zero check and executes `INT_MIN / -1`, a division whose
quotient is not representable: it is undefined in C and raises a divide error
on x86, so no value is returned. -/
theorem k_divide_overflow_faults :
    (k_divide (k_atoi [0x2D, 0x32, 0x31, 0x34, 0x37, 0x34, 0x38, 0x33, 0x36, 0x34, 0x38])
      (k_atoi [0x2D, 0x31]) sample_mid).1 = none ∧
    (k_divide INT_MIN (-1) sample_mid).1 = none ∧
    (k_divide INT_MIN (-1) sample_mid).2 = sample_mid := by
  have e : k_atoi [0x2D, 0x31] = -1 := by decide
  rw [k_atoi_int_min, e]
  exact ⟨by decide, by decide, rfl⟩

/-! ## Claim C16: k_atoi -/

theorem wrap_int_id (v : Int) (h0 : INT_MIN ≤ v) (h1 : v ≤ INT_MAX) : wrap_int v = v := by
  unfold wrap_int
  simp only [INT_MIN, INT_MAX] at h0 h1
  omega

theorem char_val_of_ascii (b : Fin 256) (h : b.val < 128) : char_val b = (b.val : Int) := by
  unfold char_val
  rw [if_pos h]

/-- A byte from 0x80 on is negative as a `char`. -/
theorem char_val_neg (b : Fin 256) (h : ¬ b.val < 128) : char_val b < 0 := by
  have hb := b.isLt
  unfold char_val
  rw [if_neg h]
  omega

theorem isDigit_iff (b : Fin 256) : (char_val b ≥ 48 ∧ char_val b ≤ 57) ↔ IsDigit b := by
  have hb := b.isLt
  unfold char_val IsDigit
  split_ifs <;> omega

theorem isSpace_iff (b : Fin 256) :
    (char_val b = 32 ∨ char_val b = 9 ∨ char_val b = 10 ∨ char_val b = 13) ↔ IsSpace b := by
  have hb := b.isLt
  unfold char_val IsSpace
  split_ifs <;> omega

/-- The whitespace loop stops at once on a string that is empty or starts with
another character. -/
theorem atoi_skip_stop (rest : List (Fin 256)) (h : ∀ b ∈ rest.head?, ¬ IsSpace b) :
    atoi_skip rest = rest := by
  cases rest with
  | nil => rfl
  | cons b r =>
    have hb : ¬ IsSpace b := h b (by simp)
    simp only [atoi_skip, if_neg (fun hh => hb ((isSpace_iff b).1 hh))]

/-- The whitespace loop drops a whitespace prefix. -/
theorem atoi_skip_append (ws rest : List (Fin 256)) (hws : ∀ b ∈ ws, IsSpace b)
    (h : ∀ b ∈ rest.head?, ¬ IsSpace b) : atoi_skip (ws ++ rest) = rest := by
  induction ws with
  | nil => exact atoi_skip_stop rest h
  | cons b r ih =>
    have hb : IsSpace b := hws b (List.mem_cons_self _ _)
    rw [List.cons_append]
    simp only [atoi_skip, if_pos ((isSpace_iff b).2 hb)]
    exact ih (fun x hx => hws x (List.mem_cons_of_mem _ hx))

/-- Digits only add: the value never drops below the accumulator. -/
theorem dec_from_ge (ds : List (Fin 256)) (hds : ∀ b ∈ ds, IsDigit b) :
    ∀ acc : Int, 0 ≤ acc → acc ≤ dec_from acc ds := by
  induction ds with
  | nil => intro acc _; exact le_refl _
  | cons d r ih =>
    intro acc h0
    have hd : IsDigit d := hds d (List.mem_cons_self _ _)
    obtain ⟨d0, d1⟩ := hd
    have h1 := ih (fun x hx => hds x (List.mem_cons_of_mem _ hx))
      (acc * 10 + ((d.val : Int) - 48)) (by omega)
    show acc ≤ dec_from (acc * 10 + ((d.val : Int) - 48)) r
    omega

/-- The digit loop on a run of digits whose value fits in an `int`, followed by
a tail that is empty or starts with a non-digit. -/
theorem atoi_digits_run (ds tail : List (Fin 256)) (hds : ∀ b ∈ ds, IsDigit b)
    (htail : ∀ b ∈ tail.head?, ¬ IsDigit b) :
    ∀ acc : Int, 0 ≤ acc → dec_from acc ds ≤ INT_MAX →
      atoi_digits acc (ds ++ tail) = dec_from acc ds := by
  induction ds with
  | nil =>
    intro acc _ _
    cases tail with
    | nil => rfl
    | cons b r =>
      have hb : ¬ IsDigit b := htail b (by simp)
      show atoi_digits acc (b :: r) = acc
      simp only [atoi_digits, if_neg (fun hh => hb ((isDigit_iff b).1 hh))]
  | cons d r ih =>
    intro acc h0 hfit
    have hd : IsDigit d := hds d (List.mem_cons_self _ _)
    have hr : ∀ b ∈ r, IsDigit b := fun x hx => hds x (List.mem_cons_of_mem _ hx)
    obtain ⟨d0, d1⟩ := hd
    have hfit2 : dec_from (acc * 10 + ((d.val : Int) - 48)) r ≤ INT_MAX := hfit
    have hge := dec_from_ge r hr (acc * 10 + ((d.val : Int) - 48)) (by omega)
    simp only [INT_MAX] at hfit2
    rw [List.cons_append]
    simp only [atoi_digits, if_pos ((isDigit_iff d).2 ⟨d0, d1⟩)]
    rw [char_val_of_ascii d (by omega),
      wrap_int_id (acc * 10) (by simp only [INT_MIN]; omega) (by simp only [INT_MAX]; omega),
      wrap_int_id _ (by simp only [INT_MIN]; omega) (by simp only [INT_MAX]; omega)]
    exact ih hr _ (by omega) hfit

/-- What `k_atoi` returns on whitespace, an optional sign, a run of digits whose
value fits in an `int` and a tail that stops the digit loop. -/
theorem k_atoi_spec (ws sg ds tail : List (Fin 256))
    (hws : ∀ b ∈ ws, IsSpace b) (hsg : sg = [] ∨ sg = [0x2B] ∨ sg = [0x2D])
    (hds : ∀ b ∈ ds, IsDigit b) (hne : ds ≠ []) (hfit : dec_value ds ≤ INT_MAX)
    (htail : ∀ b ∈ tail.head?, ¬ IsDigit b) :
    k_atoi (ws ++ sg ++ ds ++ tail) = if sg = [0x2D] then - dec_value ds else dec_value ds := by
  have hrun := atoi_digits_run ds tail hds htail 0 (le_refl _) hfit
  have hge := dec_from_ge ds hds 0 (le_refl _)
  have hfit2 : dec_from 0 ds ≤ 2147483647 := hfit
  obtain ⟨d, r, rfl⟩ := List.exists_cons_of_ne_nil hne
  have hd : IsDigit d := hds d (List.mem_cons_self _ _)
  obtain ⟨d0, d1⟩ := hd
  have hcv : char_val d = (d.val : Int) := char_val_of_ascii d (by omega)
  rw [List.append_assoc, List.append_assoc]
  unfold k_atoi dec_value
  rcases hsg with rfl | rfl | rfl
  · have hs : atoi_skip (ws ++ ([] ++ (d :: r ++ tail))) = d :: r ++ tail :=
      atoi_skip_append ws _ hws (by
        intro b hb
        simp only [List.nil_append, List.cons_append, List.head?_cons, Option.mem_def,
          Option.some.injEq] at hb
        subst hb
        unfold IsSpace
        omega)
    simp only [hs]
    have h45 : ¬ head_char (d :: r ++ tail) = 45 := by
      show ¬ char_val d = 45
      rw [hcv]; omega
    have h43 : ¬ head_char (d :: r ++ tail) = 43 := by
      show ¬ char_val d = 43
      rw [hcv]; omega
    rw [if_neg h45, if_neg h45, if_neg h43, hrun, if_neg (by decide), one_mul]
    exact wrap_int_id _ (by simp only [INT_MIN]; omega) (by simp only [INT_MAX]; omega)
  · have hs : atoi_skip (ws ++ ([0x2B] ++ (d :: r ++ tail))) = 0x2B :: (d :: r ++ tail) :=
      atoi_skip_append ws _ hws (by
        intro b hb
        simp only [List.singleton_append, List.head?_cons, Option.mem_def,
          Option.some.injEq] at hb
        subst hb
        decide)
    simp only [hs]
    have h45 : ¬ head_char (0x2B :: (d :: r ++ tail)) = 45 := by
      show ¬ char_val 0x2B = 45
      decide
    have h43 : head_char (0x2B :: (d :: r ++ tail)) = 43 := by
      show char_val 0x2B = 43
      decide
    rw [if_neg h45, if_neg h45, if_pos h43, List.tail_cons, hrun, if_neg (by decide), one_mul]
    exact wrap_int_id _ (by simp only [INT_MIN]; omega) (by simp only [INT_MAX]; omega)
  · have hs : atoi_skip (ws ++ ([0x2D] ++ (d :: r ++ tail))) = 0x2D :: (d :: r ++ tail) :=
      atoi_skip_append ws _ hws (by
        intro b hb
        simp only [List.singleton_append, List.head?_cons, Option.mem_def,
          Option.some.injEq] at hb
        subst hb
        decide)
    simp only [hs]
    have h45 : head_char (0x2D :: (d :: r ++ tail)) = 45 := by
      show char_val 0x2D = 45
      decide
    rw [if_pos h45, if_pos h45, List.tail_cons, hrun, if_pos trivial, neg_one_mul]
    exact wrap_int_id _ (by simp only [INT_MIN]; omega) (by simp only [INT_MAX]; omega)

/-- Claim C16 (`k_atoi` parses a decimal prefix): for every string made of zero or
more whitespace characters (space, tab, '\n', '\r'), then an optional single '+'
or '-', then one or more decimal digits whose value n fits in a 32-bit int, then
any tail that is empty or starts with a non-digit, `k_atoi` returns n, or -n when
the sign is '-'; the tail does not affect the result. -/
theorem k_atoi_parses_decimal (ws sg ds tail : List (Fin 256))
    (hws : ∀ b ∈ ws, IsSpace b) (hsg : sg = [] ∨ sg = [0x2B] ∨ sg = [0x2D])
    (hds : ∀ b ∈ ds, IsDigit b) (hne : ds ≠ []) (hfit : dec_value ds ≤ INT_MAX)
    (htail : ∀ b ∈ tail.head?, ¬ IsDigit b) :
    k_atoi (ws ++ sg ++ ds ++ tail) = if sg = [0x2D] then - dec_value ds else dec_value ds :=
  k_atoi_spec ws sg ds tail hws hsg hds hne hfit htail

theorem k_atoi_parses_decimal_witness :
    k_atoi ([] ++ [] ++ [0x31, 0x32, 0x33] ++ [])
      = (if ([] : List (Fin 256)) = [0x2D] then - dec_value [0x31, 0x32, 0x33]
          else dec_value [0x31, 0x32, 0x33]) ∧
    k_atoi ([0x20, 0x09] ++ [0x2D] ++ [0x34, 0x35] ++ [0x78, 0x39])
      = (if ([0x2D] : List (Fin 256)) = [0x2D] then - dec_value [0x34, 0x35]
          else dec_value [0x34, 0x35]) ∧
    dec_value [0x31, 0x32, 0x33] = 123 ∧ - dec_value [0x34, 0x35] = -45 :=
  ⟨k_atoi_parses_decimal [] [] [0x31, 0x32, 0x33] [] (by simp) (by simp)
      (by
        intro b hb
        simp only [List.mem_cons, List.mem_singleton, List.not_mem_nil, or_false] at hb
        rcases hb with rfl | rfl | rfl <;> decide)
      (by simp) (by decide) (by simp),
   k_atoi_parses_decimal [0x20, 0x09] [0x2D] [0x34, 0x35] [0x78, 0x39]
      (by
        intro b hb
        simp only [List.mem_cons, List.mem_singleton, List.not_mem_nil, or_false] at hb
        rcases hb with rfl | rfl <;> decide)
      (by simp)
      (by
        intro b hb
        simp only [List.mem_cons, List.mem_singleton, List.not_mem_nil, or_false] at hb
        rcases hb with rfl | rfl <;> decide)
      (by simp) (by decide)
      (by
        intro b hb
        simp only [List.head?_cons, Option.mem_def, Option.some.injEq] at hb
        subst hb
        decide),
   by decide, by decide⟩

/-! ## Character buffers: k_strlen, k_reverse and the digit loop of k_itoa -/

/-- What `buf_store` leaves in the buffer. -/
theorem buf_store_read (l : List (Fin 256)) :
    ∀ (s : Int → Fin 256) (i j : Int),
      buf_store s i l j = if i ≤ j ∧ j < i + l.length then l.getD (j - i).toNat 0 else s j := by
  induction l with
  | nil =>
    intro s i j
    rw [if_neg (by simp)]
    rfl
  | cons c l ih =>
    intro s i j
    show buf_store (buf_write s i c) (i + 1) l j = _
    rw [ih]
    have hlen : ((c :: l).length : Int) = (l.length : Int) + 1 := by simp
    by_cases h1 : i + 1 ≤ j ∧ j < i + 1 + l.length
    · rw [if_pos h1, if_pos (by rw [hlen]; omega)]
      have e : (j - i).toNat = (j - (i + 1)).toNat + 1 := by omega
      rw [e, List.getD_cons_succ]
    · rw [if_neg h1]
      by_cases h2 : j = i
      · rw [if_pos (by rw [hlen]; omega)]
        subst h2
        simp [buf_write]
      · rw [if_neg (by rw [hlen]; omega)]
        simp [buf_write, h2]

/-- The length loop finds the first NUL. -/
theorem k_strlen_loop_spec (s : Int → Fin 256) :
    ∀ (fuel n : Nat) (len : Int), n ≤ fuel → (∀ k : Nat, k < n → s (len + k) ≠ 0) →
      s (len + n) = 0 → k_strlen_loop s fuel len = len + n := by
  intro fuel
  induction fuel with
  | zero =>
    intro n len hn _ _
    have h0 : n = 0 := by omega
    subst h0
    simp [k_strlen_loop]
  | succ fuel ih =>
    intro n len hn hnz hz
    cases n with
    | zero =>
      have hz0 : s len = 0 := by simpa using hz
      simp [k_strlen_loop, hz0]
    | succ m =>
      have h0 : s len ≠ 0 := by simpa using hnz 0 (by omega)
      have h1 := ih m (len + 1) (by omega)
        (fun k hk => by
          have h2 := hnz (k + 1) (by omega)
          have e : len + 1 + (k : Int) = len + ((k + 1 : Nat) : Int) := by push_cast; ring
          rw [e]
          exact h2)
        (by
          have e : len + 1 + (m : Int) = len + ((m + 1 : Nat) : Int) := by push_cast; ring
          rw [e]
          exact hz)
      simp only [k_strlen_loop, h0, ne_eq, not_false_eq_true, if_true]
      rw [h1]
      push_cast
      ring

/-- The swap loop mirrors the bytes of `[i, j]` and leaves the others alone. -/
theorem k_reverse_loop_spec :
    ∀ (fuel : Nat) (i j : Int) (s : Int → Fin 256), j - i < fuel →
      k_reverse_loop fuel i j s = fun k => if i ≤ k ∧ k ≤ j then s (i + j - k) else s k := by
  intro fuel
  induction fuel with
  | zero =>
    intro i j s h
    funext k
    rw [if_neg (by push_cast at h; omega)]
    rfl
  | succ fuel ih =>
    intro i j s h
    funext k
    by_cases hij : i < j
    · simp only [k_reverse_loop, if_pos hij]
      rw [ih (i + 1) (j - 1) _ (by push_cast at h ⊢; omega)]
      simp only [buf_write]
      by_cases hk : i + 1 ≤ k ∧ k ≤ j - 1
      · have e1 : ¬ (i + 1 + (j - 1) - k = j) := by omega
        have e2 : ¬ (i + 1 + (j - 1) - k = i) := by omega
        have e3 : i ≤ k ∧ k ≤ j := by omega
        rw [if_pos hk, if_neg e1, if_neg e2, if_pos e3]
        congr 1
        omega
      · rw [if_neg hk]
        by_cases hkj : k = j
        · have e3 : i ≤ k ∧ k ≤ j := by omega
          rw [if_pos hkj, if_pos e3]
          congr 1
          omega
        · rw [if_neg hkj]
          by_cases hki : k = i
          · have e3 : i ≤ k ∧ k ≤ j := by omega
            rw [if_pos hki, if_pos e3]
            congr 1
            omega
          · have e3 : ¬ (i ≤ k ∧ k ≤ j) := by omega
            rw [if_neg hki, if_neg e3]
    · simp only [k_reverse_loop, if_neg hij]
      by_cases hk : i ≤ k ∧ k ≤ j
      · rw [if_pos hk]
        congr 1
        omega
      · rw [if_neg hk]

/-- A number has at most as many digits as its value. -/
theorem digits_length_le (b : Nat) (hb : 2 ≤ b) : ∀ v : Nat, (Nat.digits b v).length ≤ v := by
  intro v
  induction v using Nat.strong_induction_on with
  | _ v ih =>
    by_cases hv : v = 0
    · subst hv
      simp
    · have hpos : 0 < v := Nat.pos_of_ne_zero hv
      rw [Nat.digits_def' (by omega) hpos, List.length_cons]
      have hlt : v / b < v := Nat.div_lt_self hpos (by omega)
      have h1 := ih (v / b) hlt
      omega

/-- A sharper bound: at most `v / 2 + 1` digits. -/
theorem digits_length_le_half (b : Nat) (hb : 2 ≤ b) :
    ∀ v : Nat, (Nat.digits b v).length ≤ v / 2 + 1 := by
  intro v
  induction v using Nat.strong_induction_on with
  | _ v ih =>
    by_cases hv : v = 0
    · subst hv
      simp
    · have hpos : 0 < v := Nat.pos_of_ne_zero hv
      rw [Nat.digits_def' (by omega) hpos, List.length_cons]
      have hlt : v / b < v := Nat.div_lt_self hpos (by omega)
      have hle : v / b ≤ v / 2 := Nat.div_le_div_left hb (by omega)
      by_cases hq : v / b = 0
      · rw [hq]
        simp
      · have h1 := ih (v / b) hlt
        omega

/-- The digit loop stores the digits of `v` in base `b`, least significant
first, from index `i` on. -/
theorem itoa_loop_spec (b : Nat) (hb : 2 ≤ b) :
    ∀ (fuel v : Nat) (s : Int → Fin 256) (i : Int), v ≤ fuel →
      itoa_loop fuel (v : Int) (b : Int) s i =
        (buf_store s i ((Nat.digits b v).map (fun (d : Nat) => itoa_digit (d : Int))),
         i + ((Nat.digits b v).length : Int)) := by
  intro fuel
  induction fuel with
  | zero =>
    intro v s i hv
    have h0 : v = 0 := by omega
    subst h0
    simp [itoa_loop, buf_store]
  | succ fuel ih =>
    intro v s i hv
    by_cases h0 : v = 0
    · subst h0
      simp [itoa_loop, buf_store]
    · have hpos : 0 < v := Nat.pos_of_ne_zero h0
      have hposi : (v : Int) > 0 := by exact_mod_cast hpos
      have hlt : v / b < v := Nat.div_lt_self hpos (by omega)
      simp only [itoa_loop, if_pos hposi]
      rw [← Int.ofNat_tdiv, ← Int.ofNat_tmod, ih (v / b) _ _ (by omega),
        Nat.digits_def' (by omega) hpos]
      simp only [List.map_cons, List.length_cons, buf_store]
      congr 1
      push_cast
      ring

/-- The character stored for a digit below 36 is in the digit alphabet, is not
NUL, and has the digit as its value. -/
theorem itoa_digit_spec (d : Nat) (hd : d < 36) :
    IsDigitChar (itoa_digit (d : Int)) ∧ digit_value (itoa_digit (d : Int)) = d ∧
    itoa_digit (d : Int) ≠ 0 ∧ (itoa_digit (d : Int) = 0x30 → d = 0) ∧
    (d < 10 → IsDigit (itoa_digit (d : Int)) ∧
      ((itoa_digit (d : Int)).val : Int) - 48 = (d : Int)) := by
  interval_cases d <;> decide

theorem buf_store_snoc (l : List (Fin 256)) (c : Fin 256) :
    ∀ (s : Int → Fin 256) (i : Int),
      buf_store s i (l ++ [c]) = buf_write (buf_store s i l) (i + l.length) c := by
  induction l with
  | nil =>
    intro s i
    simp [buf_store]
  | cons x l ih =>
    intro s i
    show buf_store (buf_write s i x) (i + 1) (l ++ [c]) = _
    rw [ih]
    show _ = buf_write (buf_store (buf_write s i x) (i + 1) l) _ c
    have e : i + 1 + (l.length : Int) = i + ((x :: l).length : Int) := by
      simp only [List.length_cons]
      push_cast
      ring
    rw [e]

theorem bytes_at_length (s : Int → Fin 256) (n : Nat) : (bytes_at s n).length = n := by
  simp [bytes_at]

theorem bytes_at_head (s : Int → Fin 256) (n : Nat) (h : 1 ≤ n) :
    (bytes_at s n).head? = some (s 0) := by
  obtain ⟨m, rfl⟩ : ∃ m, n = m + 1 := ⟨n - 1, by omega⟩
  simp [bytes_at, List.range_succ_eq_map]

theorem bytes_at_getElem (s : Int → Fin 256) (n i : Nat) (h : i < (bytes_at s n).length) :
    (bytes_at s n)[i] = s (i : Int) := by
  simp [bytes_at]

/-- The end of `k_itoa`: once the bytes `M` (none of them NUL) are stored from
index 0 on, the NUL is written behind them and `k_reverse` runs, the buffer
holds `M` reversed, then the NUL; the rest of the buffer is as before. -/
theorem reverse_stored (s : Int → Fin 256) (M : List (Fin 256)) (hM : ∀ c ∈ M, c ≠ 0)
    (hlen : M.length ≤ 2147483647) :
    bytes_at (k_reverse (buf_write (buf_store s 0 M) M.length 0)) M.length = M.reverse ∧
    k_reverse (buf_write (buf_store s 0 M) M.length 0) M.length = 0 ∧
    (∀ k : Int, k < 0 ∨ (M.length : Int) < k →
      k_reverse (buf_write (buf_store s 0 M) M.length 0) k = s k) := by
  have hread : ∀ k : Nat, ∀ hk : k < M.length,
      buf_write (buf_store s 0 M) M.length 0 (k : Int) = M[k] := by
    intro k hk
    simp only [buf_write]
    rw [if_neg (by omega), buf_store_read, if_pos (by omega)]
    have e : ((k : Int) - 0).toNat = k := by omega
    rw [e, List.getD_eq_getElem _ _ hk]
  have hnul : buf_write (buf_store s 0 M) M.length 0 (M.length : Int) = 0 := by
    simp [buf_write]
  have hout : ∀ k : Int, k < 0 ∨ (M.length : Int) < k →
      buf_write (buf_store s 0 M) M.length 0 k = s k := by
    intro k hk
    simp only [buf_write]
    rw [if_neg (by omega), buf_store_read, if_neg (by omega)]
  have hstrlen : k_strlen (buf_write (buf_store s 0 M) M.length 0) = (M.length : Int) := by
    unfold k_strlen
    rw [k_strlen_loop_spec _ 2147483647 M.length 0 hlen
      (fun k hk => by
        rw [Int.zero_add, hread k hk]
        exact hM _ (List.getElem_mem _))
      (by rw [Int.zero_add]; exact hnul)]
    simp
  have hrev : k_reverse (buf_write (buf_store s 0 M) M.length 0) = fun k =>
      if 0 ≤ k ∧ k ≤ (M.length : Int) - 1 then
        buf_write (buf_store s 0 M) M.length 0 (0 + ((M.length : Int) - 1) - k)
      else buf_write (buf_store s 0 M) M.length 0 k := by
    unfold k_reverse
    rw [hstrlen, k_reverse_loop_spec _ _ _ _ (by simp)]
  refine ⟨?_, ?_, ?_⟩
  · apply List.ext_getElem
    · rw [bytes_at_length, List.length_reverse]
    · intro i h1 h2
      rw [bytes_at_length] at h1
      rw [bytes_at_getElem, hrev]
      simp only
      rw [if_pos (by omega), List.getElem_reverse]
      have e : (0 + ((M.length : Int) - 1) - (i : Int)) = ((M.length - 1 - i : Nat) : Int) := by
        omega
      rw [e, hread _ (by omega)]
  · rw [hrev]
    simp only
    rw [if_neg (by omega), hnul]
  · intro k hk
    rw [hrev]
    simp only
    rw [if_neg (by omega), hout k hk]

/-! ## Claim C17: k_itoa -/

/-- For a positive value `k_itoa` is the digit loop followed by the NUL and the reversal. -/
theorem k_itoa_pos_eq (v b : Nat) (hv : 0 < v) (hb : 2 ≤ b) (hb2 : b ≤ 36)
    (s : Int → Fin 256) :
    k_itoa (v : Int) s (b : Int) =
      k_reverse (buf_write
        (buf_store s 0 ((Nat.digits b v).map (fun (d : Nat) => itoa_digit (d : Int))))
        (((Nat.digits b v).map (fun (d : Nat) => itoa_digit (d : Int))).length : Int) 0) := by
  have h1 : ¬ ((b : Int) < 2 ∨ (b : Int) > 36) := by omega
  have h2 : ¬ ((v : Int) = 0) := by omega
  have h3 : ¬ ((v : Int) < 0 ∧ (b : Int) = 10) := by omega
  have h4 : ¬ ((v : Int) < 0) := by omega
  unfold k_itoa
  rw [if_neg h1, if_neg h2]
  simp only [h4, false_and, decide_False, if_false, Int.toNat_ofNat, Bool.false_eq_true]
  rw [itoa_loop_spec b hb v v s 0 (le_refl _)]
  simp only [List.length_map, Int.zero_add]

/-- The digits of a number, stored as characters most significant first,
evaluate to the number. -/
theorem eval_digits_reverse_map (b : Int) (D : List Nat) (hD : ∀ d ∈ D, d < 36) :
    eval_digits b ((D.map (fun (d : Nat) => itoa_digit (d : Int))).reverse) = Nat.ofDigits b D := by
  unfold eval_digits
  rw [List.foldl_reverse]
  induction D with
  | nil => simp [Nat.ofDigits]
  | cons d r ih =>
    have hd := (itoa_digit_spec d (hD d (List.mem_cons_self _ _))).2.1
    have e : Nat.ofDigits b (d :: r) = (d : Int) + b * Nat.ofDigits b r := rfl
    rw [List.map_cons, List.foldr_cons, ih (fun x hx => hD x (List.mem_cons_of_mem _ hx)),
      e, hd]
    ring

/-- Claim C17 (`k_itoa` positional correctness): for every base b with
2 <= b <= 36 and every value v with 0 <= v <= INT_MAX, `k_itoa (v, s, b)` writes a
non-empty NUL-terminated string over the digits '0'-'9' and lowercase 'a'-'z' in
which every digit is less than b, there is no leading '0' unless v = 0 (which
gives "0"), and evaluating the digits most significant first in base b gives v. -/
theorem k_itoa_positional (v b : Int) (s : Int → Fin 256)
    (hb : 2 ≤ b) (hb2 : b ≤ 36) (hv0 : 0 ≤ v) (hv : v ≤ INT_MAX) :
    ∃ n : Nat, 1 ≤ n ∧ k_itoa v s b n = 0 ∧
      (∀ c ∈ bytes_at (k_itoa v s b) n, IsDigitChar c ∧ (digit_value c : Int) < b) ∧
      (v = 0 → bytes_at (k_itoa v s b) n = [0x30]) ∧
      (v ≠ 0 → k_itoa v s b 0 ≠ 0x30) ∧
      eval_digits b (bytes_at (k_itoa v s b) n) = v := by
  by_cases hz : v = 0
  · subst hz
    have e : k_itoa 0 s b = buf_write (buf_write s 0 48) 1 0 := by
      unfold k_itoa
      rw [if_neg (by omega), if_pos rfl]
    have e1 : bytes_at (k_itoa 0 s b) 1 = [0x30] := by
      rw [e]
      rfl
    refine ⟨1, le_refl _, by rw [e]; rfl, ?_, fun _ => e1, fun h => absurd rfl h, ?_⟩
    · intro c hc
      rw [e1, List.mem_singleton] at hc
      subst hc
      exact ⟨by decide, by
        have h0 : digit_value (0x30 : Fin 256) = 0 := by decide
        rw [h0]
        push_cast
        omega⟩
    · have h0 : digit_value (0x30 : Fin 256) = 0 := by decide
      rw [e1]
      simp [eval_digits, h0]
  · obtain ⟨v', rfl⟩ := Int.eq_ofNat_of_zero_le hv0
    obtain ⟨b', rfl⟩ := Int.eq_ofNat_of_zero_le (by omega : 0 ≤ b)
    have hvpos : 0 < v' := by omega
    have hb' : 2 ≤ b' := by omega
    have hb2' : b' ≤ 36 := by omega
    have hv' : v' ≤ 2147483647 := by simp only [INT_MAX] at hv; omega
    have hD : ∀ d ∈ Nat.digits b' v', d < 36 := fun d hd =>
      lt_of_lt_of_le (Nat.digits_lt_base (by omega) hd) hb2'
    have hM : ∀ c ∈ (Nat.digits b' v').map (fun (d : Nat) => itoa_digit (d : Int)), c ≠ 0 := by
      intro c hc
      obtain ⟨d, hd, rfl⟩ := List.mem_map.1 hc
      exact (itoa_digit_spec d (hD d hd)).2.2.1
    have hlen : ((Nat.digits b' v').map (fun (d : Nat) => itoa_digit (d : Int))).length ≤ 2147483647 := by
      rw [List.length_map]
      exact le_trans (digits_length_le b' hb' v') hv'
    have hne : Nat.digits b' v' ≠ [] := Nat.digits_ne_nil_iff_ne_zero.2 (by omega)
    obtain ⟨r1, r2, _⟩ := reverse_stored s _ hM hlen
    rw [← k_itoa_pos_eq v' b' hvpos hb' hb2' s] at r1 r2
    have hn1 : 1 ≤ ((Nat.digits b' v').map (fun (d : Nat) => itoa_digit (d : Int))).length := by
      rw [List.length_map]
      exact List.length_pos.2 hne
    refine ⟨_, hn1, r2, ?_, fun h => absurd h hz, ?_, ?_⟩
    · intro c hc
      rw [r1, List.mem_reverse] at hc
      obtain ⟨d, hd, rfl⟩ := List.mem_map.1 hc
      have hs := itoa_digit_spec d (hD d hd)
      refine ⟨hs.1, ?_⟩
      rw [hs.2.1]
      exact_mod_cast Nat.digits_lt_base (by omega) hd
    · intro _
      have h0 := bytes_at_head (k_itoa (v' : Int) s (b' : Int)) _ hn1
      have hlast := Nat.getLast_digit_ne_zero b' (by omega : v' ≠ 0)
      have hsplit := List.dropLast_append_getLast hne
      have hrev : ((Nat.digits b' v').map (fun (d : Nat) => itoa_digit (d : Int))).reverse
          = itoa_digit (((Nat.digits b' v').getLast hne : Nat) : Int)
            :: (((Nat.digits b' v').dropLast).map (fun (d : Nat) => itoa_digit (d : Int))).reverse := by
        conv_lhs => rw [← hsplit]
        simp
      rw [r1, hrev, List.head?_cons, Option.some.injEq] at h0
      intro h30
      rw [← h0] at h30
      exact hlast ((itoa_digit_spec _ (hD _ (List.getLast_mem hne))).2.2.2.1 h30)
    · rw [r1, eval_digits_reverse_map _ _ hD, ← Nat.coe_int_ofDigits, Nat.ofDigits_digits]

theorem k_itoa_positional_witness :
    (∃ n : Nat, 1 ≤ n ∧ k_itoa 123 sample_buffer 10 n = 0 ∧
      (∀ c ∈ bytes_at (k_itoa 123 sample_buffer 10) n,
        IsDigitChar c ∧ (digit_value c : Int) < 10) ∧
      ((123 : Int) = 0 → bytes_at (k_itoa 123 sample_buffer 10) n = [0x30]) ∧
      ((123 : Int) ≠ 0 → k_itoa 123 sample_buffer 10 0 ≠ 0x30) ∧
      eval_digits 10 (bytes_at (k_itoa 123 sample_buffer 10) n) = 123) ∧
    bytes_at (k_itoa 123 sample_buffer 10) 4 = [0x31, 0x32, 0x33, 0] ∧
    bytes_at (k_itoa 10 sample_buffer 2) 5 = [0x31, 0x30, 0x31, 0x30, 0] :=
  ⟨k_itoa_positional 123 10 sample_buffer (by decide) (by decide) (by decide) (by decide),
   by decide, by decide⟩

/-! ## Claim C18: decimal round trip -/

/-- Claim C18, at the input where it fails: for v = INT_MIN the negation
`value = -value` wraps back to INT_MIN, the digit loop does not run, and
`k_itoa (INT_MIN, s, 10)` writes the string "-" instead of "-2147483648";
`k_atoi` of that string returns 0, not INT_MIN. -/
theorem k_itoa_int_min_round_trip_fails :
    bytes_at (k_itoa INT_MIN sample_buffer 10) 2 = [0x2D, 0] ∧
    k_atoi (bytes_at (k_itoa INT_MIN sample_buffer 10) 32) = 0 ∧
    k_atoi (bytes_at (k_itoa INT_MIN sample_buffer 10) 32) ≠ INT_MIN := by
  decide

/-- Reading further than `n` bytes reads the first `n` bytes, then byte `n`. -/
theorem bytes_at_split (f : Int → Fin 256) (n m : Nat) (h : n < m) :
    ∃ rest : List (Fin 256), bytes_at f m = bytes_at f n ++ f (n : Int) :: rest := by
  obtain ⟨k, rfl⟩ : ∃ k, m = n + (k + 1) := ⟨m - n - 1, by omega⟩
  refine ⟨((List.range k).map Nat.succ).map (fun (i : Nat) => f ((n + i : Nat) : Int)), ?_⟩
  unfold bytes_at
  rw [List.range_add, List.range_succ_eq_map, List.map_append]
  simp [Function.comp_def]

/-- Decimal digits, stored as characters most significant first, read back as
the number. -/
theorem dec_value_reverse_map (D : List Nat) (hD : ∀ d ∈ D, d < 10) :
    dec_value ((D.map (fun (d : Nat) => itoa_digit (d : Int))).reverse)
      = Nat.ofDigits (10 : Int) D := by
  unfold dec_value dec_from
  rw [List.foldl_reverse]
  induction D with
  | nil => simp [Nat.ofDigits]
  | cons d r ih =>
    have hd := ((itoa_digit_spec d (by
      have := hD d (List.mem_cons_self _ _)
      omega)).2.2.2.2 (hD d (List.mem_cons_self _ _))).2
    have e : Nat.ofDigits (10 : Int) (d :: r) = (d : Int) + 10 * Nat.ofDigits (10 : Int) r := rfl
    rw [List.map_cons, List.foldr_cons, ih (fun x hx => hD x (List.mem_cons_of_mem _ hx)),
      e, hd]
    ring

/-- For a negative value other than INT_MIN in base 10, `k_itoa` is the digit
loop on the absolute value, the '-' behind the digits, the NUL and the reversal. -/
theorem k_itoa_neg_eq (w : Nat) (hw : 0 < w) (hw2 : w ≤ 2147483647) (s : Int → Fin 256) :
    k_itoa (-(w : Int)) s 10 =
      k_reverse (buf_write
        (buf_store s 0 ((Nat.digits 10 w).map (fun (d : Nat) => itoa_digit (d : Int)) ++ [0x2D]))
        ((((Nat.digits 10 w).map (fun (d : Nat) => itoa_digit (d : Int)) ++ [0x2D]).length : Nat)
          : Int) 0) := by
  have h1 : ¬ ((10 : Int) < 2 ∨ (10 : Int) > 36) := by omega
  have h2 : ¬ (-(w : Int) = 0) := by omega
  have h3 : (-(w : Int) < 0 ∧ (10 : Int) = 10) := ⟨by omega, rfl⟩
  have h4 : wrap_int (- -(w : Int)) = (w : Int) := by
    rw [neg_neg]
    exact wrap_int_id _ (by simp only [INT_MIN]; omega) (by simp only [INT_MAX]; omega)
  unfold k_itoa
  rw [if_neg h1, if_neg h2]
  simp only [h3, and_self, decide_True, if_true, h4, Int.toNat_ofNat]
  have hl := itoa_loop_spec 10 (by omega) w w s 0 (le_refl _)
  rw [Int.zero_add] at hl
  have hl10 : itoa_loop w (w : Int) 10 s 0 = itoa_loop w (w : Int) ((10 : Nat) : Int) s 0 := rfl
  rw [hl10, hl, buf_store_snoc]
  simp only [List.length_map, List.length_append, List.length_singleton, Int.zero_add]
  push_cast
  rfl

/-- The decimal digit characters of a positive number: what `k_atoi` needs to
read them back. -/
theorem decimal_chars (w : Nat) (hw : 0 < w) :
    (∀ c ∈ ((Nat.digits 10 w).map (fun (d : Nat) => itoa_digit (d : Int))).reverse, IsDigit c) ∧
    ((Nat.digits 10 w).map (fun (d : Nat) => itoa_digit (d : Int))).reverse ≠ [] ∧
    dec_value (((Nat.digits 10 w).map (fun (d : Nat) => itoa_digit (d : Int))).reverse)
      = (w : Int) ∧
    (∀ c ∈ (Nat.digits 10 w).map (fun (d : Nat) => itoa_digit (d : Int)), c ≠ 0) := by
  have hD : ∀ d ∈ Nat.digits 10 w, d < 10 := fun d hd => Nat.digits_lt_base (by omega) hd
  have hne : Nat.digits 10 w ≠ [] := Nat.digits_ne_nil_iff_ne_zero.2 (by omega)
  refine ⟨?_, ?_, ?_, ?_⟩
  · intro c hc
    rw [List.mem_reverse] at hc
    obtain ⟨d, hd, rfl⟩ := List.mem_map.1 hc
    exact ((itoa_digit_spec d (by have := hD d hd; omega)).2.2.2.2 (hD d hd)).1
  · intro h
    rw [List.reverse_eq_nil_iff, List.map_eq_nil_iff] at h
    exact hne h
  · have h := Nat.coe_int_ofDigits 10 (Nat.digits 10 w)
    rw [Nat.ofDigits_digits, Nat.cast_ofNat] at h
    rw [dec_value_reverse_map _ hD]
    exact h.symm
  · intro c hc
    obtain ⟨d, hd, rfl⟩ := List.mem_map.1 hc
    exact (itoa_digit_spec d (by have := hD d hd; omega)).2.2.1

/-- Decimal round trip away from INT_MIN: for every int v with
INT_MIN < v <= INT_MAX, `k_itoa (v, s, 10)` writes a NUL-terminated string, and
`k_atoi` applied to the buffer (read over any extent that covers the NUL)
returns v. -/
theorem k_itoa_atoi_round_trip (v : Int) (s : Int → Fin 256)
    (h0 : INT_MIN < v) (h1 : v ≤ INT_MAX) :
    ∃ n : Nat, k_itoa v s 10 n = 0 ∧
      ∀ m : Nat, n < m → k_atoi (bytes_at (k_itoa v s 10) m) = v := by
  simp only [INT_MIN, INT_MAX] at h0 h1
  have hnotdigit : ∀ b ∈ ((0 : Fin 256) :: ([] : List (Fin 256))).head?, ¬ IsDigit b := by
    intro b hb
    simp only [List.head?_cons, Option.mem_def, Option.some.injEq] at hb
    subst hb
    decide
  have htl : ∀ rest : List (Fin 256), ∀ b ∈ ((0 : Fin 256) :: rest).head?, ¬ IsDigit b := by
    intro rest b hb
    simp only [List.head?_cons, Option.mem_def, Option.some.injEq] at hb
    subst hb
    decide
  rcases lt_trichotomy v 0 with hneg | hz | hpos
  · obtain ⟨w, hw⟩ : ∃ w : Nat, v = -(w : Int) := ⟨(-v).toNat, by omega⟩
    subst hw
    have hwpos : 0 < w := by omega
    obtain ⟨c1, c2, c3, c4⟩ := decimal_chars w hwpos
    have hM : ∀ c ∈ (Nat.digits 10 w).map (fun (d : Nat) => itoa_digit (d : Int)) ++ [0x2D],
        c ≠ 0 := by
      intro c hc
      rcases List.mem_append.1 hc with h | h
      · exact c4 c h
      · rw [List.mem_singleton] at h
        rw [h]
        decide
    have hlen : ((Nat.digits 10 w).map (fun (d : Nat) => itoa_digit (d : Int))
        ++ [0x2D]).length ≤ 2147483647 := by
      rw [List.length_append, List.length_map, List.length_singleton]
      have := digits_length_le_half 10 (by omega) w
      omega
    obtain ⟨r1, r2, _⟩ := reverse_stored s _ hM hlen
    rw [← k_itoa_neg_eq w hwpos (by omega) s] at r1 r2
    refine ⟨_, r2, ?_⟩
    intro m hm
    obtain ⟨rest, hsplit⟩ := bytes_at_split (k_itoa (-(w : Int)) s 10) _ m hm
    rw [hsplit, r1, r2, List.reverse_append, List.reverse_singleton]
    have e := k_atoi_spec [] [0x2D] _ (0 :: rest) (by simp) (by simp) c1 c2
      (by rw [c3]; simp only [INT_MAX]; omega) (htl rest)
    rw [if_pos rfl, c3] at e
    rw [← e]
    simp
  · subst hz
    have e : k_itoa 0 s 10 = buf_write (buf_write s 0 48) 1 0 := by
      unfold k_itoa
      rw [if_neg (by omega), if_pos rfl]
    have e0 : k_itoa 0 s 10 ((1 : Nat) : Int) = 0 := by rw [e]; rfl
    have e1 : bytes_at (k_itoa 0 s 10) 1 = [0x30] := by rw [e]; rfl
    refine ⟨1, e0, ?_⟩
    intro m hm
    obtain ⟨rest, hsplit⟩ := bytes_at_split (k_itoa 0 s 10) 1 m hm
    rw [hsplit, e1, e0]
    have e2 := k_atoi_spec [] [] [0x30] (0 :: rest) (by simp) (by simp)
      (by
        intro b hb
        rw [List.mem_singleton] at hb
        subst hb
        decide)
      (by simp) (by decide) (htl rest)
    rw [if_neg (by decide)] at e2
    have e3 : dec_value [0x30] = 0 := by decide
    rw [e3] at e2
    rw [← e2]
    simp
  · obtain ⟨w, hw⟩ : ∃ w : Nat, v = (w : Int) := ⟨v.toNat, by omega⟩
    subst hw
    have hwpos : 0 < w := by omega
    obtain ⟨c1, c2, c3, c4⟩ := decimal_chars w hwpos
    have hlen : ((Nat.digits 10 w).map (fun (d : Nat) => itoa_digit (d : Int))).length
        ≤ 2147483647 := by
      rw [List.length_map]
      have := digits_length_le 10 (by omega) w
      omega
    obtain ⟨r1, r2, _⟩ := reverse_stored s _ c4 hlen
    have hk := k_itoa_pos_eq w 10 hwpos (by omega) (by omega) s
    rw [Nat.cast_ofNat] at hk
    rw [← hk] at r1 r2
    refine ⟨_, r2, ?_⟩
    intro m hm
    obtain ⟨rest, hsplit⟩ := bytes_at_split (k_itoa (w : Int) s 10) _ m hm
    rw [hsplit, r1, r2]
    have e := k_atoi_spec [] [] _ (0 :: rest) (by simp) (by simp) c1 c2
      (by rw [c3]; simp only [INT_MAX]; omega) (htl rest)
    rw [if_neg (by decide), c3] at e
    rw [← e]
    simp

/-! ## Claims C21 and C22: k_add_n and k_multiply_n -/

/-- Wrapping an addend first does not change the wrapped sum. -/
theorem wrap_int_add (x y : Int) : wrap_int (wrap_int x + y) = wrap_int (x + y) := by
  unfold wrap_int
  omega

/-- Wrapping a factor first does not change the wrapped product. -/
theorem wrap_int_mul (x y : Int) : wrap_int (wrap_int x * y) = wrap_int (x * y) := by
  have e : wrap_int x = x + 4294967296 * (-((x + 2147483648) / 4294967296)) := by
    unfold wrap_int
    have h := Int.emod_def (x + 2147483648) 4294967296
    omega
  rw [e]
  unfold wrap_int
  have e2 : (x + 4294967296 * (-((x + 2147483648) / 4294967296))) * y + 2147483648
      = (x * y + 2147483648) + 4294967296 * (-((x + 2147483648) / 4294967296) * y) := by ring
  rw [e2, Int.add_mul_emod_self_left]

theorem wrap_int_wrap (x : Int) : wrap_int (wrap_int x) = wrap_int x := by
  unfold wrap_int
  omega

/-- The loop of `k_add_n` computes the wrapped sum. -/
theorem add_loop_spec (a : Int → Int) (l : List Nat) :
    ∀ x : Int, l.foldl (fun sum (i : Nat) => wrap_int (sum + a (i : Int))) (wrap_int x)
      = wrap_int (x + (l.map (fun (i : Nat) => a (i : Int))).sum) := by
  induction l with
  | nil => intro x; simp
  | cons i r ih =>
    intro x
    rw [List.foldl_cons, wrap_int_add, ih, List.map_cons, List.sum_cons, add_assoc]

/-- The loop of `k_multiply_n` computes the wrapped product. -/
theorem mul_loop_spec (a : Int → Int) (l : List Nat) :
    ∀ x : Int, l.foldl (fun product (i : Nat) => wrap_int (product * a (i : Int))) (wrap_int x)
      = wrap_int (x * (l.map (fun (i : Nat) => a (i : Int))).prod) := by
  induction l with
  | nil => intro x; simp
  | cons i r ih =>
    intro x
    rw [List.foldl_cons, wrap_int_mul, ih, List.map_cons, List.prod_cons, mul_assoc]

theorem k_add_n_eq (a : Int → Int) (count : Int) (h : 0 < count) :
    k_add_n (some a) count
      = wrap_int (((List.range count.toNat).map (fun (i : Nat) => a (i : Int))).sum) := by
  have e0 : (0 : Int) = wrap_int 0 := by decide
  simp only [k_add_n, if_neg (not_le.2 h)]
  conv_lhs => rw [e0]
  rw [add_loop_spec, zero_add]

theorem k_multiply_n_eq (a : Int → Int) (count : Int) (h : 0 < count) :
    k_multiply_n (some a) count
      = wrap_int (((List.range count.toNat).map (fun (i : Nat) => a (i : Int))).prod) := by
  have e1 : (1 : Int) = wrap_int 1 := by decide
  simp only [k_multiply_n, if_neg (not_le.2 h)]
  conv_lhs => rw [e1]
  rw [mul_loop_spec, one_mul]

/-- Claim C21: for every int array and every count, `k_add_n (numbers, count)`
returns the sum of the first count elements in 32-bit int arithmetic (the sum
wrapped to 32 bits) when count > 0 and numbers is non-null, and returns 0 when
count <= 0 or numbers is null. -/
theorem k_add_n_sum (a : Int → Int) (count : Int) :
    (0 < count → k_add_n (some a) count
      = wrap_int (((List.range count.toNat).map (fun (i : Nat) => a (i : Int))).sum)) ∧
    (count ≤ 0 → k_add_n (some a) count = 0) ∧
    k_add_n none count = 0 := by
  refine ⟨k_add_n_eq a count, ?_, rfl⟩
  intro h
  simp only [k_add_n, if_pos h]

theorem k_add_n_sum_witness :
    k_add_n (int_pair 2 3) 2
      = wrap_int (((List.range (2 : Int).toNat).map
          (fun (i : Nat) => (fun j : Int => if j = 0 then (2 : Int) else if j = 1 then 3 else 0)
            (i : Int))).sum) ∧
    k_add_n (int_pair 2 3) (-1) = 0 ∧ k_add_n (int_pair 2 3) 2 = 5 :=
  ⟨(k_add_n_sum _ 2).1 (by decide), (k_add_n_sum _ (-1)).2.1 (by decide), by decide⟩

/-- Claim C22: for every int array and every count, `k_multiply_n (numbers, count)`
returns the product of the first count elements in 32-bit int arithmetic (the
product wrapped to 32 bits) when count > 0 and numbers is non-null, and returns
1 when count <= 0 or numbers is null. -/
theorem k_multiply_n_product (a : Int → Int) (count : Int) :
    (0 < count → k_multiply_n (some a) count
      = wrap_int (((List.range count.toNat).map (fun (i : Nat) => a (i : Int))).prod)) ∧
    (count ≤ 0 → k_multiply_n (some a) count = 1) ∧
    k_multiply_n none count = 1 := by
  refine ⟨k_multiply_n_eq a count, ?_, rfl⟩
  intro h
  simp only [k_multiply_n, if_pos h]

theorem k_multiply_n_product_witness :
    k_multiply_n (int_pair 65536 65536) 2
      = wrap_int (((List.range (2 : Int).toNat).map
          (fun (i : Nat) =>
            (fun j : Int => if j = 0 then (65536 : Int) else if j = 1 then 65536 else 0)
              (i : Int))).prod) ∧
    k_multiply_n (int_pair 6 7) 0 = 1 ∧ k_multiply_n (int_pair 6 7) 2 = 42 ∧
    k_multiply_n (int_pair 65536 65536) 2 = 0 :=
  ⟨(k_multiply_n_product _ 2).1 (by decide), (k_multiply_n_product _ 0).2.1 (by decide),
   by decide, by decide⟩

/-! ## Claim C25: wrap, then scroll, once per character -/

theorem kprint_effect_scrolls (b a : Fin 256) (s : Console) :
    (kprint_effect b a s).scrolls = s.scrolls := by
  unfold kprint_effect
  simp only [VGA_WIDTH]
  split_ifs <;> rfl

theorem kprint_wrap_scrolls (s : Console) : (kprint_wrap s).scrolls = s.scrolls := by
  unfold kprint_wrap
  split_ifs <;> rfl

/-- Claim C25 (wrap-then-scroll per character): for every in-bounds state and
every character processed by kprint, the right-edge check runs on the state
left by the character's own effect and the bottom-edge check on the state left
by the right-edge check; the row is at most 25 before the bottom-edge check;
scroll_screen is invoked at most once for the character, and exactly once when
the row has reached 25; afterwards the row is at most 24 and the column at most
79. -/
theorem wrap_then_scroll (b a : Fin 256) (s : Console) (h : s.InBounds) :
    kprint_char b a s
      = update_hardware_cursor (kprint_scroll (kprint_wrap (kprint_effect b a s))) ∧
    (kprint_wrap (kprint_effect b a s)).cursor_y ≤ 25 ∧
    ((kprint_char b a s).scrolls = s.scrolls ∨ (kprint_char b a s).scrolls = s.scrolls + 1) ∧
    ((kprint_char b a s).scrolls = s.scrolls + 1 ↔
      (kprint_wrap (kprint_effect b a s)).cursor_y = 25) ∧
    0 ≤ (kprint_char b a s).cursor_y ∧ (kprint_char b a s).cursor_y ≤ 24 ∧
    0 ≤ (kprint_char b a s).cursor_x ∧ (kprint_char b a s).cursor_x ≤ 79 := by
  have hw := kprint_wrap_range _ (kprint_effect_range b a s h)
  obtain ⟨i1, i2, i3, i4⟩ := kprint_char_inBounds b a s h
  simp only [VGA_WIDTH, VGA_HEIGHT] at i2 i4
  have hs : (kprint_char b a s).scrolls
      = if (kprint_wrap (kprint_effect b a s)).cursor_y ≥ 25 then s.scrolls + 1
        else s.scrolls := by
    unfold kprint_char
    rw [update_hardware_cursor_scrolls, kprint_scroll_scrolls, kprint_wrap_scrolls,
      kprint_effect_scrolls]
  refine ⟨rfl, hw.2.2.2, ?_, ?_, i3, by omega, i1, by omega⟩
  · rw [hs]
    split_ifs
    · exact Or.inr rfl
    · exact Or.inl rfl
  · rw [hs]
    constructor
    · intro h1
      split_ifs at h1 with h2
      · omega
      · omega
    · intro h1
      rw [if_pos (by omega)]

theorem wrap_then_scroll_witness :
    (kprint_char 0x41 0x0F sample_corner).scrolls = sample_corner.scrolls + 1 ↔
      (kprint_wrap (kprint_effect 0x41 0x0F sample_corner)).cursor_y = 25 :=
  (wrap_then_scroll 0x41 0x0F sample_corner (by decide)).2.2.2.1

/-! ## Claim C30: k_itoa with an invalid base -/

/-- Claim C30 (`k_itoa` rejects an invalid base): for every value and every base
with base < 2 or base > 36, `k_itoa (value, s, base)` stores NUL in s[0], leaves
every other byte of the buffer as it was, and returns s (the buffer after the
single store). -/
theorem k_itoa_invalid_base (value base : Int) (s : Int → Fin 256)
    (h : base < 2 ∨ base > 36) :
    k_itoa value s base 0 = 0 ∧
    (∀ j : Int, j ≠ 0 → k_itoa value s base j = s j) ∧
    k_itoa value s base = buf_write s 0 0 := by
  have e : k_itoa value s base = buf_write s 0 0 := by
    unfold k_itoa
    rw [if_pos h]
  rw [e]
  refine ⟨by simp [buf_write], ?_, rfl⟩
  intro j hj
  simp [buf_write, hj]

theorem k_itoa_invalid_base_witness :
    k_itoa 123 sample_buffer 37 0 = 0 ∧
    (∀ j : Int, j ≠ 0 → k_itoa 123 sample_buffer 37 j = sample_buffer j) ∧
    k_itoa 123 sample_buffer 37 = buf_write sample_buffer 0 0 :=
  k_itoa_invalid_base 123 37 sample_buffer (by decide)

/-! ## Claim C24: kgetc -/

theorem status_ready_iff (x : Fin 256) : (x.val &&& 0x01 ≠ 0) ↔ x.val.testBit 0 = true := by
  rw [Nat.and_one_is_mod, Nat.testBit_zero, decide_eq_true_eq]
  omega

theorem scan_press_iff (x : Fin 256) : (x.val &&& 0x80 = 0) ↔ x.val.testBit 7 = false := by
  have e : (0x80 : Nat) = 2 ^ 7 := by decide
  rw [e]
  constructor
  · intro h
    have h1 : (x.val &&& 2 ^ 7).testBit 7 = false := by rw [h]; simp
    rw [Nat.testBit_and, Nat.testBit_two_pow_self, Bool.and_true] at h1
    exact h1
  · intro h
    apply Nat.eq_of_testBit_eq
    intro i
    rw [Nat.testBit_and, Nat.zero_testBit, Nat.testBit_two_pow]
    by_cases hi : 7 = i
    · subst hi
      rw [h, Bool.false_and]
    · simp [hi]

theorem scan_press_lt (x : Fin 256) (h : x.val.testBit 7 = false) : x.val < 128 := by
  have hx := x.isLt
  rw [Nat.testBit_to_div_mod, decide_eq_false_iff_not] at h
  omega

theorem kgetc_skip (p : Fin 256 × Fin 256) (rest : List (Fin 256 × Fin 256))
    (h : SkippedPoll p) : kgetc (p :: rest) = kgetc rest := by
  obtain ⟨st, code⟩ := p
  by_cases h1 : st.val &&& 0x01 ≠ 0
  · rcases h with h | h
    · exact absurd ((status_ready_iff st).1 h1) (by simp [h])
    · have h2 : ¬ (code.val &&& 0x80 = 0) := fun hh => by
        have := (scan_press_iff code).1 hh
        simp [h] at this
      simp only [kgetc, if_pos h1, if_neg h2]
  · simp only [kgetc, if_neg h1]

theorem kgetc_press (p : Fin 256 × Fin 256) (rest : List (Fin 256 × Fin 256))
    (h : PressPoll p) : kgetc (p :: rest) = some (kbd_us p.2, rest) := by
  obtain ⟨st, code⟩ := p
  obtain ⟨h1, h2⟩ := h
  simp only [kgetc, if_pos ((status_ready_iff st).2 h1), if_pos ((scan_press_iff code).2 h2),
    if_pos (scan_press_lt code h2)]

/-- The polls passed over before a key press do not matter. -/
theorem kgetc_first_press (pre : List (Fin 256 × Fin 256)) (p : Fin 256 × Fin 256)
    (rest : List (Fin 256 × Fin 256)) (hpre : ∀ q ∈ pre, SkippedPoll q) (hp : PressPoll p) :
    kgetc (pre ++ p :: rest) = some (kbd_us p.2, rest) := by
  induction pre with
  | nil => exact kgetc_press p rest hp
  | cons q r ih =>
    rw [List.cons_append, kgetc_skip q _ (hpre q (List.mem_cons_self _ _))]
    exact ih (fun x hx => hpre x (List.mem_cons_of_mem _ hx))

/-- Without a key press `kgetc` keeps polling. -/
theorem kgetc_no_press (pre : List (Fin 256 × Fin 256)) (hpre : ∀ q ∈ pre, SkippedPoll q) :
    kgetc pre = none := by
  induction pre with
  | nil => rfl
  | cons q r ih =>
    rw [kgetc_skip q _ (hpre q (List.mem_cons_self _ _))]
    exact ih (fun x hx => hpre x (List.mem_cons_of_mem _ hx))

/-- Claim C24 (`kgetc` translation): with the polled ports modelled as a sequence
of (status, data) reads, `kgetc` returns kbd_us[code] for the first read whose
status has bit 0 set and whose scan code has bit 7 clear; the reads before it,
with status bit 0 clear or with bit 7 of the scan code set, are skipped; the
result is 0 exactly when the table entry is 0; and the table maps 0x1C to '\n',
0x0E to '\b', 0x39 to ' ', 0x02..0x0B to '1'..'9','0', 0x4A to '-' and 0x4E to
'+'. -/
theorem kgetc_translation (pre : List (Fin 256 × Fin 256)) (status code : Fin 256)
    (rest : List (Fin 256 × Fin 256)) (hpre : ∀ q ∈ pre, SkippedPoll q)
    (hp : PressPoll (status, code)) :
    kgetc (pre ++ (status, code) :: rest) = some (kbd_us code, rest) ∧
    (∀ c r, kgetc (pre ++ (status, code) :: rest) = some (c, r) →
      (c = 0 ↔ kbd_us code = 0)) ∧
    kbd_us 0x1C = 0x0A ∧ kbd_us 0x0E = 0x08 ∧ kbd_us 0x39 = 0x20 ∧
    [kbd_us 0x02, kbd_us 0x03, kbd_us 0x04, kbd_us 0x05, kbd_us 0x06, kbd_us 0x07,
      kbd_us 0x08, kbd_us 0x09, kbd_us 0x0A, kbd_us 0x0B]
      = [0x31, 0x32, 0x33, 0x34, 0x35, 0x36, 0x37, 0x38, 0x39, 0x30] ∧
    kbd_us 0x4A = 0x2D ∧ kbd_us 0x4E = 0x2B := by
  have h := kgetc_first_press pre (status, code) rest hpre hp
  refine ⟨h, ?_, by decide, by decide, by decide, by decide, by decide, by decide⟩
  intro c r hc
  rw [h] at hc
  simp only [Option.some.injEq, Prod.mk.injEq] at hc
  rw [← hc.1]

theorem kgetc_translation_witness :
    kgetc ([(0x00, 0x1E), (0x01, 0x9E)] ++ (0x01, 0x1E) :: [(0x01, 0x1C)])
      = some (kbd_us 0x1E, [(0x01, 0x1C)]) ∧
    kbd_us 0x1E = 0x61 :=
  ⟨(kgetc_translation [(0x00, 0x1E), (0x01, 0x9E)] 0x01 0x1E [(0x01, 0x1C)]
      (by
        intro q hq
        simp only [List.mem_cons, List.mem_singleton, List.not_mem_nil, or_false] at hq
        rcases hq with rfl | rfl <;> decide)
      (by decide)).1,
   by decide⟩

/-! ## Claim C29: menu selection -/

/-- The selection after one call of `handle_menu_input`. -/
theorem handle_menu_input_sel (key : Fin 256) (m : MenuState) :
    (handle_menu_input key m).2.selected_option =
      if char_val key = 119 ∨ char_val key = 87 then
        (if m.selected_option - 1 < 0 then 4 else m.selected_option - 1)
      else if char_val key = 115 ∨ char_val key = 83 then
        (if m.selected_option + 1 ≥ 5 then 0 else m.selected_option + 1)
      else m.selected_option := by
  unfold handle_menu_input
  simp only [NUM_MENU_OPTIONS]
  split_ifs <;> rfl

/-- The value one call of `handle_menu_input` returns. -/
theorem handle_menu_input_ret (key : Fin 256) (m : MenuState) :
    (handle_menu_input key m).1 = if key = 10 then m.selected_option else -1 := by
  have hk : char_val key = 10 ↔ key = 10 := by
    have hb := key.isLt
    unfold char_val
    constructor
    · intro h
      apply Fin.ext
      show key.val = 10
      split_ifs at h <;> omega
    · intro h
      subst h
      decide
  unfold handle_menu_input
  simp only
  by_cases h10 : key = 10
  · subst h10
    rw [if_pos rfl, if_neg (by decide), if_neg (by decide), if_pos (by decide)]
  · rw [if_neg h10]
    have h3 : ¬ char_val key = 10 := fun hh => h10 (hk.1 hh)
    rw [if_neg h3]
    split_ifs <;> rfl

theorem handle_menu_input_range (key : Fin 256) (m : MenuState)
    (h0 : 0 ≤ m.selected_option) (h1 : m.selected_option < 5) :
    0 ≤ (handle_menu_input key m).2.selected_option ∧
    (handle_menu_input key m).2.selected_option < 5 := by
  rw [handle_menu_input_sel]
  split_ifs <;> omega

theorem menu_keys_range (keys : List (Fin 256)) :
    ∀ m : MenuState, 0 ≤ m.selected_option → m.selected_option < 5 →
      0 ≤ (menu_keys keys m).selected_option ∧ (menu_keys keys m).selected_option < 5 := by
  induction keys with
  | nil => intro m h0 h1; exact ⟨h0, h1⟩
  | cons k r ih =>
    intro m h0 h1
    obtain ⟨a0, a1⟩ := handle_menu_input_range k m h0 h1
    exact ih _ a0 a1

/-- Claim C29 (menu selection): selected_option stays in [0, 5) under every
sequence of keys passed to handle_menu_input; 'w'/'W' at option 0 wraps to
option 4 and 's'/'S' at option 4 wraps to option 0, so that 'w' followed by 's'
(and 's' followed by 'w') restores the selection; the function returns
selected_option when the key is '\n' and -1 for every other key. -/
theorem menu_selection (m : MenuState) (keys : List (Fin 256)) (key : Fin 256)
    (h0 : 0 ≤ m.selected_option) (h1 : m.selected_option < 5) :
    (0 ≤ (menu_keys keys m).selected_option ∧ (menu_keys keys m).selected_option < 5) ∧
    (m.selected_option = 0 →
      (handle_menu_input 0x77 m).2.selected_option = 4 ∧
      (handle_menu_input 0x57 m).2.selected_option = 4) ∧
    (m.selected_option = 4 →
      (handle_menu_input 0x73 m).2.selected_option = 0 ∧
      (handle_menu_input 0x53 m).2.selected_option = 0) ∧
    (menu_keys [0x77, 0x73] m).selected_option = m.selected_option ∧
    (menu_keys [0x73, 0x77] m).selected_option = m.selected_option ∧
    (handle_menu_input 10 m).1 = m.selected_option ∧
    (key ≠ 10 → (handle_menu_input key m).1 = -1) := by
  have cw : char_val 0x77 = 119 := by decide
  have cW : char_val 0x57 = 87 := by decide
  have cs : char_val 0x73 = 115 := by decide
  have cS : char_val 0x53 = 83 := by decide
  refine ⟨menu_keys_range keys m h0 h1, ?_, ?_, ?_, ?_, ?_, ?_⟩
  · intro hz
    rw [handle_menu_input_sel, handle_menu_input_sel, cw, cW, hz]
    exact ⟨by decide, by decide⟩
  · intro hz
    rw [handle_menu_input_sel, handle_menu_input_sel, cs, cS, hz]
    exact ⟨by decide, by decide⟩
  · show (handle_menu_input 0x73 (handle_menu_input 0x77 m).2).2.selected_option = _
    rw [handle_menu_input_sel, handle_menu_input_sel, cw, cs]
    simp only [true_or, if_true, if_false, (by decide : ¬ ((115 : Int) = 119 ∨ (115 : Int) = 87))]
    split_ifs <;> omega
  · show (handle_menu_input 0x77 (handle_menu_input 0x73 m).2).2.selected_option = _
    rw [handle_menu_input_sel, handle_menu_input_sel, cw, cs]
    simp only [true_or, if_true, if_false, (by decide : ¬ ((115 : Int) = 119 ∨ (115 : Int) = 87))]
    split_ifs <;> omega
  · rw [handle_menu_input_ret, if_pos rfl]
  · intro hk
    rw [handle_menu_input_ret, if_neg hk]

theorem menu_selection_witness :
    (0 ≤ (menu_keys [0x77, 0x77, 0x73, 0x53, 0x73, 10, 0x78] (MenuState.init sample_mid)).selected_option ∧
      (menu_keys [0x77, 0x77, 0x73, 0x53, 0x73, 10, 0x78] (MenuState.init sample_mid)).selected_option < 5) ∧
    (handle_menu_input 0x77 (MenuState.init sample_mid)).2.selected_option = 4 ∧
    (handle_menu_input 0x1B (MenuState.init sample_mid)).1 = -1 :=
  ⟨(menu_selection (MenuState.init sample_mid) [0x77, 0x77, 0x73, 0x53, 0x73, 10, 0x78] 0x1B
      (by decide) (by decide)).1,
   ((menu_selection (MenuState.init sample_mid) [] 0x1B (by decide) (by decide)).2.1
      (by decide)).1,
   (menu_selection (MenuState.init sample_mid) [] 0x1B (by decide) (by decide)).2.2.2.2.2.2
      (by decide)⟩


/-! ## Claims C23 and C28: kgets -/

/-- A plain `char` compares equal to a constant below 128 exactly when the byte is that
constant. -/
theorem char_val_eq_small (c k : Fin 256) (hk : k.val < 128) :
    char_val c = (k.val : Int) ↔ c = k := by
  have hc := c.isLt
  unfold char_val
  constructor
  · intro h
    apply Fin.ext
    split_ifs at h <;> omega
  · intro h
    subst h
    rw [if_pos hk]

/-- Reading one more byte appends it. -/
theorem bytes_at_succ (f : Int → Fin 256) (n : Nat) :
    bytes_at f (n + 1) = bytes_at f n ++ [f (n : Int)] := by
  simp [bytes_at, List.range_succ]

/-- A store at or after the end of the bytes read does not change them. -/
theorem bytes_at_write_ge (f : Int → Fin 256) (n : Nat) (i : Int) (c : Fin 256)
    (h : (n : Int) ≤ i) : bytes_at (buf_write f i c) n = bytes_at f n := by
  unfold bytes_at
  apply List.map_congr_left
  intro k hk
  have hk2 := List.mem_range.1 hk
  unfold buf_write
  rw [if_neg (by omega)]

/-- Reading one byte less drops the last one. -/
theorem bytes_at_dropLast (f : Int → Fin 256) (n : Nat) :
    bytes_at f (n - 1) = (bytes_at f n).dropLast := by
  cases n with
  | zero => rfl
  | succ m =>
    rw [bytes_at_succ, List.dropLast_concat]
    rfl

/-- Once `max_len - 1` characters are stored, the fold of the specification changes
nothing. -/
theorem foldl_edit_step_full (max_len : Int) (l acc : List (Fin 256))
    (h : (acc.length : Int) ≥ max_len - 1) : l.foldl (edit_step max_len) acc = acc := by
  induction l with
  | nil => rfl
  | cons c r ih =>
    rw [List.foldl_cons]
    have e : edit_step max_len acc c = acc := by
      unfold edit_step
      rw [if_pos h]
    rw [e, ih]

/-- The loop of `kgets` keeps `i` within `0 .. max_len - 1`, stores only below
`max_len - 1`, leaves every other byte alone, and never waits for a key with
`max_len - 1` characters stored. -/
theorem kgets_loop_bounds (max_len : Int) :
    ∀ (input : List (Fin 256)) (st : KgetsState),
      0 ≤ st.i → st.i ≤ max_len - 1 → (∀ j ∈ st.stored, 0 ≤ j ∧ j < max_len - 1) →
      (0 ≤ (kgets_loop max_len input st).state.i ∧
        (kgets_loop max_len input st).state.i ≤ max_len - 1) ∧
      (∀ j ∈ (kgets_loop max_len input st).state.stored, 0 ≤ j ∧ j < max_len - 1) ∧
      (∀ j, (j < 0 ∨ max_len - 1 ≤ j) →
        (kgets_loop max_len input st).state.buffer j = st.buffer j) ∧
      (∀ st2, kgets_loop max_len input st = .waiting st2 → st2.i < max_len - 1) := by
  intro input
  induction input with
  | nil =>
    intro st h0 h1 hs
    by_cases h : st.i < max_len - 1
    · simp only [kgets_loop, if_pos h, KgetsOutcome.state]
      refine ⟨⟨h0, h1⟩, hs, fun _ _ => trivial, ?_⟩
      intro st2 e
      cases e
      exact h
    · simp only [kgets_loop, if_neg h, KgetsOutcome.state]
      refine ⟨⟨h0, h1⟩, hs, fun _ _ => trivial, ?_⟩
      intro st2 e
      cases e
  | cons c rest ih =>
    intro st h0 h1 hs
    by_cases h : st.i < max_len - 1
    · by_cases hnl : char_val c = 10 ∨ char_val c = 13
      · simp only [kgets_loop, if_pos h, if_pos hnl, KgetsOutcome.state]
        refine ⟨⟨h0, h1⟩, hs, fun _ _ => trivial, ?_⟩
        intro st2 e
        cases e
      · by_cases hbs : char_val c = 8
        · by_cases hpos : st.i > 0
          · simp only [kgets_loop, if_pos h, if_neg hnl, if_pos hbs, if_pos hpos]
            exact ih _ (by show 0 ≤ st.i - 1; omega) (by show st.i - 1 ≤ _; omega) hs
          · simp only [kgets_loop, if_pos h, if_neg hnl, if_pos hbs, if_neg hpos]
            exact ih st h0 h1 hs
        · by_cases hz : char_val c ≠ 0
          · simp only [kgets_loop, if_pos h, if_neg hnl, if_neg hbs, if_pos hz]
            have hi := ih
              { buffer := buf_write st.buffer st.i c
                i := st.i + 1
                console := kprint [c] (Fin.ofNat VGA_ATTRIB_WHITE_ON_BLACK) st.console
                stored := st.stored ++ [st.i] }
              (by show 0 ≤ st.i + 1; omega) (by show st.i + 1 ≤ _; omega)
              (by
                intro j hj
                rcases List.mem_append.1 hj with hj | hj
                · exact hs j hj
                · rw [List.mem_singleton.1 hj]
                  exact ⟨h0, h⟩)
            refine ⟨hi.1, hi.2.1, ?_, hi.2.2.2⟩
            intro j hj
            rw [hi.2.2.1 j hj]
            show buf_write st.buffer st.i c j = st.buffer j
            unfold buf_write
            rw [if_neg (by omega)]
          · simp only [kgets_loop, if_pos h, if_neg hnl, if_neg hbs, if_neg hz]
            exact ih st h0 h1 hs
    · simp only [kgets_loop, if_neg h, KgetsOutcome.state]
      refine ⟨⟨h0, h1⟩, hs, fun _ _ => trivial, ?_⟩
      intro st2 e
      cases e

/-- With room for exactly the characters `cs`, none of them a control character or
NUL, the loop of `kgets` stores them and returns without reading further. -/
theorem kgets_loop_fills (max_len : Int) (rest : List (Fin 256)) :
    ∀ (cs : List (Fin 256)) (st : KgetsState),
      (∀ c ∈ cs, Storable c) → st.i + (cs.length : Int) = max_len - 1 →
      ∃ st2, kgets_loop max_len (cs ++ rest) st = .returned st2 rest ∧ st2.i = max_len - 1 := by
  intro cs
  induction cs with
  | nil =>
    intro st _ hlen
    have h : ¬ st.i < max_len - 1 := by
      simp only [List.length_nil, Nat.cast_zero, add_zero] at hlen
      omega
    refine ⟨st, ?_, by simpa using hlen⟩
    cases rest with
    | nil => simp only [List.append_nil, kgets_loop, if_neg h]
    | cons r rs => simp only [List.nil_append, kgets_loop, if_neg h]
  | cons c cs ih =>
    intro st hcs hlen
    have hc := hcs c (List.mem_cons_self _ _)
    have hlen2 : st.i + 1 + (cs.length : Int) = max_len - 1 := by
      simp only [List.length_cons, Nat.cast_add, Nat.cast_one] at hlen
      omega
    have h : st.i < max_len - 1 := by omega
    have hnl : ¬ (char_val c = 10 ∨ char_val c = 13) := by
      intro hh
      rcases hh with hh | hh
      · exact hc.2.1 ((char_val_eq_small c 10 (by decide)).1 hh)
      · exact hc.2.2.1 ((char_val_eq_small c 13 (by decide)).1 hh)
    have hbs : ¬ char_val c = 8 := fun hh => hc.2.2.2 ((char_val_eq_small c 8 (by decide)).1 hh)
    have hz : char_val c ≠ 0 := fun hh => hc.1 ((char_val_eq_small c 0 (by decide)).1 hh)
    simp only [List.cons_append, kgets_loop, if_pos h, if_neg hnl, if_neg hbs, if_pos hz]
    exact ih _ (fun x hx => hcs x (List.mem_cons_of_mem _ hx)) hlen2

/-- The loop of `kgets` computes the fold of the specification: started with the
characters `acc` stored, it ends with the fold of `edit_step` from `acc` over the
characters before the first newline or carriage return. -/
theorem kgets_loop_fold (max_len : Int) :
    ∀ (input : List (Fin 256)) (st : KgetsState) (acc : List (Fin 256)),
      st.i = (acc.length : Int) → bytes_at st.buffer acc.length = acc →
      (kgets_loop max_len input st).state.i =
        (((input.takeWhile (fun c => decide (c ≠ 10 ∧ c ≠ 13))).foldl
          (edit_step max_len) acc).length : Int) ∧
      bytes_at (kgets_loop max_len input st).state.buffer
        ((input.takeWhile (fun c => decide (c ≠ 10 ∧ c ≠ 13))).foldl
          (edit_step max_len) acc).length
        = (input.takeWhile (fun c => decide (c ≠ 10 ∧ c ≠ 13))).foldl (edit_step max_len) acc := by
  intro input
  induction input with
  | nil =>
    intro st acc hi hb
    have e : kgets_loop max_len [] st = .waiting st ∨ kgets_loop max_len [] st = .returned st [] := by
      by_cases h : st.i < max_len - 1
      · left; simp only [kgets_loop, if_pos h]
      · right; simp only [kgets_loop, if_neg h]
    rcases e with e | e <;> rw [e] <;> exact ⟨hi, hb⟩
  | cons c rest ih =>
    intro st acc hi hb
    by_cases h : st.i < max_len - 1
    · have hfull : ¬ (acc.length : Int) ≥ max_len - 1 := by omega
      by_cases hnl : char_val c = 10 ∨ char_val c = 13
      · have hc : c = 10 ∨ c = 13 := by
          rcases hnl with hh | hh
          · exact Or.inl ((char_val_eq_small c 10 (by decide)).1 hh)
          · exact Or.inr ((char_val_eq_small c 13 (by decide)).1 hh)
        have htw : (c :: rest).takeWhile (fun c => decide (c ≠ 10 ∧ c ≠ 13)) = [] := by
          rw [List.takeWhile_cons, if_neg]
          simp only [decide_eq_true_eq]
          rcases hc with hh | hh <;> simp [hh]
        rw [htw]
        simp only [kgets_loop, if_pos h, if_pos hnl, KgetsOutcome.state, List.foldl_nil]
        exact ⟨hi, hb⟩
      · have hc10 : c ≠ 10 := fun hh => hnl (Or.inl ((char_val_eq_small c 10 (by decide)).2 hh))
        have hc13 : c ≠ 13 := fun hh => hnl (Or.inr ((char_val_eq_small c 13 (by decide)).2 hh))
        have htw : (c :: rest).takeWhile (fun c => decide (c ≠ 10 ∧ c ≠ 13))
            = c :: rest.takeWhile (fun c => decide (c ≠ 10 ∧ c ≠ 13)) := by
          rw [List.takeWhile_cons, if_pos]
          simp only [decide_eq_true_eq]
          exact ⟨hc10, hc13⟩
        rw [htw, List.foldl_cons]
        by_cases hbs : char_val c = 8
        · have hc8 : c = 8 := (char_val_eq_small c 8 (by decide)).1 hbs
          have es : edit_step max_len acc c = acc.dropLast := by
            unfold edit_step
            rw [if_neg hfull, if_pos hc8]
          rw [es]
          by_cases hpos : st.i > 0
          · simp only [kgets_loop, if_pos h, if_neg hnl, if_pos hbs, if_pos hpos]
            refine ih _ acc.dropLast ?_ ?_
            · show st.i - 1 = _
              rw [List.length_dropLast, hi]
              omega
            · show bytes_at st.buffer acc.dropLast.length = _
              rw [List.length_dropLast, bytes_at_dropLast, hb]
          · simp only [kgets_loop, if_pos h, if_neg hnl, if_pos hbs, if_neg hpos]
            have hnil : acc = [] := List.length_eq_zero.1 (by omega)
            subst hnil
            exact ih st [] hi hb
        · have hc8 : ¬ c = 8 := fun hh => hbs ((char_val_eq_small c 8 (by decide)).2 hh)
          by_cases hz : char_val c ≠ 0
          · have hc0 : ¬ c = 0 := fun hh => hz ((char_val_eq_small c 0 (by decide)).2 hh)
            have es : edit_step max_len acc c = acc ++ [c] := by
              unfold edit_step
              rw [if_neg hfull, if_neg hc8, if_neg hc0]
            rw [es]
            simp only [kgets_loop, if_pos h, if_neg hnl, if_neg hbs, if_pos hz]
            refine ih _ (acc ++ [c]) ?_ ?_
            · show st.i + 1 = _
              rw [List.length_append, hi]
              simp
            · show bytes_at (buf_write st.buffer st.i c) (acc ++ [c]).length = _
              rw [List.length_append, List.length_singleton, bytes_at_succ,
                bytes_at_write_ge _ _ _ _ (by omega), hb]
              unfold buf_write
              rw [if_pos hi.symm]
          · have hc0 : c = 0 := (char_val_eq_small c 0 (by decide)).1 (not_not.1 hz)
            have es : edit_step max_len acc c = acc := by
              unfold edit_step
              rw [if_neg hfull, if_neg hc8, if_pos hc0]
            rw [es]
            simp only [kgets_loop, if_pos h, if_neg hnl, if_neg hbs, if_neg hz]
            exact ih st acc hi hb
    · have hfull : (acc.length : Int) ≥ max_len - 1 := by omega
      rw [foldl_edit_step_full max_len _ acc hfull]
      simp only [kgets_loop, if_neg h, KgetsOutcome.state]
      exact ⟨hi, hb⟩

/-- On an input that holds a newline or a carriage return the loop of `kgets` returns. -/
theorem kgets_loop_returns (max_len : Int) :
    ∀ (input : List (Fin 256)) (st : KgetsState), (∃ c ∈ input, c = 10 ∨ c = 13) →
      ∃ st2 r, kgets_loop max_len input st = .returned st2 r := by
  intro input
  induction input with
  | nil =>
    intro st h
    obtain ⟨c, hc, _⟩ := h
    cases hc
  | cons c rest ih =>
    intro st hex
    by_cases h : st.i < max_len - 1
    · by_cases hnl : char_val c = 10 ∨ char_val c = 13
      · exact ⟨st, rest, by simp only [kgets_loop, if_pos h, if_pos hnl]⟩
      · have hrest : ∃ x ∈ rest, x = 10 ∨ x = 13 := by
          obtain ⟨x, hx, hx2⟩ := hex
          rcases List.mem_cons.1 hx with e | hx3
          · subst e
            exfalso
            rcases hx2 with hh | hh
            · exact hnl (Or.inl ((char_val_eq_small x 10 (by decide)).2 hh))
            · exact hnl (Or.inr ((char_val_eq_small x 13 (by decide)).2 hh))
          · exact ⟨x, hx3, hx2⟩
        by_cases hbs : char_val c = 8
        · by_cases hpos : st.i > 0
          · simp only [kgets_loop, if_pos h, if_neg hnl, if_pos hbs, if_pos hpos]
            exact ih _ hrest
          · simp only [kgets_loop, if_pos h, if_neg hnl, if_pos hbs, if_neg hpos]
            exact ih _ hrest
        · by_cases hz : char_val c ≠ 0
          · simp only [kgets_loop, if_pos h, if_neg hnl, if_neg hbs, if_pos hz]
            exact ih _ hrest
          · simp only [kgets_loop, if_pos h, if_neg hnl, if_neg hbs, if_neg hz]
            exact ih _ hrest
    · exact ⟨st, c :: rest, by simp only [kgets_loop, if_neg h]⟩

/-- The fold of the specification only ever holds storable characters. -/
theorem edit_fold_storable (max_len : Int) :
    ∀ (input acc : List (Fin 256)), (∀ c ∈ acc, Storable c) →
      ∀ c ∈ (input.takeWhile (fun c => decide (c ≠ 10 ∧ c ≠ 13))).foldl (edit_step max_len) acc,
        Storable c := by
  intro input
  induction input with
  | nil =>
    intro acc hacc
    exact hacc
  | cons x rest ih =>
    intro acc hacc
    rw [List.takeWhile_cons]
    by_cases hx : x ≠ 10 ∧ x ≠ 13
    · rw [if_pos (by simpa using hx), List.foldl_cons]
      apply ih
      unfold edit_step
      split_ifs with h1 h2 h3
      · exact hacc
      · exact fun c hc => hacc c (List.mem_of_mem_dropLast hc)
      · exact hacc
      · intro c hc
        rcases List.mem_append.1 hc with hc | hc
        · exact hacc c hc
        · rw [List.mem_singleton.1 hc]
          exact ⟨h3, hx.1, hx.2, h2⟩
    · rw [if_neg (by simpa using hx)]
      exact hacc

/-- The outcome of `kgets` from that of its loop. -/
theorem kgets_state (buffer : Int → Fin 256) (max_len : Int) (input : List (Fin 256))
    (console : Console) :
    (∃ st, kgets_loop max_len input
        { buffer := buffer, i := 0, console := console, stored := [] } = .waiting st ∧
      kgets buffer max_len input console = .waiting st) ∨
    (∃ st rest, kgets_loop max_len input
        { buffer := buffer, i := 0, console := console, stored := [] } = .returned st rest ∧
      kgets buffer max_len input console =
        .returned { st with buffer := buf_write st.buffer st.i 0,
                            stored := st.stored ++ [st.i] } rest) := by
  unfold kgets
  cases kgets_loop max_len input { buffer := buffer, i := 0, console := console, stored := [] } with
  | waiting st => exact Or.inl ⟨st, rfl, rfl⟩
  | returned st rest => exact Or.inr ⟨st, rest, rfl, rfl⟩

/-- C23 (kgets buffer bound): for `max_len ≥ 1`, on any characters delivered by the
keyboard, `kgets` only stores to buffer indices in `0 .. max_len - 1` and leaves every
other byte of memory alone, holds at most `max_len - 1` characters (`0 ≤ i ≤ max_len - 1`),
and when it returns the buffer is NUL-terminated at `i ≤ max_len - 1`. It never waits for
a key with `max_len - 1` characters stored: fed exactly `max_len - 1` storable characters
it returns at once, leaving whatever follows (Enter or not) unread. -/
theorem kgets_buffer_bound (buffer : Int → Fin 256) (max_len : Int) (hmax : 1 ≤ max_len)
    (input cs rest : List (Fin 256)) (console : Console) :
    (∀ j ∈ (kgets buffer max_len input console).state.stored, 0 ≤ j ∧ j < max_len) ∧
    (∀ j, (j < 0 ∨ max_len ≤ j) →
      (kgets buffer max_len input console).state.buffer j = buffer j) ∧
    (0 ≤ (kgets buffer max_len input console).state.i ∧
      (kgets buffer max_len input console).state.i ≤ max_len - 1) ∧
    (∀ st r, kgets buffer max_len input console = .returned st r →
      st.buffer st.i = 0 ∧ st.i ∈ st.stored) ∧
    (∀ st, kgets buffer max_len input console = .waiting st → st.i < max_len - 1) ∧
    ((∀ c ∈ cs, Storable c) → (cs.length : Int) = max_len - 1 →
      ∃ st, kgets buffer max_len (cs ++ rest) console = .returned st rest ∧
        st.i = max_len - 1 ∧ st.buffer (max_len - 1) = 0) := by
  have hb := kgets_loop_bounds max_len input
    { buffer := buffer, i := 0, console := console, stored := [] }
    (le_refl _) (by show (0 : Int) ≤ max_len - 1; omega)
    (by intro j hj; cases hj)
  refine ⟨?_, ?_, ?_, ?_, ?_, ?_⟩
  · rcases kgets_state buffer max_len input console with ⟨st, hl, hk⟩ | ⟨st, r, hl, hk⟩
    · rw [hl] at hb
      rw [hk]
      intro j hj
      have := hb.2.1 j hj
      omega
    · rw [hl] at hb
      rw [hk]
      intro j hj
      rcases List.mem_append.1 hj with hj | hj
      · have := hb.2.1 j hj
        omega
      · rw [List.mem_singleton.1 hj]
        have := hb.1
        simp only [KgetsOutcome.state] at this
        omega
  · intro j hj
    rcases kgets_state buffer max_len input console with ⟨st, hl, hk⟩ | ⟨st, r, hl, hk⟩
    · rw [hl] at hb
      rw [hk]
      exact hb.2.2.1 j (by omega)
    · rw [hl] at hb
      rw [hk]
      have h1 := hb.1
      have h2 := hb.2.2.1 j (by omega)
      simp only [KgetsOutcome.state] at h1 h2
      show buf_write st.buffer st.i 0 j = buffer j
      unfold buf_write
      rw [if_neg (by omega), h2]
  · rcases kgets_state buffer max_len input console with ⟨st, hl, hk⟩ | ⟨st, r, hl, hk⟩
    · rw [hl] at hb
      rw [hk]
      exact hb.1
    · rw [hl] at hb
      rw [hk]
      exact hb.1
  · intro st2 r2 h
    rcases kgets_state buffer max_len input console with ⟨st, _, hk⟩ | ⟨st, r, _, hk⟩
    · rw [hk] at h
      cases h
    · rw [hk] at h
      cases h
      refine ⟨?_, List.mem_append.2 (Or.inr (List.mem_singleton.2 rfl))⟩
      show buf_write st.buffer st.i 0 st.i = 0
      unfold buf_write
      rw [if_pos rfl]
  · intro st2 h
    rcases kgets_state buffer max_len input console with ⟨st, hl, hk⟩ | ⟨st, r, _, hk⟩
    · rw [hk] at h
      cases h
      exact hb.2.2.2 st2 hl
    · rw [hk] at h
      cases h
  · intro hcs hlen
    obtain ⟨st2, h2, h3⟩ := kgets_loop_fills max_len rest cs
      { buffer := buffer, i := 0, console := console, stored := [] } hcs
      (by show (0 : Int) + (cs.length : Int) = max_len - 1; omega)
    rcases kgets_state buffer max_len (cs ++ rest) console with ⟨st, hl, _⟩ | ⟨st, r, hl, hk⟩
    · rw [hl] at h2
      cases h2
    · rw [hl] at h2
      cases h2
      refine ⟨_, hk, h3, ?_⟩
      show buf_write st2.buffer st2.i 0 (max_len - 1) = 0
      unfold buf_write
      rw [if_pos h3.symm]

/-- C23 at a concrete input: with `max_len = 3`, the two characters "ab" fill the
buffer and `kgets` returns with nothing more to read. -/
theorem kgets_buffer_bound_witness :
    (1 : Int) ≤ 3 ∧
    ∃ st, kgets sample_buffer 3 ([0x61, 0x62] ++ []) sample_mid = .returned st [] ∧
      st.i = 3 - 1 ∧ st.buffer (3 - 1) = 0 :=
  ⟨by decide,
   (kgets_buffer_bound sample_buffer 3 (by decide) [0x61, 0x62, 0x08, 0x63, 0x0A, 0x64]
      [0x61, 0x62] [] sample_mid).2.2.2.2.2
      (by simp [Storable]) (by decide)⟩

/-- C28 (kgets line editing): for every sequence of characters delivered by the
keyboard and every `max_len` above INT_MIN (so that `max_len - 1` does not overflow),
the characters `kgets` leaves in `buffer[0 .. i-1]` are the fold `edited_line` of the
specification over the characters before the first '\n' or '\r' (backspace removes the
last stored character if any, NUL is ignored, any other character is appended, nothing
changes once `max_len - 1` are stored); none of them is '\n', '\r', '\b' or NUL; when
`kgets` returns `buffer[i]` is NUL, so the C string in the buffer is exactly that fold;
and it does return when the input holds a newline or a carriage return. -/
theorem kgets_line_editing (buffer : Int → Fin 256) (max_len : Int) (_hint : INT_MIN < max_len)
    (input : List (Fin 256)) (console : Console) :
    (kgets buffer max_len input console).state.i = ((edited_line max_len input).length : Int) ∧
    bytes_at (kgets buffer max_len input console).state.buffer (edited_line max_len input).length
      = edited_line max_len input ∧
    (∀ c ∈ edited_line max_len input, Storable c) ∧
    (∀ st r, kgets buffer max_len input console = .returned st r → st.buffer st.i = 0) ∧
    ((∃ c ∈ input, c = 10 ∨ c = 13) →
      ∃ st r, kgets buffer max_len input console = .returned st r) := by
  have hf := kgets_loop_fold max_len input
    { buffer := buffer, i := 0, console := console, stored := [] } [] rfl rfl
  refine ⟨?_, ?_, ?_, ?_, ?_⟩
  · rcases kgets_state buffer max_len input console with ⟨st, hl, hk⟩ | ⟨st, r, hl, hk⟩
    · rw [hl] at hf
      rw [hk]
      exact hf.1
    · rw [hl] at hf
      rw [hk]
      exact hf.1
  · rcases kgets_state buffer max_len input console with ⟨st, hl, hk⟩ | ⟨st, r, hl, hk⟩
    · rw [hl] at hf
      rw [hk]
      exact hf.2
    · rw [hl] at hf
      rw [hk]
      have h1 := hf.1
      simp only [KgetsOutcome.state] at h1
      show bytes_at (buf_write st.buffer st.i 0) (edited_line max_len input).length = _
      unfold edited_line
      rw [bytes_at_write_ge _ _ _ _ (le_of_eq h1.symm)]
      exact hf.2
  · exact edit_fold_storable max_len input [] (fun c hc => by cases hc)
  · intro st2 r2 h
    rcases kgets_state buffer max_len input console with ⟨st, _, hk⟩ | ⟨st, r, _, hk⟩
    · rw [hk] at h
      cases h
    · rw [hk] at h
      cases h
      show buf_write st.buffer st.i 0 st.i = 0
      unfold buf_write
      rw [if_pos rfl]
  · intro hex
    obtain ⟨st2, r2, h2⟩ := kgets_loop_returns max_len input
      { buffer := buffer, i := 0, console := console, stored := [] } hex
    rcases kgets_state buffer max_len input console with ⟨st, hl, _⟩ | ⟨st, r, _, hk⟩
    · rw [hl] at h2
      cases h2
    · exact ⟨_, _, hk⟩

/-- C28 at a concrete input: typing a, b, backspace, c, Enter, d into a buffer of five
leaves "ac". -/
theorem kgets_line_editing_witness :
    INT_MIN < 5 ∧
    bytes_at (kgets sample_buffer 5 [0x61, 0x62, 0x08, 0x63, 0x0A, 0x64] sample_mid).state.buffer
      (edited_line 5 [0x61, 0x62, 0x08, 0x63, 0x0A, 0x64]).length = [0x61, 0x63] :=
  ⟨by decide,
   (kgets_line_editing sample_buffer 5 (by decide) [0x61, 0x62, 0x08, 0x63, 0x0A, 0x64]
      sample_mid).2.1.trans (by decide)⟩


/-! ## The calculator: keys and buttons -/

/-- The loop of `run_calculator` on two runs of keys, one after the other. -/
theorem calc_keys_append (k1 k2 : List (Fin 256)) : ∀ st, calc_keys (k1 ++ k2) st =
    match calc_keys k1 st with
    | .running st1 => calc_keys k2 st1
    | .quit st1 => .quit st1
    | .trap => .trap := by
  induction k1 with
  | nil => intro st; rfl
  | cons key rest ih =>
    intro st
    simp only [List.cons_append, calc_keys]
    cases calc_key key st with
    | running st1 => exact ih st1
    | quit st1 => rfl
    | trap => rfl

/-- Keys after a run of keys that leaves the calculator running. -/
theorem calc_keys_then (k1 k2 : List (Fin 256)) (st st1 : CalcState)
    (h : calc_keys k1 st = .running st1) : calc_keys (k1 ++ k2) st = calc_keys k2 st1 := by
  rw [calc_keys_append, h]

/-- The loop on one key is one turn. -/
theorem calc_keys_single (key : Fin 256) (st : CalcState) :
    calc_keys [key] st = calc_key key st := by
  simp only [calc_keys]
  cases calc_key key st <;> rfl

/-- The key 'a' moves the highlight one column left, if it is not in column 0. -/
theorem calc_key_left (st : CalcState) :
    ∃ c, calc_key 0x61 st = .running { st with
      calculator_cursor_X :=
        if st.calculator_cursor_X > 0 then st.calculator_cursor_X - 1 else st.calculator_cursor_X
      console := c } := by
  by_cases h : st.calculator_cursor_X > 0
  · refine ⟨draw_calculator (st.calculator_cursor_X - 1) st.calculator_cursor_Y
      st.calculator_display_buffer st.console, ?_⟩
    unfold calc_key
    simp only [if_pos h]
    rfl
  · refine ⟨draw_calculator st.calculator_cursor_X st.calculator_cursor_Y
      st.calculator_display_buffer st.console, ?_⟩
    unfold calc_key
    simp only [if_neg h]
    rfl

/-- The key 'd' moves the highlight one column right, if it is not in column 3. -/
theorem calc_key_right (st : CalcState) :
    ∃ c, calc_key 0x64 st = .running { st with
      calculator_cursor_X :=
        if st.calculator_cursor_X < 3 then st.calculator_cursor_X + 1 else st.calculator_cursor_X
      console := c } := by
  by_cases h : st.calculator_cursor_X < 3
  · refine ⟨draw_calculator (st.calculator_cursor_X + 1) st.calculator_cursor_Y
      st.calculator_display_buffer st.console, ?_⟩
    have h2 : st.calculator_cursor_X < CALC_GRID_COLS - 1 := h
    unfold calc_key
    simp only [if_pos h, if_pos h2]
    rfl
  · refine ⟨draw_calculator st.calculator_cursor_X st.calculator_cursor_Y
      st.calculator_display_buffer st.console, ?_⟩
    have h2 : ¬ st.calculator_cursor_X < CALC_GRID_COLS - 1 := h
    unfold calc_key
    simp only [if_neg h, if_neg h2]
    rfl

/-- The key 'w' moves the highlight one row up, if it is not in row 0. -/
theorem calc_key_up (st : CalcState) :
    ∃ c, calc_key 0x77 st = .running { st with
      calculator_cursor_Y :=
        if st.calculator_cursor_Y > 0 then st.calculator_cursor_Y - 1 else st.calculator_cursor_Y
      console := c } := by
  by_cases h : st.calculator_cursor_Y > 0
  · refine ⟨draw_calculator st.calculator_cursor_X (st.calculator_cursor_Y - 1)
      st.calculator_display_buffer st.console, ?_⟩
    unfold calc_key
    simp only [if_pos h]
    rfl
  · refine ⟨draw_calculator st.calculator_cursor_X st.calculator_cursor_Y
      st.calculator_display_buffer st.console, ?_⟩
    unfold calc_key
    simp only [if_neg h]
    rfl

/-- The key 's' moves the highlight one row down, if it is not in row 4. -/
theorem calc_key_down (st : CalcState) :
    ∃ c, calc_key 0x73 st = .running { st with
      calculator_cursor_Y :=
        if st.calculator_cursor_Y < 4 then st.calculator_cursor_Y + 1 else st.calculator_cursor_Y
      console := c } := by
  by_cases h : st.calculator_cursor_Y < 4
  · refine ⟨draw_calculator st.calculator_cursor_X (st.calculator_cursor_Y + 1)
      st.calculator_display_buffer st.console, ?_⟩
    have h2 : st.calculator_cursor_Y < CALC_GRID_ROWS - 1 := h
    unfold calc_key
    simp only [if_pos h, if_pos h2]
    rfl
  · refine ⟨draw_calculator st.calculator_cursor_X st.calculator_cursor_Y
      st.calculator_display_buffer st.console, ?_⟩
    have h2 : ¬ st.calculator_cursor_Y < CALC_GRID_ROWS - 1 := h
    unfold calc_key
    simp only [if_neg h, if_neg h2]
    rfl

/-- Enough times 'a' bring the highlight to column 0. -/
theorem calc_keys_left (n : Nat) : ∀ st : CalcState,
    0 ≤ st.calculator_cursor_X → st.calculator_cursor_X ≤ n →
    ∃ c, calc_keys (List.replicate n 0x61) st
      = .running { st with calculator_cursor_X := 0, console := c } := by
  induction n with
  | zero =>
    intro st h0 h1
    have e : st.calculator_cursor_X = 0 := by
      simp only [Nat.cast_zero] at h1
      omega
    refine ⟨st.console, ?_⟩
    rw [← e]
    rfl
  | succ n ih =>
    intro st h0 h1
    obtain ⟨c1, e1⟩ := calc_key_left st
    rw [List.replicate_succ]
    simp only [calc_keys, e1]
    push_cast at h1
    exact ih _ (by show 0 ≤ ite _ _ _; split_ifs <;> omega)
      (by show ite _ _ _ ≤ _; split_ifs <;> omega)

/-- Enough times 'w' bring the highlight to row 0. -/
theorem calc_keys_up (n : Nat) : ∀ st : CalcState,
    0 ≤ st.calculator_cursor_Y → st.calculator_cursor_Y ≤ n →
    ∃ c, calc_keys (List.replicate n 0x77) st
      = .running { st with calculator_cursor_Y := 0, console := c } := by
  induction n with
  | zero =>
    intro st h0 h1
    have e : st.calculator_cursor_Y = 0 := by
      simp only [Nat.cast_zero] at h1
      omega
    refine ⟨st.console, ?_⟩
    rw [← e]
    rfl
  | succ n ih =>
    intro st h0 h1
    obtain ⟨c1, e1⟩ := calc_key_up st
    rw [List.replicate_succ]
    simp only [calc_keys, e1]
    push_cast at h1
    exact ih _ (by show 0 ≤ ite _ _ _; split_ifs <;> omega)
      (by show ite _ _ _ ≤ _; split_ifs <;> omega)

/-- From column 0, `n ≤ 3` times 'd' bring the highlight to column `n`. -/
theorem calc_keys_right (n : Nat) : ∀ (k : Nat) (st : CalcState),
    st.calculator_cursor_X = (k : Int) → k + n ≤ 3 →
    ∃ c, calc_keys (List.replicate n 0x64) st
      = .running { st with calculator_cursor_X := ((k + n : Nat) : Int), console := c } := by
  induction n with
  | zero =>
    intro k st h0 _
    refine ⟨st.console, ?_⟩
    rw [Nat.add_zero, ← h0]
    rfl
  | succ n ih =>
    intro k st h0 h1
    obtain ⟨c1, e1⟩ := calc_key_right st
    rw [List.replicate_succ]
    simp only [calc_keys, e1]
    have e2 : (if st.calculator_cursor_X < 3 then st.calculator_cursor_X + 1
        else st.calculator_cursor_X) = ((k + 1 : Nat) : Int) := by
      rw [if_pos (by omega), h0]
      push_cast
      rfl
    rw [e2]
    have h3 := ih (k + 1)
      { st with calculator_cursor_X := ((k + 1 : Nat) : Int), console := c1 } rfl (by omega)
    have e3 : k + 1 + n = k + (n + 1) := by omega
    rw [e3] at h3
    exact h3

/-- From row 0, `n ≤ 4` times 's' bring the highlight to row `n`. -/
theorem calc_keys_down (n : Nat) : ∀ (k : Nat) (st : CalcState),
    st.calculator_cursor_Y = (k : Int) → k + n ≤ 4 →
    ∃ c, calc_keys (List.replicate n 0x73) st
      = .running { st with calculator_cursor_Y := ((k + n : Nat) : Int), console := c } := by
  induction n with
  | zero =>
    intro k st h0 _
    refine ⟨st.console, ?_⟩
    rw [Nat.add_zero, ← h0]
    rfl
  | succ n ih =>
    intro k st h0 h1
    obtain ⟨c1, e1⟩ := calc_key_down st
    rw [List.replicate_succ]
    simp only [calc_keys, e1]
    have e2 : (if st.calculator_cursor_Y < 4 then st.calculator_cursor_Y + 1
        else st.calculator_cursor_Y) = ((k + 1 : Nat) : Int) := by
      rw [if_pos (by omega), h0]
      push_cast
      rfl
    rw [e2]
    have h3 := ih (k + 1)
      { st with calculator_cursor_Y := ((k + 1 : Nat) : Int), console := c1 } rfl (by omega)
    have e3 : k + 1 + n = k + (n + 1) := by omega
    rw [e3] at h3
    exact h3

/-- The keys of `press_at x y` bring the highlight to column `x` of row `y`, change no
other variable of the calculator, and end with Enter there. -/
theorem press_at_spec (x y : Nat) (hx : x ≤ 3) (hy : y ≤ 4) (st : CalcState) (hg : OnGrid st) :
    ∃ c, calc_keys (press_at x y) st = calc_key 10
      { st with calculator_cursor_X := (x : Int), calculator_cursor_Y := (y : Int),
                console := c } := by
  obtain ⟨⟨x0, x1⟩, ⟨y0, y1⟩⟩ := hg
  obtain ⟨c1, e1⟩ := calc_keys_left 3 st x0 (by push_cast; omega)
  obtain ⟨c2, e2⟩ := calc_keys_up 4 { st with calculator_cursor_X := 0, console := c1 }
    y0 (by push_cast; exact y1)
  obtain ⟨c3, e3⟩ := calc_keys_right x 0
    { st with calculator_cursor_X := 0, calculator_cursor_Y := 0, console := c2 } rfl (by omega)
  obtain ⟨c4, e4⟩ := calc_keys_down y 0
    { st with calculator_cursor_X := ((0 + x : Nat) : Int), calculator_cursor_Y := 0,
              console := c3 } rfl (by omega)
  refine ⟨c4, ?_⟩
  unfold press_at
  rw [calc_keys_then _ _ st _
    (by rw [calc_keys_then _ _ st _
      (by rw [calc_keys_then _ _ st _ (by rw [calc_keys_then _ _ st _ e1]; exact e2)]
          exact e3)]
        exact e4), calc_keys_single]
  simp only [Nat.zero_add]

/-- Every digit, operator and '=' labels the button at its `button_pos`, which is on
the grid. -/
theorem button_pos_label (c : Fin 256) (h : IsDigit c ∨ IsOperator c ∨ c = 0x3D) :
    (button_pos c).1 ≤ 3 ∧ (button_pos c).2 ≤ 4 ∧
    layout_label ((button_pos c).2 : Int) ((button_pos c).1 : Int) = [c] := by
  have hc : c = 0x30 ∨ c = 0x31 ∨ c = 0x32 ∨ c = 0x33 ∨ c = 0x34 ∨ c = 0x35 ∨ c = 0x36 ∨
      c = 0x37 ∨ c = 0x38 ∨ c = 0x39 ∨ c = 0x2B ∨ c = 0x2D ∨ c = 0x2A ∨ c = 0x2F ∨
      c = 0x3D := by
    rcases h with ⟨h0, h1⟩ | h | h
    · have e : c.val = 48 ∨ c.val = 49 ∨ c.val = 50 ∨ c.val = 51 ∨ c.val = 52 ∨ c.val = 53 ∨
          c.val = 54 ∨ c.val = 55 ∨ c.val = 56 ∨ c.val = 57 := by omega
      rcases e with e | e | e | e | e | e | e | e | e | e
      · exact Or.inl (Fin.ext e)
      · exact Or.inr (Or.inl (Fin.ext e))
      · exact Or.inr (Or.inr (Or.inl (Fin.ext e)))
      · exact Or.inr (Or.inr (Or.inr (Or.inl (Fin.ext e))))
      · exact Or.inr (Or.inr (Or.inr (Or.inr (Or.inl (Fin.ext e)))))
      · exact Or.inr (Or.inr (Or.inr (Or.inr (Or.inr (Or.inl (Fin.ext e))))))
      · exact Or.inr (Or.inr (Or.inr (Or.inr (Or.inr (Or.inr (Or.inl (Fin.ext e)))))))
      · exact Or.inr (Or.inr (Or.inr (Or.inr (Or.inr (Or.inr (Or.inr (Or.inl (Fin.ext e))))))))
      · exact Or.inr (Or.inr (Or.inr (Or.inr (Or.inr (Or.inr (Or.inr (Or.inr
          (Or.inl (Fin.ext e)))))))))
      · exact Or.inr (Or.inr (Or.inr (Or.inr (Or.inr (Or.inr (Or.inr (Or.inr
          (Or.inr (Or.inl (Fin.ext e))))))))))
    · rcases h with h | h | h | h <;> simp [h]
    · simp [h]
  rcases hc with rfl | rfl | rfl | rfl | rfl | rfl | rfl | rfl | rfl | rfl | rfl | rfl | rfl |
    rfl | rfl <;> decide

/-- Enter on a button: the Enter branch for the label under the highlight, then the
redraw. -/
theorem calc_key_enter (st : CalcState) :
    calc_key 10 st =
      match calc_button (layout_label st.calculator_cursor_Y st.calculator_cursor_X) st with
      | .running st1 =>
        .running { st1 with
          console := draw_calculator st1.calculator_cursor_X st1.calculator_cursor_Y
            st1.calculator_display_buffer st1.console }
      | .quit st1 => .quit st1
      | .trap => .trap := rfl

/-- Pressing the button labelled `c`: the keys of `press c` leave every variable of the
calculator but the highlight and the screen alone until Enter, and Enter runs the
Enter branch for the label `c`. -/
theorem press_spec (c : Fin 256) (hc : IsDigit c ∨ IsOperator c ∨ c = 0x3D) (st : CalcState)
    (hg : OnGrid st) :
    ∃ (x y : Int) (s : Console), (0 ≤ x ∧ x ≤ 3) ∧ (0 ≤ y ∧ y ≤ 4) ∧
      calc_keys (press c) st =
        match calc_button [c]
          { st with calculator_cursor_X := x, calculator_cursor_Y := y, console := s } with
        | .running st1 =>
          .running { st1 with
            console := draw_calculator st1.calculator_cursor_X st1.calculator_cursor_Y
              st1.calculator_display_buffer st1.console }
        | .quit st1 => .quit st1
        | .trap => .trap := by
  obtain ⟨hx, hy, hl⟩ := button_pos_label c hc
  obtain ⟨s, hs⟩ := press_at_spec (button_pos c).1 (button_pos c).2 hx hy st hg
  refine ⟨((button_pos c).1 : Int), ((button_pos c).2 : Int), s, ⟨by omega, by omega⟩,
    ⟨by omega, by omega⟩, ?_⟩
  unfold press
  rw [hs, calc_key_enter]
  simp only [hl]

/-! ## The calculator: numbers and operations -/

/-- A run of decimal digits is worth less than the next power of ten. -/
theorem dec_from_lt (ds : List (Fin 256)) (hds : ∀ b ∈ ds, IsDigit b) :
    ∀ acc : Int, 0 ≤ acc → dec_from acc ds < (acc + 1) * 10 ^ ds.length := by
  induction ds with
  | nil =>
    intro acc _
    show acc < (acc + 1) * 10 ^ 0
    omega
  | cons d r ih =>
    intro acc h0
    obtain ⟨d0, d1⟩ := hds d (List.mem_cons_self _ _)
    have h1 := ih (fun x hx => hds x (List.mem_cons_of_mem _ hx))
      (acc * 10 + ((d.val : Int) - 48)) (by omega)
    have hp : (0 : Int) < 10 ^ r.length := by positivity
    have h2 : (acc * 10 + ((d.val : Int) - 48) + 1) * 10 ^ r.length
        ≤ (acc * 10 + 10) * 10 ^ r.length :=
      mul_le_mul_of_nonneg_right (by omega) (le_of_lt hp)
    have e : (acc + 1) * 10 ^ (d :: r).length = (acc * 10 + 10) * 10 ^ r.length := by
      rw [List.length_cons, pow_succ]
      ring
    rw [e]
    exact lt_of_lt_of_le h1 h2

/-- A number of at most nine digits is between 0 and 999999999. -/
theorem dec_value_range (ds : List (Fin 256)) (hds : ∀ b ∈ ds, IsDigit b)
    (hlen : ds.length ≤ 9) : 0 ≤ dec_value ds ∧ dec_value ds ≤ 999999999 := by
  have h1 := dec_from_lt ds hds 0 (le_refl _)
  have h2 : (10 : Int) ^ ds.length ≤ 10 ^ 9 := pow_le_pow_right₀ (by decide) hlen
  have h3 : (10 : Int) ^ 9 = 1000000000 := by norm_num
  refine ⟨dec_from_ge ds hds 0 (le_refl _), ?_⟩
  unfold dec_value
  omega

/-- The number `k_atoi` reads from the input buffer that holds the digits `ds`. -/
theorem k_atoi_typed (inp : Int → Fin 256) (ds : List (Fin 256)) (hds : ∀ b ∈ ds, IsDigit b)
    (hne : ds ≠ []) (hlen : ds.length ≤ 9) (hb : bytes_at inp ds.length = ds)
    (hz : inp (ds.length : Int) = 0) : k_atoi (bytes_at inp 32) = dec_value ds := by
  obtain ⟨rest, hr⟩ := bytes_at_split inp ds.length 32 (by omega)
  rw [hb, hz] at hr
  have h := k_atoi_spec [] [] ds (0 :: rest) (fun b hb => by cases hb) (Or.inl rfl) hds hne
    (by
      have := (dec_value_range ds hds hlen).2
      simp only [INT_MAX]
      omega)
    (by
      intro b hb
      simp only [List.head?_cons, Option.mem_def, Option.some.injEq] at hb
      subst hb
      unfold IsDigit
      simp)
  rw [hr]
  simpa using h

/-- The function `k_atoi` on an input buffer that starts with NUL reads 0. -/
theorem k_atoi_cleared (inp : Int → Fin 256) (hz : inp 0 = 0) :
    k_atoi (bytes_at inp 32) = 0 := by
  obtain ⟨rest, hr⟩ := bytes_at_split inp 0 32 (by omega)
  have e : bytes_at inp 0 = [] := rfl
  rw [e, List.nil_append] at hr
  have hz2 : inp ((0 : Nat) : Int) = 0 := hz
  rw [hz2] at hr
  rw [hr]
  simp [k_atoi, atoi_skip, head_char, atoi_digits, char_val, wrap_int]

/-- Storing one more digit and the NUL after it. -/
theorem typed_snoc (inp : Int → Fin 256) (ds : List (Fin 256)) (d : Fin 256) (i : Int)
    (hi : i = (ds.length : Int)) (h : bytes_at inp ds.length = ds) :
    bytes_at (buf_write (buf_write inp i d) (i + 1) 0) (ds ++ [d]).length = ds ++ [d] ∧
    buf_write (buf_write inp i d) (i + 1) 0 (((ds ++ [d]).length : Nat) : Int) = 0 := by
  subst hi
  rw [List.length_append, List.length_singleton]
  constructor
  · rw [bytes_at_succ, bytes_at_write_ge _ _ _ _ (by omega), bytes_at_write_ge _ _ _ _ (le_refl _),
      h]
    unfold buf_write
    rw [if_neg (by omega), if_pos rfl]
  · unfold buf_write
    rw [if_pos (by push_cast; rfl)]

/-- The result of the division of `k_divide` by a divisor that is not negative. -/
theorem k_divide_nonneg (a b : Int) (hb : 0 ≤ b) (s : Console) :
    (k_divide a b s).1 = some (if b = 0 then 0 else Int.tdiv a b) := by
  unfold k_divide
  by_cases h : b = 0
  · rw [if_pos h, if_pos h]
  · rw [if_neg h, if_neg h]
    unfold c_int_div
    rw [if_neg h, if_neg (by omega)]

/-- A digit button, while a number is being taken: the digit is appended. -/
theorem calc_button_digit (d : Fin 256) (hd : IsDigit d) (st : CalcState)
    (ds : List (Fin 256)) (a : Int) (o : Fin 256) (he : Entering st ds a o)
    (hlen : ds.length < 31) :
    ∃ st1, calc_button [d] st = .running st1 ∧ Entering st1 (ds ++ [d]) a o ∧
      st1.calculator_cursor_X = st.calculator_cursor_X ∧
      st1.calculator_cursor_Y = st.calculator_cursor_Y := by
  obtain ⟨hidx, hb, hz, ha, hop, hj⟩ := he
  obtain ⟨d0, d1⟩ := hd
  have hcv : head_char [d] = (d.val : Int) := char_val_of_ascii d (by omega)
  have h0 : ¬ head_char [d] = 0 := by rw [hcv]; omega
  have hdig : head_char [d] ≥ 48 ∧ head_char [d] ≤ 57 := by rw [hcv]; omega
  unfold calc_button
  simp only [if_neg h0, if_pos hdig]
  by_cases hclear : st.calculator_just_calculated ≠ 0 ∨
      (st.calculator_expecting_operand2 ≠ 0 ∧ st.calculator_input_buffer_idx = 0)
  · have hnil : ds = [] := by
      rcases hclear with h | ⟨_, h⟩
      · exact hj h
      · rw [hidx] at h
        exact List.length_eq_zero.1 (by omega)
    subst hnil
    simp only [if_pos hclear]
    rw [if_pos (by decide)]
    refine ⟨_, rfl, ?_, rfl, rfl⟩
    have hs := typed_snoc (buf_write st.calculator_input_buffer 0 0) [] d 0 rfl rfl
    exact ⟨rfl, hs.1, hs.2, ha, hop, fun h => absurd rfl h⟩
  · simp only [if_neg hclear]
    rw [if_pos (by rw [hidx]; omega)]
    refine ⟨_, rfl, ?_, rfl, rfl⟩
    have hs := typed_snoc st.calculator_input_buffer ds d _ hidx hb
    refine ⟨?_, hs.1, hs.2, ha, hop,
      fun h => absurd (not_not.1 (fun h2 => hclear (Or.inl h2))) h⟩
    show st.calculator_input_buffer_idx + 1 = _
    rw [hidx, List.length_append, List.length_singleton]
    push_cast
    rfl

/-- The function `calculate_result` with an operator pending and a second number of at
most nine digits typed: it returns, with the result in `calculator_operand1` and its
decimal form in the display buffer, the operator cleared and the input buffer emptied. -/
theorem calculate_result_spec (st : CalcState) (ds : List (Fin 256)) (a : Int) (o : Fin 256)
    (he : Entering st ds a o) (ho : IsOperator o) (hds : ∀ b ∈ ds, IsDigit b)
    (hne : ds ≠ []) (hlen : ds.length ≤ 9) :
    ∃ (r : Int) (c : Console), OpResult o a (dec_value ds) r ∧
      calculate_result st = some { st with
        calculator_operand1 := r
        calculator_display_buffer := k_itoa r st.calculator_display_buffer 10
        calculator_input_buffer_idx := 0
        calculator_input_buffer := buf_write st.calculator_input_buffer 0 0
        calculator_operator := 0
        calculator_expecting_operand2 := 0
        calculator_just_calculated := 1
        console := c } := by
  obtain ⟨hidx, hb, hz, ha, hop, hj⟩ := he
  have hk := k_atoi_typed st.calculator_input_buffer ds hds hne hlen hb hz
  have hpos : 0 < ds.length := List.length_pos.2 hne
  have hB0 : 0 ≤ dec_value ds := (dec_value_range ds hds hlen).1
  have hi0 : ¬ st.calculator_input_buffer_idx = 0 := by rw [hidx]; omega
  rcases ho with rfl | rfl | rfl | rfl
  · have c1 : char_val st.calculator_operator = 43 := by rw [hop]; decide
    refine ⟨k_add_n (int_pair a (dec_value ds)) 2, st.console,
      ⟨fun _ => rfl, fun h => absurd h (by decide), fun h => absurd h (by decide),
        fun h => absurd h (by decide)⟩, ?_⟩
    unfold calculate_result
    rw [if_neg (by rw [c1]; omega)]
    simp only [c1, hk, ha, if_true]
  · have c1 : char_val st.calculator_operator = 45 := by rw [hop]; decide
    refine ⟨k_subtract a (dec_value ds), st.console,
      ⟨fun h => absurd h (by decide), fun _ => rfl, fun h => absurd h (by decide),
        fun h => absurd h (by decide)⟩, ?_⟩
    unfold calculate_result
    rw [if_neg (by rw [c1]; omega)]
    simp only [c1, hk, ha, if_true, (by decide : ¬ (45 : Int) = 43), if_false]
  · have c1 : char_val st.calculator_operator = 42 := by rw [hop]; decide
    refine ⟨k_multiply_n (int_pair a (dec_value ds)) 2, st.console,
      ⟨fun h => absurd h (by decide), fun h => absurd h (by decide), fun _ => rfl,
        fun h => absurd h (by decide)⟩, ?_⟩
    unfold calculate_result
    rw [if_neg (by rw [c1]; omega)]
    simp only [c1, hk, ha, if_true, (by decide : ¬ (42 : Int) = 43),
      (by decide : ¬ (42 : Int) = 45), if_false]
  · have c1 : char_val st.calculator_operator = 47 := by rw [hop]; decide
    refine ⟨if dec_value ds = 0 then 0 else Int.tdiv a (dec_value ds),
      (k_divide a (dec_value ds) st.console).2,
      ⟨fun h => absurd h (by decide), fun h => absurd h (by decide),
        fun h => absurd h (by decide), fun _ s => k_divide_nonneg a _ hB0 s⟩, ?_⟩
    unfold calculate_result
    rw [if_neg (by rw [c1]; omega)]
    simp only [c1, hk, ha, if_true, (by decide : ¬ (47 : Int) = 43),
      (by decide : ¬ (47 : Int) = 45), (by decide : ¬ (47 : Int) = 42), if_false,
      k_divide_nonneg a _ hB0 st.console]

/-- An operator button after a first number, with no operator pending: the number
becomes `calculator_operand1` and the operator is stored. -/
theorem calc_button_operator (o : Fin 256) (ho : IsOperator o) (st : CalcState)
    (ds : List (Fin 256)) (a : Int) (he : Entering st ds a 0) (hds : ∀ b ∈ ds, IsDigit b)
    (hne : ds ≠ []) (hlen : ds.length ≤ 9) :
    ∃ st1, calc_button [o] st = .running st1 ∧ Entering st1 [] (dec_value ds) o ∧
      st1.calculator_cursor_X = st.calculator_cursor_X ∧
      st1.calculator_cursor_Y = st.calculator_cursor_Y := by
  obtain ⟨hidx, hb, hz, ha, hop, hj⟩ := he
  have hk := k_atoi_typed st.calculator_input_buffer ds hds hne hlen hb hz
  have hpos : 0 < ds.length := List.length_pos.2 hne
  have hi0 : st.calculator_input_buffer_idx > 0 := by rw [hidx]; omega
  have hop0 : ¬ char_val st.calculator_operator ≠ 0 := by rw [hop]; decide
  have hw : buf_write st.calculator_input_buffer 0 0 ((([] : List (Fin 256)).length : Nat) : Int)
      = 0 := by
    simp [buf_write]
  rcases ho with rfl | rfl | rfl | rfl
  all_goals
    unfold calc_button
    simp only [head_char, (by decide : char_val 0x2B = 43), (by decide : char_val 0x2D = 45),
      (by decide : char_val 0x2A = 42), (by decide : char_val 0x2F = 47)]
    simp only [if_pos hi0, if_neg hop0, hk]
    exact ⟨_, rfl, ⟨rfl, rfl, hw, rfl, rfl, fun _ => rfl⟩, rfl, rfl⟩

/-- An operator button with an operator already pending and a second number typed:
`calculate_result` runs, and then `calculator_operand1` is set to what `k_atoi` reads
from the input buffer that `calculate_result` has just emptied, which is 0. -/
theorem calc_button_chain (o2 : Fin 256) (ho2 : IsOperator o2) (st : CalcState)
    (ds : List (Fin 256)) (a : Int) (o : Fin 256) (he : Entering st ds a o)
    (ho : IsOperator o) (hds : ∀ b ∈ ds, IsDigit b) (hne : ds ≠ []) (hlen : ds.length ≤ 9) :
    ∃ st1, calc_button [o2] st = .running st1 ∧ Entering st1 [] 0 o2 ∧
      st1.calculator_cursor_X = st.calculator_cursor_X ∧
      st1.calculator_cursor_Y = st.calculator_cursor_Y := by
  obtain ⟨r, c, _, hcalc⟩ := calculate_result_spec st ds a o he ho hds hne hlen
  obtain ⟨hidx, hb, hz, ha, hop, hj⟩ := he
  have hpos : 0 < ds.length := List.length_pos.2 hne
  have hi0 : st.calculator_input_buffer_idx > 0 := by rw [hidx]; omega
  have hop0 : char_val st.calculator_operator ≠ 0 := by
    rw [hop]
    rcases ho with rfl | rfl | rfl | rfl <;> decide
  have hw : buf_write (buf_write st.calculator_input_buffer 0 0) 0 0
      ((([] : List (Fin 256)).length : Nat) : Int) = 0 := by
    simp [buf_write]
  have hk : k_atoi (bytes_at (buf_write st.calculator_input_buffer 0 0) 32) = 0 :=
    k_atoi_cleared _ (by simp [buf_write])
  rcases ho2 with rfl | rfl | rfl | rfl
  all_goals
    unfold calc_button
    simp only [head_char, (by decide : char_val 0x2B = 43), (by decide : char_val 0x2D = 45),
      (by decide : char_val 0x2A = 42), (by decide : char_val 0x2F = 47)]
    simp only [if_pos hi0, if_pos hop0, hcalc, hk]
    exact ⟨_, rfl, ⟨rfl, rfl, hw, rfl, rfl, fun _ => rfl⟩, rfl, rfl⟩

/-- The '=' button with an operator pending and a second number typed. -/
theorem calc_button_equals (st : CalcState) (ds : List (Fin 256)) (a : Int) (o : Fin 256)
    (he : Entering st ds a o) (ho : IsOperator o) (hds : ∀ b ∈ ds, IsDigit b)
    (hne : ds ≠ []) (hlen : ds.length ≤ 9) :
    ∃ st1, calc_button [0x3D] st = .running st1 ∧
      OpResult o a (dec_value ds) st1.calculator_operand1 ∧
      st1.calculator_display_buffer
        = k_itoa st1.calculator_operand1 st.calculator_display_buffer 10 ∧
      st1.calculator_operator = 0 ∧ st1.calculator_input_buffer_idx = 0 ∧
      st1.calculator_input_buffer 0 = 0 ∧
      st1.calculator_cursor_X = st.calculator_cursor_X ∧
      st1.calculator_cursor_Y = st.calculator_cursor_Y := by
  obtain ⟨r, c, hr, hcalc⟩ := calculate_result_spec st ds a o he ho hds hne hlen
  unfold calc_button
  simp only [head_char, (by decide : char_val 0x3D = 61)]
  simp only [hcalc]
  exact ⟨_, rfl, hr, rfl, rfl, rfl, by simp [buf_write], rfl, rfl⟩

/-- Pressing a digit button while a number is being taken. -/
theorem press_digit (d : Fin 256) (hd : IsDigit d) (st : CalcState) (ds : List (Fin 256))
    (a : Int) (o : Fin 256) (he : Entering st ds a o) (hg : OnGrid st)
    (hlen : ds.length < 31) :
    ∃ st1, calc_keys (press d) st = .running st1 ∧ Entering st1 (ds ++ [d]) a o ∧
      OnGrid st1 := by
  obtain ⟨x, y, s, hx, hy, hp⟩ := press_spec d (Or.inl hd) st hg
  obtain ⟨st1, h1, h2, h3, h4⟩ := calc_button_digit d hd
    { st with calculator_cursor_X := x, calculator_cursor_Y := y, console := s } ds a o he hlen
  rw [h1] at hp
  refine ⟨_, hp, h2, ?_, ?_⟩
  · show 0 ≤ st1.calculator_cursor_X ∧ st1.calculator_cursor_X ≤ 3
    rw [h3]
    exact hx
  · show 0 ≤ st1.calculator_cursor_Y ∧ st1.calculator_cursor_Y ≤ 4
    rw [h4]
    exact hy

/-- Pressing the digit buttons of a number, one after the other. -/
theorem press_digits (a : Int) (o : Fin 256) (ds2 : List (Fin 256)) :
    ∀ (st : CalcState) (ds : List (Fin 256)), (∀ b ∈ ds2, IsDigit b) → Entering st ds a o →
      OnGrid st → ds.length + ds2.length ≤ 31 →
      ∃ st1, calc_keys (press_all ds2) st = .running st1 ∧ Entering st1 (ds ++ ds2) a o ∧
        OnGrid st1 := by
  induction ds2 with
  | nil =>
    intro st ds _ he hg _
    rw [List.append_nil]
    exact ⟨st, rfl, he, hg⟩
  | cons d r ih =>
    intro st ds hd he hg hlen
    simp only [List.length_cons] at hlen
    obtain ⟨st1, h1, h2, h3⟩ := press_digit d (hd d (List.mem_cons_self _ _)) st ds a o he hg
      (by omega)
    obtain ⟨st2, k1, k2, k3⟩ := ih st1 (ds ++ [d]) (fun x hx => hd x (List.mem_cons_of_mem _ hx))
      h2 h3 (by
        rw [List.length_append, List.length_singleton]
        omega)
    refine ⟨st2, ?_, ?_, k3⟩
    · show calc_keys (press d ++ press_all r) st = _
      rw [calc_keys_then _ _ st st1 h1]
      exact k1
    · rw [List.append_assoc] at k2
      exact k2

/-- Pressing an operator button after a first number, with no operator pending. -/
theorem press_operator (o : Fin 256) (ho : IsOperator o) (st : CalcState)
    (ds : List (Fin 256)) (a : Int) (he : Entering st ds a 0) (hg : OnGrid st)
    (hds : ∀ b ∈ ds, IsDigit b) (hne : ds ≠ []) (hlen : ds.length ≤ 9) :
    ∃ st1, calc_keys (press o) st = .running st1 ∧ Entering st1 [] (dec_value ds) o ∧
      OnGrid st1 := by
  obtain ⟨x, y, s, hx, hy, hp⟩ := press_spec o (Or.inr (Or.inl ho)) st hg
  obtain ⟨st1, h1, h2, h3, h4⟩ := calc_button_operator o ho
    { st with calculator_cursor_X := x, calculator_cursor_Y := y, console := s } ds a he hds
    hne hlen
  rw [h1] at hp
  refine ⟨_, hp, h2, ?_, ?_⟩
  · show 0 ≤ st1.calculator_cursor_X ∧ st1.calculator_cursor_X ≤ 3
    rw [h3]
    exact hx
  · show 0 ≤ st1.calculator_cursor_Y ∧ st1.calculator_cursor_Y ≤ 4
    rw [h4]
    exact hy

/-- Pressing an operator button with an operator pending and a second number typed:
`calculator_operand1` is 0 afterwards, whatever the pending operation gave. -/
theorem press_chain (o2 : Fin 256) (ho2 : IsOperator o2) (st : CalcState)
    (ds : List (Fin 256)) (a : Int) (o : Fin 256) (he : Entering st ds a o) (hg : OnGrid st)
    (ho : IsOperator o) (hds : ∀ b ∈ ds, IsDigit b) (hne : ds ≠ []) (hlen : ds.length ≤ 9) :
    ∃ st1, calc_keys (press o2) st = .running st1 ∧ Entering st1 [] 0 o2 ∧ OnGrid st1 := by
  obtain ⟨x, y, s, hx, hy, hp⟩ := press_spec o2 (Or.inr (Or.inl ho2)) st hg
  obtain ⟨st1, h1, h2, h3, h4⟩ := calc_button_chain o2 ho2
    { st with calculator_cursor_X := x, calculator_cursor_Y := y, console := s } ds a o he ho
    hds hne hlen
  rw [h1] at hp
  refine ⟨_, hp, h2, ?_, ?_⟩
  · show 0 ≤ st1.calculator_cursor_X ∧ st1.calculator_cursor_X ≤ 3
    rw [h3]
    exact hx
  · show 0 ≤ st1.calculator_cursor_Y ∧ st1.calculator_cursor_Y ≤ 4
    rw [h4]
    exact hy

/-- Pressing '=' with an operator pending and a second number typed. -/
theorem press_equals (st : CalcState) (ds : List (Fin 256)) (a : Int) (o : Fin 256)
    (he : Entering st ds a o) (hg : OnGrid st) (ho : IsOperator o)
    (hds : ∀ b ∈ ds, IsDigit b) (hne : ds ≠ []) (hlen : ds.length ≤ 9) :
    ∃ st1, calc_keys (press 0x3D) st = .running st1 ∧
      OpResult o a (dec_value ds) st1.calculator_operand1 ∧
      st1.calculator_display_buffer
        = k_itoa st1.calculator_operand1 st.calculator_display_buffer 10 ∧
      st1.calculator_operator = 0 ∧ st1.calculator_input_buffer_idx = 0 ∧
      st1.calculator_input_buffer 0 = 0 := by
  obtain ⟨x, y, s, hx, hy, hp⟩ := press_spec 0x3D (Or.inr (Or.inr rfl)) st hg
  obtain ⟨st1, h1, h2, h3, h4, h5, h6, _, _⟩ := calc_button_equals
    { st with calculator_cursor_X := x, calculator_cursor_Y := y, console := s } ds a o he ho
    hds hne hlen
  rw [h1] at hp
  exact ⟨_, hp, h2, h3, h4, h5, h6⟩

/-- The fresh calculator is taking a number, with nothing typed, no operand and no
operator, and the highlight on the first button. -/
theorem run_calculator_start_entering (st : CalcState) :
    Entering (run_calculator_start st) [] 0 0 ∧ OnGrid (run_calculator_start st) := by
  have h0 : (0 : Int) ≤ 0 ∧ (0 : Int) ≤ 3 := ⟨by decide, by decide⟩
  have h1 : (0 : Int) ≤ 0 ∧ (0 : Int) ≤ 4 := ⟨by decide, by decide⟩
  refine ⟨⟨rfl, rfl, ?_, rfl, rfl, fun _ => rfl⟩, h0, h1⟩
  show buf_write st.calculator_input_buffer 0 0 ((([] : List (Fin 256)).length : Nat) : Int) = 0
  simp [buf_write]

/-- The values of the four operations on two numbers of at most nine digits: the sum
and the difference are exact, the product is wrapped to 32 bits, and the quotient is
truncated, or 0 for a zero divisor. -/
theorem op_result_value (o : Fin 256) (a b r : Int) (h : OpResult o a b r)
    (ha : 0 ≤ a ∧ a ≤ 999999999) (hb : 0 ≤ b ∧ b ≤ 999999999) :
    (o = 0x2B → r = a + b) ∧ (o = 0x2D → r = a - b) ∧ (o = 0x2A → r = wrap_int (a * b)) ∧
    (o = 0x2F → r = if b = 0 then 0 else Int.tdiv a b) := by
  obtain ⟨h1, h2, h3, h4⟩ := h
  have ea : wrap_int a = a :=
    wrap_int_id a (by simp only [INT_MIN]; omega) (by simp only [INT_MAX]; omega)
  refine ⟨?_, ?_, ?_, ?_⟩
  · intro ho
    rw [h1 ho]
    have e : k_add_n (int_pair a b) 2 = wrap_int (wrap_int (0 + a) + b) := rfl
    rw [e, zero_add, ea]
    exact wrap_int_id _ (by simp only [INT_MIN]; omega) (by simp only [INT_MAX]; omega)
  · intro ho
    rw [h2 ho]
    exact wrap_int_id _ (by simp only [INT_MIN]; omega) (by simp only [INT_MAX]; omega)
  · intro ho
    rw [h3 ho]
    have e : k_multiply_n (int_pair a b) 2 = wrap_int (wrap_int (1 * a) * b) := rfl
    rw [e, one_mul, ea]
  · intro ho
    have h5 := h4 ho sample_mid
    rw [k_divide_nonneg a b hb.1] at h5
    exact (Option.some.inj h5).symm

/-- The keys 2, +, 3, * from the fresh calculator: the calculator goes on with the keys
that follow, taking the second number of the multiplication, with 0 in
`calculator_operand1`. -/
theorem chain_start (st0 : CalcState) (more : List (Fin 256)) :
    ∃ st, calc_keys (press 0x32 ++ (press 0x2B ++ (press 0x33 ++ (press 0x2A ++ more))))
        (run_calculator_start st0) = calc_keys more st ∧
      Entering st [] 0 0x2A ∧ OnGrid st := by
  obtain ⟨e0, g0⟩ := run_calculator_start_entering st0
  have d2 : IsDigit 0x32 := by unfold IsDigit; decide
  have d3 : IsDigit 0x33 := by unfold IsDigit; decide
  have oP : IsOperator 0x2B := Or.inl rfl
  have oM : IsOperator 0x2A := Or.inr (Or.inr (Or.inl rfl))
  obtain ⟨s1, k1, e1, g1⟩ := press_digit 0x32 d2 _ [] 0 0 e0 g0 (by decide)
  obtain ⟨s2, k2, e2, g2⟩ := press_operator 0x2B oP s1 ([] ++ [0x32]) 0 e1 g1
    (by intro b hb; rw [List.mem_singleton.1 hb]; exact d2) (by decide) (by decide)
  obtain ⟨s3, k3, e3, g3⟩ := press_digit 0x33 d3 s2 [] _ 0x2B e2 g2 (by decide)
  obtain ⟨s4, k4, e4, g4⟩ := press_chain 0x2A oM s3 ([] ++ [0x33]) _ 0x2B e3 g3 oP
    (by intro b hb; rw [List.mem_singleton.1 hb]; exact d3) (by decide) (by decide)
  refine ⟨s4, ?_, e4, g4⟩
  rw [calc_keys_then _ _ _ s1 k1, calc_keys_then _ _ _ s2 k2, calc_keys_then _ _ _ s3 k3,
    calc_keys_then _ _ _ s4 k4]

/-- Claim C26 (calculator chaining), as the code behaves: from the fresh calculator,
after the buttons 2, +, 3, * the variable `calculator_operand1` holds 0, not the result
5 of the pending addition (the result is stored and then overwritten with what
`k_atoi` reads from the emptied input buffer); and after 2, +, 3, *, 4, = it holds 0
and the display buffer holds "0", not (2+3)*4 = 20. -/
theorem calculator_chaining_drops_result (st0 : CalcState) :
    (∃ st, run_calculator (press_all [0x32, 0x2B, 0x33, 0x2A]) st0 = .running st ∧
      st.calculator_operand1 = 0 ∧ st.calculator_operator = 0x2A) ∧
    (∃ st, run_calculator (press_all [0x32, 0x2B, 0x33, 0x2A, 0x34, 0x3D]) st0 = .running st ∧
      st.calculator_operand1 = 0 ∧ st.calculator_operand1 ≠ (2 + 3) * 4 ∧
      bytes_at st.calculator_display_buffer 2 = [0x30, 0]) := by
  constructor
  · obtain ⟨s4, k4, e4, _⟩ := chain_start st0 []
    exact ⟨s4, k4, e4.2.2.2.1, e4.2.2.2.2.1⟩
  · obtain ⟨s4, k4, e4, g4⟩ := chain_start st0 (press 0x34 ++ (press 0x3D ++ []))
    have d4 : IsDigit 0x34 := by unfold IsDigit; decide
    obtain ⟨s5, k5, e5, g5⟩ := press_digit 0x34 d4 s4 [] 0 0x2A e4 g4 (by decide)
    obtain ⟨s6, k6, r6, h6, _⟩ := press_equals s5 ([] ++ [0x34]) 0 0x2A e5 g5
      (Or.inr (Or.inr (Or.inl rfl)))
      (by intro b hb; rw [List.mem_singleton.1 hb]; exact d4) (by decide) (by decide)
    have hr : s6.calculator_operand1 = 0 := by
      rw [r6.2.2.1 rfl]
      decide
    refine ⟨s6, ?_, hr, by rw [hr]; decide, ?_⟩
    · show calc_keys (press 0x32 ++ (press 0x2B ++ (press 0x33 ++ (press 0x2A ++
        (press 0x34 ++ (press 0x3D ++ [])))))) (run_calculator_start st0) = _
      rw [k4, calc_keys_then _ _ _ s5 k5, calc_keys_then _ _ _ s6 k6]
      rfl
    · rw [h6, hr]
      simp [k_itoa, bytes_at, List.range_succ, buf_write]

/-- Claim C27 (calculator binary operation): from the fresh calculator, whatever the
globals and the screen held before, the keys that press the digit buttons of a number
A of 1 to 9 digits, one operator button, the digit buttons of a number B of 1 to 9
digits and then '=' leave the calculator running with `calculator_operand1` the result
of `k_add_n`, `k_subtract`, `k_multiply_n` or `k_divide` on A and B (A + B, A - B,
the product wrapped to 32 bits, the truncated quotient or 0 for B = 0), the display
buffer `k_itoa` of that result in base 10, no operator pending, and the input buffer
empty. -/
theorem calculator_binary_operation (st0 : CalcState) (dsA dsB : List (Fin 256))
    (op : Fin 256)
    (hA : ∀ b ∈ dsA, IsDigit b) (hA1 : 1 ≤ dsA.length) (hA9 : dsA.length ≤ 9)
    (hB : ∀ b ∈ dsB, IsDigit b) (hB1 : 1 ≤ dsB.length) (hB9 : dsB.length ≤ 9)
    (hop : IsOperator op) :
    ∃ (st : CalcState) (d : Int → Fin 256),
      run_calculator (press_all dsA ++ press op ++ press_all dsB ++ press 0x3D) st0
        = .running st ∧
      OpResult op (dec_value dsA) (dec_value dsB) st.calculator_operand1 ∧
      ((op = 0x2B → st.calculator_operand1 = dec_value dsA + dec_value dsB) ∧
       (op = 0x2D → st.calculator_operand1 = dec_value dsA - dec_value dsB) ∧
       (op = 0x2A → st.calculator_operand1 = wrap_int (dec_value dsA * dec_value dsB)) ∧
       (op = 0x2F → st.calculator_operand1 =
          if dec_value dsB = 0 then 0 else Int.tdiv (dec_value dsA) (dec_value dsB))) ∧
      st.calculator_display_buffer = k_itoa st.calculator_operand1 d 10 ∧
      st.calculator_operator = 0 ∧
      st.calculator_input_buffer_idx = 0 ∧ st.calculator_input_buffer 0 = 0 := by
  obtain ⟨e0, g0⟩ := run_calculator_start_entering st0
  have nA : dsA ≠ [] := fun h => by rw [h] at hA1; exact absurd hA1 (by decide)
  have nB : dsB ≠ [] := fun h => by rw [h] at hB1; exact absurd hB1 (by decide)
  obtain ⟨s1, k1, e1, g1⟩ := press_digits 0 0 dsA _ [] hA e0 g0
    (by simp only [List.length_nil]; omega)
  rw [List.nil_append] at e1
  obtain ⟨s2, k2, e2, g2⟩ := press_operator op hop s1 dsA 0 e1 g1 hA nA hA9
  obtain ⟨s3, k3, e3, g3⟩ := press_digits (dec_value dsA) op dsB s2 [] hB e2 g2
    (by simp only [List.length_nil]; omega)
  rw [List.nil_append] at e3
  obtain ⟨s4, k4, r4, h4, o4, i4, z4⟩ := press_equals s3 dsB _ op e3 g3 hop hB nB hB9
  refine ⟨s4, s3.calculator_display_buffer, ?_, r4,
    op_result_value op _ _ _ r4 (dec_value_range dsA hA hA9) (dec_value_range dsB hB hB9),
    h4, o4, i4, z4⟩
  unfold run_calculator
  rw [calc_keys_then _ _ _ s3
    (by rw [calc_keys_then _ _ _ s2 (by rw [calc_keys_then _ _ _ s1 k1]; exact k2)]
        exact k3)]
  exact k4

/-- Claim C27 at a concrete input: 12 * 3 = from a calculator left in some earlier
state. -/
theorem calculator_binary_operation_witness :
    ∃ (st : CalcState) (d : Int → Fin 256),
      run_calculator (press_all [0x31, 0x32] ++ press 0x2A ++ press_all [0x33] ++ press 0x3D)
        sample_calc = .running st ∧
      OpResult 0x2A (dec_value [0x31, 0x32]) (dec_value [0x33]) st.calculator_operand1 ∧
      (((0x2A : Fin 256) = 0x2B →
          st.calculator_operand1 = dec_value [0x31, 0x32] + dec_value [0x33]) ∧
       ((0x2A : Fin 256) = 0x2D →
          st.calculator_operand1 = dec_value [0x31, 0x32] - dec_value [0x33]) ∧
       ((0x2A : Fin 256) = 0x2A →
          st.calculator_operand1 = wrap_int (dec_value [0x31, 0x32] * dec_value [0x33])) ∧
       ((0x2A : Fin 256) = 0x2F → st.calculator_operand1 =
          if dec_value [0x33] = 0 then 0
          else Int.tdiv (dec_value [0x31, 0x32]) (dec_value [0x33]))) ∧
      st.calculator_display_buffer = k_itoa st.calculator_operand1 d 10 ∧
      st.calculator_operator = 0 ∧
      st.calculator_input_buffer_idx = 0 ∧ st.calculator_input_buffer 0 = 0 :=
  calculator_binary_operation sample_calc [0x31, 0x32] [0x33] 0x2A
    (by
      intro b hb
      rcases List.mem_cons.1 hb with rfl | hb
      · unfold IsDigit; decide
      · rw [List.mem_singleton.1 hb]; unfold IsDigit; decide)
    (by decide) (by decide)
    (by intro b hb; rw [List.mem_singleton.1 hb]; unfold IsDigit; decide)
    (by decide) (by decide) (Or.inr (Or.inr (Or.inl rfl)))


/-! ## Claim C31: kprint is a left fold over the characters -/

/-- On a string without NUL, `kprint` is the left fold of the loop body over the
characters. -/
theorem kprint_foldl (a : Fin 256) (l : List (Fin 256)) :
    ∀ s : Console, (∀ b ∈ l, b ≠ 0) →
      kprint l a s = l.foldl (fun st b => kprint_char b a st) s := by
  induction l with
  | nil => intro s _; rfl
  | cons b rest ih =>
    intro s h
    rw [kprint_cons b rest a s (h b (List.mem_cons_self _ _)), List.foldl_cons]
    exact ih _ (fun x hx => h x (List.mem_cons_of_mem _ hx))

/-- Claim C31 (emit is a left fold over characters): for all NUL-free strings s1 and
s2, every attribute a and every starting state, `kprint (s1 ++ s2, a)` leaves the same
console as `kprint (s1, a)` followed by `kprint (s2, a)`: the same grid, the same
cursor, the same sequence of port writes (and the same scroll count and record of
grid accesses); and it is the left fold of the loop body `kprint_char` over the
characters of s1 ++ s2. -/
theorem kprint_left_fold (s1 s2 : List (Fin 256)) (a : Fin 256) (s : Console)
    (h1 : ∀ b ∈ s1, b ≠ 0) (h2 : ∀ b ∈ s2, b ≠ 0) :
    kprint (s1 ++ s2) a s = kprint s2 a (kprint s1 a s) ∧
    (kprint (s1 ++ s2) a s).vga_buffer = (kprint s2 a (kprint s1 a s)).vga_buffer ∧
    (kprint (s1 ++ s2) a s).cursor_x = (kprint s2 a (kprint s1 a s)).cursor_x ∧
    (kprint (s1 ++ s2) a s).cursor_y = (kprint s2 a (kprint s1 a s)).cursor_y ∧
    (kprint (s1 ++ s2) a s).ports = (kprint s2 a (kprint s1 a s)).ports ∧
    kprint (s1 ++ s2) a s = (s1 ++ s2).foldl (fun st b => kprint_char b a st) s := by
  have e := kprint_append s1 s2 a s h1
  refine ⟨e, by rw [e], by rw [e], by rw [e], by rw [e], ?_⟩
  apply kprint_foldl
  intro b hb
  rcases List.mem_append.1 hb with hb | hb
  · exact h1 b hb
  · exact h2 b hb

/-- Claim C31 at a concrete input: "ab" and then a newline and "c", from the last cell
of the screen. -/
theorem kprint_left_fold_witness :
    (∀ b ∈ [(0x61 : Fin 256), 0x62], b ≠ 0) ∧ (∀ b ∈ [(0x0A : Fin 256), 0x63], b ≠ 0) ∧
    kprint ([0x61, 0x62] ++ [0x0A, 0x63]) 0x0F sample_corner
      = kprint [0x0A, 0x63] 0x0F (kprint [0x61, 0x62] 0x0F sample_corner) :=
  ⟨by simp, by simp,
   (kprint_left_fold [0x61, 0x62] [0x0A, 0x63] 0x0F sample_corner (by simp) (by simp)).1⟩

/-! ## Claim C32: the frame of a character that does not scroll -/

/-- The right-edge check leaves the grid alone. -/
theorem kprint_wrap_buffer (s : Console) : (kprint_wrap s).vga_buffer = s.vga_buffer := by
  unfold kprint_wrap
  split_ifs <;> rfl

/-- The grid after the effect of one character: untouched by a newline or a carriage
return, changed at most at the new cursor position by a backspace, and at most at the
old cursor position by any other byte. -/
theorem kprint_effect_frame (b a : Fin 256) (s : Console) :
    ((b = 10 ∨ b = 13) → (kprint_effect b a s).vga_buffer = s.vga_buffer) ∧
    (b = 8 → ∀ j : Int,
      j ≠ (kprint_effect b a s).cursor_y * 80 + (kprint_effect b a s).cursor_x →
      (kprint_effect b a s).vga_buffer j = s.vga_buffer j) ∧
    (b ≠ 10 → b ≠ 13 → b ≠ 8 → ∀ j : Int, j ≠ s.cursor_y * 80 + s.cursor_x →
      (kprint_effect b a s).vga_buffer j = s.vga_buffer j) := by
  have e10 : char_to_int b = 10 ↔ b = 10 :=
    (char_to_int_eq b 10 (by decide)).trans ⟨fun h => Fin.ext h, fun h => by rw [h]; rfl⟩
  have e13 : char_to_int b = 13 ↔ b = 13 :=
    (char_to_int_eq b 13 (by decide)).trans ⟨fun h => Fin.ext h, fun h => by rw [h]; rfl⟩
  have e8 : char_to_int b = 8 ↔ b = 8 :=
    (char_to_int_eq b 8 (by decide)).trans ⟨fun h => Fin.ext h, fun h => by rw [h]; rfl⟩
  refine ⟨?_, ?_, ?_⟩
  · intro hb
    rcases hb with rfl | rfl
    · rw [kprint_effect_newline]
    · rfl
  · intro hb j hj
    subst hb
    rw [kprint_effect_backspace] at hj ⊢
    simp only [VGA_WIDTH] at hj ⊢
    split_ifs at hj ⊢ with hx hy
    · simp only [vga_write] at hj ⊢
      rw [if_neg hj]
    · simp only [vga_write] at hj ⊢
      rw [if_neg hj]
    · rfl
  · intro h10 h13 h8 j hj
    unfold kprint_effect
    simp only [VGA_WIDTH, vga_write]
    rw [if_neg (fun h => h10 (e10.1 h)), if_neg (fun h => h13 (e13.1 h)),
      if_neg (fun h => h8 (e8.1 h))]
    show (if j = s.cursor_y * 80 + s.cursor_x then _ else s.vga_buffer j) = _
    rw [if_neg hj]

/-- A loop iteration that does not enter `scroll_screen` leaves the grid as the
character's own effect left it. -/
theorem kprint_char_frame (b a : Fin 256) (s : Console)
    (hns : (kprint_char b a s).scrolls = s.scrolls) :
    (kprint_char b a s).vga_buffer = (kprint_effect b a s).vga_buffer := by
  unfold kprint_char at hns ⊢
  rw [update_hardware_cursor_scrolls, kprint_scroll_scrolls, kprint_wrap_scrolls,
    kprint_effect_scrolls] at hns
  have hy : (kprint_wrap (kprint_effect b a s)).cursor_y < 25 := by
    by_contra hc
    rw [if_pos (by omega)] at hns
    omega
  rw [update_hardware_cursor_buffer, kprint_scroll_id _ hy, kprint_wrap_buffer]

/-- Claim C32 (frame of a non-scrolling character): from every in-bounds state with
the cursor at (c, r), `kprint` of a single character whose processing does not enter
`scroll_screen` changes at most one grid cell: none for '\n' and '\r', at most the
cell at the new cursor position for '\b', and at most the cell at index r*80+c for
any other byte; and `kset_cursor_pos` changes no grid cell at all. -/
theorem non_scrolling_frame (b a : Fin 256) (s : Console) (x y : Int) (h : s.InBounds)
    (hns : (kprint [b] a s).scrolls = s.scrolls) :
    (∃ i : Int, ∀ j : Int, j ≠ i → (kprint [b] a s).vga_buffer j = s.vga_buffer j) ∧
    ((b = 10 ∨ b = 13) → (kprint [b] a s).vga_buffer = s.vga_buffer) ∧
    (b = 8 → ∀ j : Int,
      j ≠ (kprint [b] a s).cursor_y * 80 + (kprint [b] a s).cursor_x →
      (kprint [b] a s).vga_buffer j = s.vga_buffer j) ∧
    (b ≠ 10 → b ≠ 13 → b ≠ 8 → ∀ j : Int, j ≠ s.cursor_y * 80 + s.cursor_x →
      (kprint [b] a s).vga_buffer j = s.vga_buffer j) ∧
    (kset_cursor_pos x y s).vga_buffer = s.vga_buffer := by
  by_cases hb : b = 0
  · have e : kprint [b] a s = s := by
      subst hb
      rfl
    rw [e]
    exact ⟨⟨0, fun _ _ => rfl⟩, fun _ => rfl, fun _ _ _ => rfl, fun _ _ _ _ _ => rfl, rfl⟩
  · rw [kprint_single b a s hb] at hns ⊢
    have hf := kprint_char_frame b a s hns
    obtain ⟨f1, f2, f3⟩ := kprint_effect_frame b a s
    have p2 : b = 8 → ∀ j : Int,
        j ≠ (kprint_char b a s).cursor_y * 80 + (kprint_char b a s).cursor_x →
        (kprint_char b a s).vga_buffer j = s.vga_buffer j := by
      intro h8 j hj
      rw [hf]
      apply f2 h8 j
      subst h8
      rw [kprint_char_backspace a s h, update_hardware_cursor_x,
        update_hardware_cursor_y] at hj
      exact hj
    have p3 : b ≠ 10 → b ≠ 13 → b ≠ 8 → ∀ j : Int, j ≠ s.cursor_y * 80 + s.cursor_x →
        (kprint_char b a s).vga_buffer j = s.vga_buffer j := by
      intro h10 h13 h8 j hj
      rw [hf]
      exact f3 h10 h13 h8 j hj
    have p1 : (b = 10 ∨ b = 13) → (kprint_char b a s).vga_buffer = s.vga_buffer := by
      intro hh
      rw [hf]
      exact f1 hh
    refine ⟨?_, p1, p2, p3, rfl⟩
    by_cases h10 : b = 10
    · exact ⟨0, fun j _ => by rw [p1 (Or.inl h10)]⟩
    · by_cases h13 : b = 13
      · exact ⟨0, fun j _ => by rw [p1 (Or.inr h13)]⟩
      · by_cases h8 : b = 8
        · exact ⟨_, p2 h8⟩
        · exact ⟨_, p3 h10 h13 h8⟩

/-- Claim C32 at a concrete input: the letter 'a' printed at column 5 of row 3 changes
at most the cell 3*80+5. -/
theorem non_scrolling_frame_witness :
    sample_mid.InBounds ∧ (kprint [0x61] 0x0F sample_mid).scrolls = sample_mid.scrolls ∧
    ∀ j : Int, j ≠ sample_mid.cursor_y * 80 + sample_mid.cursor_x →
      (kprint [0x61] 0x0F sample_mid).vga_buffer j = sample_mid.vga_buffer j :=
  ⟨by decide, by decide,
   (non_scrolling_frame 0x61 0x0F sample_mid 0 0 (by decide) (by decide)).2.2.2.1
     (by decide) (by decide) (by decide)⟩

end MyOS
